import Mathlib

/-!
# Rate limiter: decision engine and in-process counting backend

A shallow embedding of `internal/limiter/limiter.go`, `internal/limiter/store/store.go`,
`internal/limiter/store/mock_store.go` and `internal/limiter/store/redis.go`.

Modelling conventions.

* An instant (`time.Time`) is an integer number of nanoseconds on one time line; a
  `time.Duration` is an integer number of nanoseconds.
* Every store operation is atomic (it runs under the store's mutex). The readings of the
  clock that one call compares with an expiry stored by an earlier call are one instant
  `now`. `MockStore.Increment` reads the clock once more when it writes a new block: the
  expiry is `time.Now().Add(...)` at the reading `now`, and the ttl it returns is
  `time.Until` of that expiry at a second reading `later`, so what that call returns is the
  block duration less the time the clock advanced between the two readings.
* Go maps are partial functions `String → Option _`; a missing key reads as the zero value
  where the source reads it that way (`m.requestCounts[key]`).
* `time.Duration(blockSeconds) * time.Second` is a 64-bit multiplication and wraps; it is
  modelled with the wrap (`secondsToDuration`), since one call with a large `blockSeconds`
  reaches it.  The `int64` request counter and the saturation of `time.Time.Sub` are out of
  reach of any run (2^63 increments of one key; a block further than 2^63 ns ahead of the
  clock, which no `Increment` creates) and are modelled by exact integer arithmetic.
* The `int` arguments `limit` and `blockSeconds` are integers; `int64(limit)` is the
  identity on them.
* A Go `error` is `Option GoError`, `none` being `nil`.
* `RedisStore` is written over an abstract client (`RedisClient`), as the source is over
  `*redis.Client`. The key-value server is a model (`RedisDB` and its commands); all the
  commands of one `RedisStore` call see the same clock reading. A client whose commands may
  fail (`RedisClient.flaky`) and a server other callers write to (`contendedServer`) are
  built on it.
-/

namespace RateLimit

/-! ## Time -/

/-- An instant, in nanoseconds. -/
abbrev Time := Int

/-- A `time.Duration`, in nanoseconds. -/
abbrev Duration := Int

/-- The constant `time.Second`. -/
def Second : Duration := 1000000000

/-- Two's-complement wrap of an integer into the `int64` range. -/
def wrapInt64 (x : Int) : Int := (x + 2 ^ 63) % 2 ^ 64 - 2 ^ 63

/-- The expression `time.Duration(blockSeconds) * time.Second`. -/
def secondsToDuration (blockSeconds : Int) : Duration := wrapInt64 (blockSeconds * Second)

/-- The method `t.After(u)`. -/
def timeAfter (t u : Time) : Bool := decide (u < t)

/-- The method `t.Before(u)`. -/
def timeBefore (t u : Time) : Bool := decide (t < u)

/-- The method `t.Add(d)`. -/
def timeAdd (t : Time) (d : Duration) : Time := t + d

/-- The call `time.Until(u)` when the clock reads `now`. -/
def timeUntil (now u : Time) : Duration := u - now

/-! ## Errors and maps -/

/-- A non-nil Go `error` value. -/
structure GoError where
  msg : String
deriving DecidableEq, Repr

/-- The package variable `ErrStorageFailure`. -/
def ErrStorageFailure : GoError := ⟨"storage operation failed"⟩

/-- The builtin `delete(m, key)`. -/
def mapDelete {α : Type} (m : String → Option α) (key : String) : String → Option α :=
  fun k => if k = key then none else m k

/-- The assignment `m[key] = v`. -/
def mapSet {α : Type} (m : String → Option α) (key : String) (v : α) : String → Option α :=
  fun k => if k = key then some v else m k

/-! ## The in-process backend (`mock_store.go`) -/

/-- The struct `MockStore` (the mutex is the atomicity of each operation). -/
structure MockStore where
  requestCounts : String → Option Int
  blockedKeys : String → Option Time
  failOnCall : Bool

/-- The constructor `NewMockStore`. -/
def NewMockStore (failOnCall : Bool) : MockStore :=
  { requestCounts := fun _ => none, blockedKeys := fun _ => none, failOnCall := failOnCall }

/-- The loop at the head of `Increment`: every entry of `blockedKeys` whose expiry the clock
has passed is deleted. -/
def sweepExpired (now : Time) (blockedKeys : String → Option Time) : String → Option Time :=
  fun k =>
    match blockedKeys k with
    | some blockedUntil => if timeAfter now blockedUntil then none else some blockedUntil
    | none => none

/-- The tail of `Increment` (from `m.requestCounts[key]++` on): count the request and block
the key when the count exceeds the limit. The clock reads `now` at `time.Now().Add(...)` and
`later` at the `time.Until(blockedUntil)` that follows it. -/
def MockStore.countRequest (m : MockStore) (now later : Time) (key : String)
    (limit blockSeconds : Int) : (Bool × Duration × Option GoError) × MockStore :=
  let count := (m.requestCounts key).getD 0 + 1
  let m1 := { m with requestCounts := mapSet m.requestCounts key count }
  if count > limit then
    let blockedUntil := timeAdd now (secondsToDuration blockSeconds)
    ((false, timeUntil later blockedUntil, none),
      { m1 with blockedKeys := mapSet m1.blockedKeys key blockedUntil })
  else
    ((true, 0, none), m1)

/-- The method `MockStore.Increment`, called when the clock reads `now`; `later` is what the
clock reads when the ttl of a block written by this call is measured. -/
def MockStore.Increment (m : MockStore) (now later : Time) (key : String)
    (limit blockSeconds : Int) : (Bool × Duration × Option GoError) × MockStore :=
  if m.failOnCall then
    ((false, 0, some ErrStorageFailure), m)
  else
    let m1 := { m with blockedKeys := sweepExpired now m.blockedKeys }
    match m1.blockedKeys key with
    | some blockedUntil =>
      if timeBefore now blockedUntil then
        ((false, timeUntil now blockedUntil, none), m1)
      else
        MockStore.countRequest { m1 with blockedKeys := mapDelete m1.blockedKeys key }
          now later key limit blockSeconds
    | none => MockStore.countRequest m1 now later key limit blockSeconds

/-- The method `MockStore.IsBlocked`, called when the clock reads `now`. -/
def MockStore.IsBlocked (m : MockStore) (now : Time) (key : String) :
    (Bool × Duration × Option GoError) × MockStore :=
  if m.failOnCall then
    ((false, 0, some ErrStorageFailure), m)
  else
    match m.blockedKeys key with
    | some blockedUntil =>
      if timeAfter now blockedUntil then
        ((false, 0, none), { m with blockedKeys := mapDelete m.blockedKeys key })
      else
        ((true, timeUntil now blockedUntil, none), m)
    | none => ((false, 0, none), m)

/-- The method `MockStore.GetRequestCount`; it does not write to the store. -/
def MockStore.GetRequestCount (m : MockStore) (key : String) : Int × Option GoError :=
  if m.failOnCall then (0, some ErrStorageFailure)
  else ((m.requestCounts key).getD 0, none)

/-- The method `MockStore.ResetCounter`. -/
def MockStore.ResetCounter (m : MockStore) (key : String) : Option GoError × MockStore :=
  if m.failOnCall then (some ErrStorageFailure, m)
  else (none, { m with requestCounts := mapDelete m.requestCounts key })

/-! ## The store contract (`store.go`) and the decision engine (`limiter.go`) -/

/-- The interface `Store`, over a backend whose state has type `σ`: each method maps the
state before the call to its results and the state after it. -/
structure Store (σ : Type) where
  Increment : σ → String → Int → Int → (Bool × Duration × Option GoError) × σ
  IsBlocked : σ → String → (Bool × Duration × Option GoError) × σ
  GetRequestCount : σ → String → (Int × Option GoError) × σ

/-- The struct `config.Config`. -/
structure Config where
  RateLimitIP : Int
  BlockDurationIP : Int
  RateLimitToken : Int
  BlockDurationToken : Int
  RedisAddr : String
  RedisPassword : String
  RedisDB : Int

/-- The struct `RateLimiter`. -/
structure RateLimiter (σ : Type) where
  cfg : Config
  store : Store σ

/-- The constant `http.StatusOK`. -/
def StatusOK : Int := 200

/-- The constant `http.StatusTooManyRequests`. -/
def StatusTooManyRequests : Int := 429

/-- The constant `http.StatusInternalServerError`. -/
def StatusInternalServerError : Int := 500

/-- The message `Allow` sends with a 429. -/
def rateLimitMessage : String :=
  "you have reached the maximum number of requests or actions allowed within a certain time frame"

/-- The limit `Allow` selects for the policy class. -/
def RateLimiter.limitFor {σ : Type} (r : RateLimiter σ) (isToken : Bool) : Int :=
  if isToken then r.cfg.RateLimitToken else r.cfg.RateLimitIP

/-- The block duration `Allow` selects for the policy class. -/
def RateLimiter.blockFor {σ : Type} (r : RateLimiter σ) (isToken : Bool) : Int :=
  if isToken then r.cfg.BlockDurationToken else r.cfg.BlockDurationIP

/-- The method `RateLimiter.Allow`, run on the backend state `s`. -/
def RateLimiter.Allow {σ : Type} (r : RateLimiter σ) (s : σ) (key : String) (isToken : Bool) :
    (Bool × Int × String) × σ :=
  let limit := r.limitFor isToken
  let block := r.blockFor isToken
  match r.store.IsBlocked s key with
  | ((blocked, _, err), s1) =>
    if err ≠ none then
      ((false, StatusInternalServerError, "internal error"), s1)
    else if blocked then
      ((false, StatusTooManyRequests, rateLimitMessage), s1)
    else
      match r.store.Increment s1 key limit block with
      | ((allowed, _, err), s2) =>
        if err ≠ none then
          ((false, StatusInternalServerError, "internal error"), s2)
        else if !allowed then
          ((false, StatusTooManyRequests, rateLimitMessage), s2)
        else
          ((true, StatusOK, ""), s2)


/-! ## Observing the calls a limiter makes -/

/-- A call of a `Store` method, with its arguments. -/
inductive StoreCall where
  | Increment (key : String) (limit blockSeconds : Int)
  | IsBlocked (key : String)
  | GetRequestCount (key : String)
deriving DecidableEq, Repr

/-- The store `st` with a log: every method behaves as in `st` and appends its call to the
log kept beside the backend state. -/
def Store.traced {σ : Type} (st : Store σ) : Store (σ × List StoreCall) :=
  { Increment := fun s key limit blockSeconds =>
      ((st.Increment s.1 key limit blockSeconds).1,
        ((st.Increment s.1 key limit blockSeconds).2,
          s.2 ++ [StoreCall.Increment key limit blockSeconds]))
    IsBlocked := fun s key =>
      ((st.IsBlocked s.1 key).1, ((st.IsBlocked s.1 key).2, s.2 ++ [StoreCall.IsBlocked key]))
    GetRequestCount := fun s key =>
      ((st.GetRequestCount s.1 key).1,
        ((st.GetRequestCount s.1 key).2, s.2 ++ [StoreCall.GetRequestCount key])) }

/-- The limiter `r` over the logging version of its store. -/
def RateLimiter.traced {σ : Type} (r : RateLimiter σ) : RateLimiter (σ × List StoreCall) :=
  { cfg := r.cfg, store := r.store.traced }

/-- The calls `Allow` makes to its store when run on the state `s`, in order. -/
def RateLimiter.callsOfAllow {σ : Type} (r : RateLimiter σ) (s : σ) (key : String)
    (isToken : Bool) : List StoreCall :=
  (r.traced.Allow (s, []) key isToken).2.2

/-- What the store answers to the `IsBlocked` call of `Allow`. -/
def RateLimiter.blockedAnswer {σ : Type} (r : RateLimiter σ) (s : σ) (key : String) :
    (Bool × Duration × Option GoError) × σ :=
  r.store.IsBlocked s key

/-- What the store answers to the `Increment` call of `Allow`, made on the state the
`IsBlocked` call left. -/
def RateLimiter.incrementAnswer {σ : Type} (r : RateLimiter σ) (s : σ) (key : String)
    (isToken : Bool) : (Bool × Duration × Option GoError) × σ :=
  r.store.Increment (r.blockedAnswer s key).2 key (r.limitFor isToken) (r.blockFor isToken)

/-! ## Running the backend and the limiter over the in-process store -/

/-- The constructor `NewRateLimiter`. -/
def NewRateLimiter {σ : Type} (cfg : Config) (store : Store σ) : RateLimiter σ :=
  { cfg := cfg, store := store }

/-- The in-process store seen through the `Store` interface while the clock reads `now`, and
`later` when `Increment` measures the ttl of a block it writes. -/
def MockStore.asStore (now later : Time) : Store MockStore :=
  { Increment := fun m key limit blockSeconds => m.Increment now later key limit blockSeconds
    IsBlocked := fun m key => m.IsBlocked now key
    GetRequestCount := fun m key => (m.GetRequestCount key, m) }

/-- Successive calls `Increment(key, limit, blockSeconds)` on the store `m`, one for each
pair `(now, later)` of clock readings of the list, in order: the answers and the store after
the last call. -/
def MockStore.incrementAll (key : String) (limit blockSeconds : Int) :
    MockStore → List (Time × Time) → List (Bool × Duration × Option GoError) × MockStore
  | m, [] => ([], m)
  | m, (now, later) :: rest =>
    ((m.Increment now later key limit blockSeconds).1 ::
        (MockStore.incrementAll key limit blockSeconds
          (m.Increment now later key limit blockSeconds).2 rest).1,
      (MockStore.incrementAll key limit blockSeconds
          (m.Increment now later key limit blockSeconds).2 rest).2)

/-- Successive calls `Allow(key, isToken)` of a limiter configured with `cfg` over the
in-process store `m`, one for each pair `(now, later)` of clock readings of the list, in
order: the answers and the store after the last call. -/
def allowAll (cfg : Config) (key : String) (isToken : Bool) :
    MockStore → List (Time × Time) → List (Bool × Int × String) × MockStore
  | m, [] => ([], m)
  | m, (now, later) :: rest =>
    (((NewRateLimiter cfg (MockStore.asStore now later)).Allow m key isToken).1 ::
        (allowAll cfg key isToken
          ((NewRateLimiter cfg (MockStore.asStore now later)).Allow m key isToken).2 rest).1,
      (allowAll cfg key isToken
          ((NewRateLimiter cfg (MockStore.asStore now later)).Allow m key isToken).2 rest).2)

/-- The configuration `config.Load` returns when no environment variable is set. -/
def defaultConfig : Config :=
  { RateLimitIP := 5, BlockDurationIP := 300, RateLimitToken := 10, BlockDurationToken := 300,
    RedisAddr := "localhost:6379", RedisPassword := "", RedisDB := 0 }

/-- The store after one call of a `Store` method on the in-process store, made when the
clock reads `now` (and `later` at the second reading of an `Increment`). -/
def MockStore.afterCall (m : MockStore) (now later : Time) : StoreCall → MockStore
  | StoreCall.Increment key limit blockSeconds =>
    (m.Increment now later key limit blockSeconds).2
  | StoreCall.IsBlocked key => (m.IsBlocked now key).2
  | StoreCall.GetRequestCount _ => m

/-- The store after a list of calls, each `(now, later, call)` with the clock readings it is
made at, in order. -/
def MockStore.afterCalls : MockStore → List (Time × Time × StoreCall) → MockStore
  | m, [] => m
  | m, (now, later, c) :: rest => MockStore.afterCalls (m.afterCall now later c) rest

/-! ## Calls of the in-process store, with their answers -/

/-- A call of a `MockStore` method, with its arguments. -/
inductive MockCall where
  | Increment (key : String) (limit blockSeconds : Int)
  | IsBlocked (key : String)
  | GetRequestCount (key : String)
  | ResetCounter (key : String)
deriving DecidableEq, Repr

/-- The key a call is about. -/
def MockCall.key : MockCall → String
  | MockCall.Increment key _ _ => key
  | MockCall.IsBlocked key => key
  | MockCall.GetRequestCount key => key
  | MockCall.ResetCounter key => key

/-- What a `MockStore` method returns. -/
inductive MockAnswer where
  | decision (r : Bool × Duration × Option GoError)
  | count (r : Int × Option GoError)
  | done (err : Option GoError)
deriving DecidableEq, Repr

/-- The error a method returned. -/
def MockAnswer.err : MockAnswer → Option GoError
  | MockAnswer.decision r => r.2.2
  | MockAnswer.count r => r.2
  | MockAnswer.done e => e

/-- One call on the in-process store when the clock reads `now` (and `later` at the second
reading of an `Increment`): what it returns and the store it leaves. -/
def MockStore.perform (m : MockStore) (now later : Time) : MockCall → MockAnswer × MockStore
  | MockCall.Increment key limit blockSeconds =>
    (MockAnswer.decision (m.Increment now later key limit blockSeconds).1,
      (m.Increment now later key limit blockSeconds).2)
  | MockCall.IsBlocked key =>
    (MockAnswer.decision (m.IsBlocked now key).1, (m.IsBlocked now key).2)
  | MockCall.GetRequestCount key => (MockAnswer.count (m.GetRequestCount key), m)
  | MockCall.ResetCounter key =>
    (MockAnswer.done (m.ResetCounter key).1, (m.ResetCounter key).2)

/-- A list of calls, each `(now, later, call)` with the clock readings it is made at, run in
order: the answers and the store after the last call. -/
def MockStore.performAll :
    MockStore → List (Time × Time × MockCall) → List MockAnswer × MockStore
  | m, [] => ([], m)
  | m, (now, later, c) :: rest =>
    ((m.perform now later c).1 :: (MockStore.performAll (m.perform now later c).2 rest).1,
      (MockStore.performAll (m.perform now later c).2 rest).2)

/-- The answers, in a run of calls, to the calls about the key `k`. -/
def MockStore.answersFor (k : String) :
    MockStore → List (Time × Time × MockCall) → List MockAnswer
  | _, [] => []
  | m, (now, later, c) :: rest =>
    if c.key = k then
      (m.perform now later c).1 :: MockStore.answersFor k (m.perform now later c).2 rest
    else MockStore.answersFor k (m.perform now later c).2 rest

/-- Two stores agree on the key `k` from the instant `t` on: they fail alike, hold the same
counter for `k`, and hold the same block for `k` once the blocks that expired before `t`
are left out. -/
def agreeOn (k : String) (t : Time) (m m2 : MockStore) : Prop :=
  m.failOnCall = m2.failOnCall ∧ m.requestCounts k = m2.requestCounts k ∧
    sweepExpired t m.blockedKeys k = sweepExpired t m2.blockedKeys k

instance (k : String) (t : Time) (m m2 : MockStore) : Decidable (agreeOn k t m m2) := by
  unfold agreeOn
  infer_instance

/-! ## The remote backend (`redis.go`) -/

/-- The client `*redis.Client`, as far as `RedisStore` uses it, over a connection whose
state has type `σ`: each command maps the state before it to its reply (value and error) and
the state after it. `SetNX` takes the value as an integer (the program only stores `"1"`),
and `GetInt64` is `Get(...).Int64()`. -/
structure RedisClient (σ : Type) where
  Exists : σ → String → (Int × Option GoError) × σ
  TTL : σ → String → (Duration × Option GoError) × σ
  Incr : σ → String → (Int × Option GoError) × σ
  Expire : σ → String → Duration → (Bool × Option GoError) × σ
  SetNX : σ → String → Int → Duration → (Bool × Option GoError) × σ
  GetInt64 : σ → String → (Int × Option GoError) × σ
  Del : σ → List String → (Int × Option GoError) × σ

/-- The struct `RedisStore`. -/
structure RedisStore (σ : Type) where
  client : RedisClient σ

/-- The key `fmt.Sprintf("block:%s", key)`. -/
def blockKeyOf (key : String) : String := "block:" ++ key

/-- The error `redis.Nil`. -/
def RedisNil : GoError := ⟨"redis: nil"⟩

/-- The tail of `RedisStore.Increment`, from `if count > int64(limit)` on. -/
def RedisStore.blockOrAllow {σ : Type} (r : RedisStore σ) (s : σ) (key : String)
    (limit blockSeconds count : Int) : (Bool × Duration × Option GoError) × σ :=
  if count > limit then
    match r.client.SetNX s (blockKeyOf key) 1 (secondsToDuration blockSeconds) with
    | ((ok, err), s1) =>
      if err ≠ none then ((false, 0, err), s1)
      else if ok then ((false, secondsToDuration blockSeconds, none), s1)
      else
        match r.client.TTL s1 (blockKeyOf key) with
        | ((blockTTL, _), s2) => ((false, blockTTL, none), s2)
  else
    match r.client.TTL s key with
    | ((ttl, _), s1) => ((true, ttl, none), s1)

/-- The method `RedisStore.Increment`, run on the connection state `s`. -/
def RedisStore.Increment {σ : Type} (r : RedisStore σ) (s : σ) (key : String)
    (limit blockSeconds : Int) : (Bool × Duration × Option GoError) × σ :=
  match r.client.Exists s (blockKeyOf key) with
  | ((blockExists, err), s1) =>
    if err ≠ none then ((false, 0, err), s1)
    else if blockExists = 1 then
      match r.client.TTL s1 (blockKeyOf key) with
      | ((blockTTL, _), s2) => ((false, blockTTL, none), s2)
    else
      match r.client.Incr s1 key with
      | ((count, err), s2) =>
        if err ≠ none then ((false, 0, err), s2)
        else if count = 1 then
          match r.client.Expire s2 key Second with
          | ((_, err), s3) =>
            if err ≠ none then ((false, 0, err), s3)
            else r.blockOrAllow s3 key limit blockSeconds count
        else r.blockOrAllow s2 key limit blockSeconds count

/-- The method `RedisStore.IsBlocked`. -/
def RedisStore.IsBlocked {σ : Type} (r : RedisStore σ) (s : σ) (key : String) :
    (Bool × Duration × Option GoError) × σ :=
  match r.client.Exists s (blockKeyOf key) with
  | ((e, err), s1) =>
    if err ≠ none then ((false, 0, err), s1)
    else if e = 1 then
      match r.client.TTL s1 (blockKeyOf key) with
      | ((ttl, _), s2) => ((true, ttl, none), s2)
    else ((false, 0, none), s1)

/-- The method `RedisStore.GetRequestCount`. -/
def RedisStore.GetRequestCount {σ : Type} (r : RedisStore σ) (s : σ) (key : String) :
    (Int × Option GoError) × σ :=
  match r.client.GetInt64 s key with
  | ((count, err), s1) =>
    match err with
    | some e =>
      if e ≠ RedisNil then ((0, some ⟨"error getting request count: " ++ e.msg⟩), s1)
      else ((count, none), s1)
    | none => ((count, none), s1)

/-- The method `RedisStore.ResetKey`. -/
def RedisStore.ResetKey {σ : Type} (r : RedisStore σ) (s : σ) (key : String) :
    Option GoError × σ :=
  ((r.client.Del s [key, blockKeyOf key]).1.2, (r.client.Del s [key, blockKeyOf key]).2)

/-! ## The key-value server the remote backend talks to -/

/-- Modelled from the spec: the networked key-value store is not part of the repository. A
stored key holds a value and, when it has a time to live, the instant it expires at. Every
value this program stores is a decimal integer, kept here as an integer. -/
structure RedisEntry where
  value : Int
  expireAt : Option Time
deriving DecidableEq, Repr

/-- Modelled from the spec: the key-value state of the server. -/
structure RedisDB where
  entries : String → Option RedisEntry

/-- The empty server. -/
def RedisDB.empty : RedisDB := { entries := fun _ => none }

/-- Modelled from the spec: the entry of a key as the server sees it when its clock reads
`now`; a key whose expiry the clock has passed is absent (native per-key TTL). -/
def RedisDB.live (db : RedisDB) (now : Time) (k : String) : Option RedisEntry :=
  match db.entries k with
  | some e =>
    match e.expireAt with
    | some x => if x < now then none else some e
    | none => some e
  | none => none

/-- The write of an entry. -/
def RedisDB.put (db : RedisDB) (k : String) (e : RedisEntry) : RedisDB :=
  { entries := mapSet db.entries k e }

/-- The removal of a key. -/
def RedisDB.remove (db : RedisDB) (k : String) : RedisDB :=
  { entries := mapDelete db.entries k }

/-- Modelled from the spec: `EXISTS key`. -/
def RedisDB.cmdExists (db : RedisDB) (now : Time) (k : String) : Int :=
  if (db.live now k).isSome then 1 else 0

/-- Modelled from the spec: `TTL key`, the remaining time of the key, `-2` for an absent key
and `-1` for a key without expiry; the rounding of the reply to whole seconds is left
out. -/
def RedisDB.cmdTTL (db : RedisDB) (now : Time) (k : String) : Duration :=
  match db.live now k with
  | some e =>
    match e.expireAt with
    | some x => x - now
    | none => -1
  | none => -2

/-- Modelled from the spec: `INCR key` creates an absent key at 1 with no expiry and adds 1
to a present key, keeping its expiry. -/
def RedisDB.cmdIncr (db : RedisDB) (now : Time) (k : String) : Int × RedisDB :=
  match db.live now k with
  | some e => (e.value + 1, db.put k { value := e.value + 1, expireAt := e.expireAt })
  | none => (1, db.put k { value := 1, expireAt := none })

/-- Modelled from the spec: `EXPIRE key seconds` as the client sends it for the duration
`d` (whole seconds, a duration under a second counting as one): a present key gets the
expiry `now + seconds`, or is removed when `seconds` is not positive. -/
def RedisDB.cmdExpire (db : RedisDB) (now : Time) (k : String) (d : Duration) :
    Bool × RedisDB :=
  match db.live now k with
  | some e =>
    if (if 0 < d ∧ d < Second then 1 else d / Second) ≤ 0 then (true, db.remove k)
    else
      (true, db.put k
        { value := e.value,
          expireAt := some (now + (if 0 < d ∧ d < Second then 1 else d / Second) * Second) })
  | none => (false, db)

/-- The error of the server for a `SET` with an expiry that is not positive. -/
def invalidExpire : GoError := ⟨"ERR invalid expire time in set command"⟩

/-- Modelled from the spec: `SetNX(key, value, d)`, a set-if-absent. With `d = 0` it is
`SETNX` and the key gets no expiry; with `d > 0` it is `SET ... NX` with the expiry `d`, in
whole seconds when `d` is a number of seconds and in milliseconds otherwise; with `d < 0`
the server rejects the command. A present key is left as it is and the reply is false. -/
def RedisDB.cmdSetNX (db : RedisDB) (now : Time) (k : String) (v : Int) (d : Duration) :
    (Bool × Option GoError) × RedisDB :=
  if d < 0 then ((false, some invalidExpire), db)
  else
    match db.live now k with
    | some _ => ((false, none), db)
    | none =>
      if d = 0 then ((true, none), db.put k { value := v, expireAt := none })
      else if d < Second ∨ d % Second ≠ 0 then
        ((true, none), db.put k
          { value := v, expireAt := some (now + max 1 (d / 1000000) * 1000000) })
      else ((true, none), db.put k { value := v, expireAt := some (now + d) })

/-- Modelled from the spec: `GET key` read as an integer; `redis.Nil` for an absent key. -/
def RedisDB.cmdGet (db : RedisDB) (now : Time) (k : String) : Int × Option GoError :=
  match db.live now k with
  | some e => (e.value, none)
  | none => (0, some RedisNil)

/-- Modelled from the spec: `DEL key ...`, the number of keys removed and the state left. -/
def RedisDB.cmdDel (db : RedisDB) (now : Time) : List String → Int × RedisDB
  | [] => (0, db)
  | k :: rest =>
    ((if (db.live now k).isSome then 1 else 0) + (RedisDB.cmdDel (db.remove k) now rest).1,
      (RedisDB.cmdDel (db.remove k) now rest).2)

/-- A client connected to the server while its clock reads `now`, every command reaching the
server and being answered. -/
def redisServer (now : Time) : RedisClient RedisDB :=
  { Exists := fun db k => ((db.cmdExists now k, none), db)
    TTL := fun db k => ((db.cmdTTL now k, none), db)
    Incr := fun db k => (((db.cmdIncr now k).1, none), (db.cmdIncr now k).2)
    Expire := fun db k d => (((db.cmdExpire now k d).1, none), (db.cmdExpire now k d).2)
    SetNX := fun db k v d => db.cmdSetNX now k v d
    GetInt64 := fun db k => (db.cmdGet now k, db)
    Del := fun db ks => (((db.cmdDel now ks).1, none), (db.cmdDel now ks).2) }

/-- The error of a command that does not reach the server. -/
def connectionError : GoError := ⟨"dial tcp: connection refused"⟩

/-- Whether the coming command fails: the first flag, no flag being no failure. -/
def nextFails : List Bool → Bool
  | f :: _ => f
  | [] => false

/-- A client whose commands may fail: the connection state carries one flag for each coming
command, and a command whose flag is set returns `connectionError` without reaching the
underlying client. -/
def RedisClient.flaky {σ : Type} (c : RedisClient σ) : RedisClient (σ × List Bool) :=
  { Exists := fun s k =>
      if nextFails s.2 then ((0, some connectionError), (s.1, s.2.tail))
      else ((c.Exists s.1 k).1, ((c.Exists s.1 k).2, s.2.tail))
    TTL := fun s k =>
      if nextFails s.2 then ((0, some connectionError), (s.1, s.2.tail))
      else ((c.TTL s.1 k).1, ((c.TTL s.1 k).2, s.2.tail))
    Incr := fun s k =>
      if nextFails s.2 then ((0, some connectionError), (s.1, s.2.tail))
      else ((c.Incr s.1 k).1, ((c.Incr s.1 k).2, s.2.tail))
    Expire := fun s k d =>
      if nextFails s.2 then ((false, some connectionError), (s.1, s.2.tail))
      else ((c.Expire s.1 k d).1, ((c.Expire s.1 k d).2, s.2.tail))
    SetNX := fun s k v d =>
      if nextFails s.2 then ((false, some connectionError), (s.1, s.2.tail))
      else ((c.SetNX s.1 k v d).1, ((c.SetNX s.1 k v d).2, s.2.tail))
    GetInt64 := fun s k =>
      if nextFails s.2 then ((0, some connectionError), (s.1, s.2.tail))
      else ((c.GetInt64 s.1 k).1, ((c.GetInt64 s.1 k).2, s.2.tail))
    Del := fun s ks =>
      if nextFails s.2 then ((0, some connectionError), (s.1, s.2.tail))
      else ((c.Del s.1 ks).1, ((c.Del s.1 ks).2, s.2.tail)) }

/-- A write another caller sends to the server. -/
inductive RedisWrite where
  | incr (k : String)
  | expire (k : String) (d : Duration)
  | setNX (k : String) (v : Int) (d : Duration)
  | del (ks : List String)
deriving DecidableEq, Repr

/-- The server state after a write of another caller. -/
def RedisDB.applyWrite (db : RedisDB) (now : Time) : RedisWrite → RedisDB
  | RedisWrite.incr k => (db.cmdIncr now k).2
  | RedisWrite.expire k d => (db.cmdExpire now k d).2
  | RedisWrite.setNX k v d => (db.cmdSetNX now k v d).2
  | RedisWrite.del ks => (db.cmdDel now ks).2

/-- The server state after a list of writes of other callers. -/
def RedisDB.applyWrites (db : RedisDB) (now : Time) : List RedisWrite → RedisDB
  | [] => db
  | w :: rest => RedisDB.applyWrites (db.applyWrite now w) now rest

/-- A client connected to a server that other callers write to: the connection state
carries, for each coming command, the writes of other callers the server runs before it. -/
def contendedServer (now : Time) : RedisClient (RedisDB × List (List RedisWrite)) :=
  { Exists := fun s k =>
      (((s.1.applyWrites now (s.2.headD [])).cmdExists now k, none),
        (s.1.applyWrites now (s.2.headD []), s.2.tail))
    TTL := fun s k =>
      (((s.1.applyWrites now (s.2.headD [])).cmdTTL now k, none),
        (s.1.applyWrites now (s.2.headD []), s.2.tail))
    Incr := fun s k =>
      ((((s.1.applyWrites now (s.2.headD [])).cmdIncr now k).1, none),
        (((s.1.applyWrites now (s.2.headD [])).cmdIncr now k).2, s.2.tail))
    Expire := fun s k d =>
      ((((s.1.applyWrites now (s.2.headD [])).cmdExpire now k d).1, none),
        (((s.1.applyWrites now (s.2.headD [])).cmdExpire now k d).2, s.2.tail))
    SetNX := fun s k v d =>
      (((s.1.applyWrites now (s.2.headD [])).cmdSetNX now k v d).1,
        (((s.1.applyWrites now (s.2.headD [])).cmdSetNX now k v d).2, s.2.tail))
    GetInt64 := fun s k =>
      ((s.1.applyWrites now (s.2.headD [])).cmdGet now k,
        (s.1.applyWrites now (s.2.headD []), s.2.tail))
    Del := fun s ks =>
      ((((s.1.applyWrites now (s.2.headD [])).cmdDel now ks).1, none),
        (((s.1.applyWrites now (s.2.headD [])).cmdDel now ks).2, s.2.tail)) }

/-- Successive calls `Increment(key, limit, blockSeconds)` of the remote backend, made one
after the other without errors, one for each clock reading of the list: the answers and the
server state after the last call. -/
def RedisStore.incrementAll (key : String) (limit blockSeconds : Int) :
    RedisDB → List Time → List (Bool × Duration × Option GoError) × RedisDB
  | db, [] => ([], db)
  | db, now :: rest =>
    (((RedisStore.mk (redisServer now)).Increment db key limit blockSeconds).1 ::
        (RedisStore.incrementAll key limit blockSeconds
          ((RedisStore.mk (redisServer now)).Increment db key limit blockSeconds).2 rest).1,
      (RedisStore.incrementAll key limit blockSeconds
          ((RedisStore.mk (redisServer now)).Increment db key limit blockSeconds).2 rest).2)

/-- Every value the server holds is at least 1, as in every state this program writes: the
block sentinel is 1 and a counter starts at 1 and grows. -/
def RedisDB.valuesPositive (db : RedisDB) : Prop :=
  ∀ k e, db.entries k = some e → 1 ≤ e.value

/-- The server state once a call of `RedisStore.Increment` that found no block key has
counted: the counter key holds the count the `INCR` returned, with the expiry it had, or
with the expiry `now + 1 s` when that count is 1. -/
def RedisDB.counted (db : RedisDB) (now : Time) (key : String) : RedisDB :=
  db.put key
    { value := (db.cmdIncr now key).1,
      expireAt := if (db.cmdIncr now key).1 = 1 then some (now + Second)
        else (db.live now key).bind fun e => e.expireAt }

/-! ## The decision engine over an arbitrary store -/

theorem Allow_unfold {σ : Type} (r : RateLimiter σ) (s : σ) (key : String) (isToken : Bool) :
    r.Allow s key isToken =
      if (r.blockedAnswer s key).1.2.2 ≠ none then
        ((false, StatusInternalServerError, "internal error"), (r.blockedAnswer s key).2)
      else if (r.blockedAnswer s key).1.1 then
        ((false, StatusTooManyRequests, rateLimitMessage), (r.blockedAnswer s key).2)
      else if (r.incrementAnswer s key isToken).1.2.2 ≠ none then
        ((false, StatusInternalServerError, "internal error"),
          (r.incrementAnswer s key isToken).2)
      else if !(r.incrementAnswer s key isToken).1.1 then
        ((false, StatusTooManyRequests, rateLimitMessage), (r.incrementAnswer s key isToken).2)
      else
        ((true, StatusOK, ""), (r.incrementAnswer s key isToken).2) := by
  rfl

theorem callsOfAllow_unfold {σ : Type} (r : RateLimiter σ) (s : σ) (key : String)
    (isToken : Bool) :
    r.callsOfAllow s key isToken =
      if (r.blockedAnswer s key).1.2.2 ≠ none then [StoreCall.IsBlocked key]
      else if (r.blockedAnswer s key).1.1 then [StoreCall.IsBlocked key]
      else [StoreCall.IsBlocked key,
        StoreCall.Increment key (r.limitFor isToken) (r.blockFor isToken)] := by
  unfold RateLimiter.callsOfAllow
  rw [Allow_unfold]
  simp only [RateLimiter.blockedAnswer, RateLimiter.incrementAnswer, RateLimiter.traced,
    Store.traced, RateLimiter.limitFor, RateLimiter.blockFor]
  split_ifs <;> simp

/-- The logging store changes neither the decision nor the backend state. -/
theorem traced_Allow {σ : Type} (r : RateLimiter σ) (s : σ) (log : List StoreCall)
    (key : String) (isToken : Bool) :
    (r.traced.Allow (s, log) key isToken).1 = (r.Allow s key isToken).1 ∧
      (r.traced.Allow (s, log) key isToken).2.1 = (r.Allow s key isToken).2 := by
  rw [Allow_unfold, Allow_unfold]
  simp only [RateLimiter.blockedAnswer, RateLimiter.incrementAnswer, RateLimiter.traced,
    Store.traced, RateLimiter.limitFor, RateLimiter.blockFor]
  split_ifs <;> simp

/-- C3. Fail closed, for every store, state, key and policy class: when `IsBlocked` returns
an error, `Allow` returns `(false, 500, "internal error")` and `IsBlocked` is the only call
it makes; when `IsBlocked` answers not-blocked without error and `Increment` returns an
error, `Allow` returns `(false, 500, "internal error")`; and when `Allow` returns
`allowed = true`, the calls it made are `IsBlocked` and `Increment` and neither returned an
error. -/
theorem Allow_fail_closed {σ : Type} (r : RateLimiter σ) (s : σ) (key : String)
    (isToken : Bool) :
    ((r.blockedAnswer s key).1.2.2 ≠ none →
        (r.Allow s key isToken).1 = (false, 500, "internal error") ∧
        (r.Allow s key isToken).2 = (r.blockedAnswer s key).2 ∧
        r.callsOfAllow s key isToken = [StoreCall.IsBlocked key]) ∧
    ((r.blockedAnswer s key).1.1 = false → (r.blockedAnswer s key).1.2.2 = none →
        (r.incrementAnswer s key isToken).1.2.2 ≠ none →
        (r.Allow s key isToken).1 = (false, 500, "internal error") ∧
        r.callsOfAllow s key isToken = [StoreCall.IsBlocked key,
          StoreCall.Increment key (r.limitFor isToken) (r.blockFor isToken)]) ∧
    ((r.Allow s key isToken).1.1 = true →
        r.callsOfAllow s key isToken = [StoreCall.IsBlocked key,
          StoreCall.Increment key (r.limitFor isToken) (r.blockFor isToken)] ∧
        (r.blockedAnswer s key).1.2.2 = none ∧
        (r.incrementAnswer s key isToken).1.2.2 = none) := by
  rw [Allow_unfold, callsOfAllow_unfold]
  refine ⟨?_, ?_, ?_⟩
  · intro h
    simp [h, StatusInternalServerError]
  · intro h1 h2 h3
    simp [h1, h2, h3, StatusInternalServerError]
  · split_ifs <;> simp_all

/-- C4. Decision mapping, for every store, state, key and policy class: `Allow` returns
`(true, 200, "")` exactly when `IsBlocked` answered not-blocked without error and the
following `Increment` answered allowed without error; when `IsBlocked` answers blocked
without error, `Allow` returns `(false, 429, rateLimitMessage)`, `IsBlocked` is the only call
it makes and the backend state is the one `IsBlocked` left; when `Increment` answers denied
without error, `Allow` returns the same 429 answer; and `Allow` returns exactly one of the
three answers 200, 429, 500. -/
theorem Allow_decision_mapping {σ : Type} (r : RateLimiter σ) (s : σ) (key : String)
    (isToken : Bool) :
    ((r.Allow s key isToken).1 = (true, 200, "") ↔
        ((r.blockedAnswer s key).1.1 = false ∧ (r.blockedAnswer s key).1.2.2 = none ∧
          (r.incrementAnswer s key isToken).1.1 = true ∧
          (r.incrementAnswer s key isToken).1.2.2 = none)) ∧
    ((r.blockedAnswer s key).1.1 = true → (r.blockedAnswer s key).1.2.2 = none →
        (r.Allow s key isToken).1 = (false, 429, rateLimitMessage) ∧
        (r.Allow s key isToken).2 = (r.blockedAnswer s key).2 ∧
        r.callsOfAllow s key isToken = [StoreCall.IsBlocked key]) ∧
    ((r.blockedAnswer s key).1.1 = false → (r.blockedAnswer s key).1.2.2 = none →
        (r.incrementAnswer s key isToken).1.1 = false →
        (r.incrementAnswer s key isToken).1.2.2 = none →
        (r.Allow s key isToken).1 = (false, 429, rateLimitMessage)) ∧
    ((r.Allow s key isToken).1 = (true, 200, "") ∨
        (r.Allow s key isToken).1 = (false, 429, rateLimitMessage) ∨
        (r.Allow s key isToken).1 = (false, 500, "internal error")) ∧
    ¬ ((r.Allow s key isToken).1 = (true, 200, "") ∧
        (r.Allow s key isToken).1 = (false, 429, rateLimitMessage)) ∧
    ¬ ((r.Allow s key isToken).1 = (true, 200, "") ∧
        (r.Allow s key isToken).1 = (false, 500, "internal error")) ∧
    ¬ ((r.Allow s key isToken).1 = (false, 429, rateLimitMessage) ∧
        (r.Allow s key isToken).1 = (false, 500, "internal error")) := by
  rw [Allow_unfold, callsOfAllow_unfold]
  refine ⟨?_, ?_, ?_, ?_, ?_, ?_, ?_⟩
  · split_ifs <;> simp_all [StatusOK, StatusTooManyRequests, StatusInternalServerError]
  · intro h1 h2
    simp [h1, h2, StatusTooManyRequests]
  · intro h1 h2 h3 h4
    simp [h1, h2, h3, h4, StatusTooManyRequests]
  · split_ifs <;> simp [StatusOK, StatusTooManyRequests, StatusInternalServerError]
  · rintro ⟨h1, h2⟩
    rw [h1] at h2
    simp at h2
  · rintro ⟨h1, h2⟩
    rw [h1] at h2
    simp at h2
  · rintro ⟨h1, h2⟩
    rw [h1] at h2
    simp at h2
/-! ## The in-process store: one call -/

/-- The value `m.requestCounts[key]` reads. -/
theorem countRequest_spec (m : MockStore) (now later : Time) (key : String) (limit b : Int) :
    (m.countRequest now later key limit b).1 =
        (decide ((m.requestCounts key).getD 0 + 1 ≤ limit),
          if (m.requestCounts key).getD 0 + 1 ≤ limit then 0
          else now + secondsToDuration b - later, none) ∧
      (m.countRequest now later key limit b).2.failOnCall = m.failOnCall ∧
      (m.countRequest now later key limit b).2.requestCounts =
        mapSet m.requestCounts key ((m.requestCounts key).getD 0 + 1) ∧
      (m.countRequest now later key limit b).2.blockedKeys =
        if (m.requestCounts key).getD 0 + 1 ≤ limit then m.blockedKeys
        else mapSet m.blockedKeys key (now + secondsToDuration b) := by
  unfold MockStore.countRequest
  by_cases h : (m.requestCounts key).getD 0 + 1 ≤ limit
  · have h2 : ¬ (m.requestCounts key).getD 0 + 1 > limit := by omega
    simp [h, h2]
  · have h2 : (m.requestCounts key).getD 0 + 1 > limit := by omega
    simp [h, h2, timeUntil, timeAdd]

theorem sweepExpired_apply (now : Time) (bk : String → Option Time) (k : String) :
    sweepExpired now bk k = (bk k).bind fun e => if e < now then none else some e := by
  unfold sweepExpired timeAfter
  cases h : bk k <;> simp

theorem sweepExpired_eq_some (now : Time) (bk : String → Option Time) (k : String) (e : Time) :
    sweepExpired now bk k = some e ↔ bk k = some e ∧ now ≤ e := by
  rw [sweepExpired_apply]
  cases h : bk k with
  | none => simp
  | some e2 =>
    by_cases h2 : e2 < now
    · simp [h2]
      intro h3
      linarith
    · simp [h2]
      intro h3
      linarith

theorem sweepExpired_eq_none (now : Time) (bk : String → Option Time) (k : String) :
    sweepExpired now bk k = none ↔ ∀ e, bk k = some e → e < now := by
  rw [sweepExpired_apply]
  cases h : bk k with
  | none => simp
  | some e2 =>
    by_cases h2 : e2 < now <;> simp [h2]

/-- A call that finds an unexpired block of its key: the answer is the remaining time of
the block, and the store changes only by the sweep of expired blocks. -/
theorem Increment_blocked (m : MockStore) (now later : Time) (key : String) (limit b : Int)
    (e : Time) (hf : m.failOnCall = false) (hb : m.blockedKeys key = some e) (ht : now < e) :
    m.Increment now later key limit b =
      ((false, e - now, none), { m with blockedKeys := sweepExpired now m.blockedKeys }) := by
  have hs : sweepExpired now m.blockedKeys key = some e :=
    (sweepExpired_eq_some now m.blockedKeys key e).2 ⟨hb, by linarith⟩
  unfold MockStore.Increment
  simp [hf, hs, timeBefore, ht, timeUntil]

/-- A call that finds no unexpired block of its key counts the request. -/
theorem Increment_open (m : MockStore) (now later : Time) (key : String) (limit b : Int)
    (hf : m.failOnCall = false) (hb : ∀ e, m.blockedKeys key = some e → e ≤ now) :
    m.Increment now later key limit b =
      MockStore.countRequest
        { m with blockedKeys := mapDelete (sweepExpired now m.blockedKeys) key }
        now later key limit b := by
  unfold MockStore.Increment
  simp only [hf, Bool.false_eq_true, if_false]
  cases hs : sweepExpired now m.blockedKeys key with
  | none =>
    have : mapDelete (sweepExpired now m.blockedKeys) key = sweepExpired now m.blockedKeys := by
      funext k
      unfold mapDelete
      by_cases hk : k = key
      · simp [hk, hs]
      · simp [hk]
    simp [this]
  | some e =>
    have he := (sweepExpired_eq_some now m.blockedKeys key e).1 hs
    have h2 : ¬ now < e := by
      have := hb e he.1
      linarith
    simp [timeBefore, h2]

/-- The three ways `IsBlocked` answers on a store that does not fail. -/
theorem IsBlocked_spec (m : MockStore) (now : Time) (key : String) (hf : m.failOnCall = false) :
    (m.blockedKeys key = none → m.IsBlocked now key = ((false, 0, none), m)) ∧
    (∀ e, m.blockedKeys key = some e → e < now →
      m.IsBlocked now key =
        ((false, 0, none), { m with blockedKeys := mapDelete m.blockedKeys key })) ∧
    (∀ e, m.blockedKeys key = some e → now ≤ e →
      m.IsBlocked now key = ((true, e - now, none), m)) := by
  unfold MockStore.IsBlocked
  refine ⟨?_, ?_, ?_⟩
  · intro h
    simp [hf, h]
  · intro e h h2
    simp [hf, h, timeAfter, h2]
  · intro e h h2
    have h3 : ¬ e < now := by linarith
    simp [hf, h, timeAfter, h3, timeUntil]

/-! ## The limiter over the in-process store: one call -/

theorem mockAllow_unfold (cfg : Config) (m : MockStore) (now later : Time) (key : String)
    (isToken : Bool) (L B : Int)
    (hL : (NewRateLimiter cfg (MockStore.asStore now later)).limitFor isToken = L)
    (hB : (NewRateLimiter cfg (MockStore.asStore now later)).blockFor isToken = B) :
    (NewRateLimiter cfg (MockStore.asStore now later)).Allow m key isToken =
      if (m.IsBlocked now key).1.2.2 ≠ none then
        ((false, 500, "internal error"), (m.IsBlocked now key).2)
      else if (m.IsBlocked now key).1.1 then
        ((false, 429, rateLimitMessage), (m.IsBlocked now key).2)
      else if ((m.IsBlocked now key).2.Increment now later key L B).1.2.2 ≠ none then
        ((false, 500, "internal error"), ((m.IsBlocked now key).2.Increment now later key L B).2)
      else if !((m.IsBlocked now key).2.Increment now later key L B).1.1 then
        ((false, 429, rateLimitMessage), ((m.IsBlocked now key).2.Increment now later key L B).2)
      else
        ((true, 200, ""), ((m.IsBlocked now key).2.Increment now later key L B).2) := by
  subst hL hB
  rfl

/-- One `Allow` over a store that does not fail: a block of the key that has not expired
gives 429 and leaves the store as it is; otherwise the request is counted, and the answer is
200 when the new count is within the limit and 429, with a new block, when it is not. -/
theorem mockAllow_spec (cfg : Config) (m : MockStore) (now later : Time) (key : String)
    (isToken : Bool) (hf : m.failOnCall = false) :
    ((NewRateLimiter cfg (MockStore.asStore now later)).Allow m key isToken).2.failOnCall =
      false ∧
    ((∃ e, m.blockedKeys key = some e ∧ now ≤ e) →
      (NewRateLimiter cfg (MockStore.asStore now later)).Allow m key isToken =
        ((false, 429, rateLimitMessage), m)) ∧
    ((∀ e, m.blockedKeys key = some e → e < now) →
      ((NewRateLimiter cfg (MockStore.asStore now later)).Allow m key isToken).1 =
          (if (m.requestCounts key).getD 0 + 1 ≤
              (NewRateLimiter cfg (MockStore.asStore now later)).limitFor isToken
            then (true, 200, "") else (false, 429, rateLimitMessage)) ∧
        ((NewRateLimiter cfg (MockStore.asStore now later)).Allow m key isToken).2.requestCounts =
          mapSet m.requestCounts key ((m.requestCounts key).getD 0 + 1) ∧
        ((NewRateLimiter cfg (MockStore.asStore now later)).Allow m key isToken).2.blockedKeys key =
          (if (m.requestCounts key).getD 0 + 1 ≤
              (NewRateLimiter cfg (MockStore.asStore now later)).limitFor isToken
            then none
            else some (now + secondsToDuration
              ((NewRateLimiter cfg (MockStore.asStore now later)).blockFor isToken)))) := by
  rw [mockAllow_unfold cfg m now later key isToken _ _ rfl rfl]
  generalize (NewRateLimiter cfg (MockStore.asStore now later)).limitFor isToken = L
  generalize (NewRateLimiter cfg (MockStore.asStore now later)).blockFor isToken = B
  obtain ⟨h1, h2, h3⟩ := IsBlocked_spec m now key hf
  cases hb : m.blockedKeys key with
  | none =>
    have ho := Increment_open m now later key L B hf (by simp [hb])
    obtain ⟨c1, c2, c3, c4⟩ := countRequest_spec
      { m with blockedKeys := mapDelete (sweepExpired now m.blockedKeys) key } now later key L B
    rw [h1 hb]
    simp only
    rw [ho]
    simp only at c1 c2 c3 c4 ⊢
    by_cases hc : (m.requestCounts key).getD 0 + 1 ≤ L
    · simp [c1, c2, c3, c4, hc, mapDelete]
      exact hf
    · simp [c1, c2, c3, c4, hc, mapSet]
      exact hf
  | some e =>
    by_cases ht : e < now
    · have ho := Increment_open { m with blockedKeys := mapDelete m.blockedKeys key } now later key
        L B hf (by simp [mapDelete])
      obtain ⟨c1, c2, c3, c4⟩ := countRequest_spec
        { m with blockedKeys :=
            mapDelete (sweepExpired now (mapDelete m.blockedKeys key)) key } now later key L B
      rw [h2 e hb ht]
      simp only
      rw [ho]
      simp only at c1 c2 c3 c4 ⊢
      have hne : ¬ now ≤ e := by linarith
      by_cases hc : (m.requestCounts key).getD 0 + 1 ≤ L
      · simp [c1, c2, c3, c4, hc, mapDelete, hne]
        exact hf
      · simp [c1, c2, c3, c4, hc, mapSet, hne]
        exact hf
    · have hle : now ≤ e := by linarith
      rw [h3 e hb hle]
      simp [hf, ht]

/-! ## The limiter over the in-process store: a run of calls -/

theorem allowAll_length (cfg : Config) (key : String) (isToken : Bool)
    (ts : List (Time × Time)) :
    ∀ m : MockStore, (allowAll cfg key isToken m ts).1.length = ts.length := by
  induction ts with
  | nil => intro m; rfl
  | cons x rest ih =>
    obtain ⟨now, later⟩ := x
    intro m
    simp [allowAll, ih]

/-- Once the count of the key has reached the limit, every further `Allow` answers 429. -/
theorem allowAll_over_limit (cfg : Config) (key : String) (isToken : Bool)
    (ts : List (Time × Time)) :
    ∀ m : MockStore, m.failOnCall = false →
      (if isToken then cfg.RateLimitToken else cfg.RateLimitIP) <
        (m.requestCounts key).getD 0 + 1 →
      ∀ i, i < ts.length →
        (allowAll cfg key isToken m ts).1[i]? = some (false, 429, rateLimitMessage) := by
  induction ts with
  | nil => intro m _ _ i hi; simp at hi
  | cons x rest ih =>
    obtain ⟨now, later⟩ := x
    intro m hf hc i hi
    obtain ⟨s1, s2, s3⟩ := mockAllow_spec cfg m now later key isToken hf
    have hL : (NewRateLimiter cfg (MockStore.asStore now later)).limitFor isToken =
        (if isToken then cfg.RateLimitToken else cfg.RateLimitIP) := rfl
    rw [hL] at s3
    by_cases hb : ∃ e, m.blockedKeys key = some e ∧ now ≤ e
    · have h := s2 hb
      cases i with
      | zero => simp [allowAll, h]
      | succ j =>
        have hj : j < rest.length := by simpa using hi
        have := ih m hf hc j hj
        simpa [allowAll, h] using this
    · have hb2 : ∀ e, m.blockedKeys key = some e → e < now := by
        intro e he
        by_contra hne
        exact hb ⟨e, he, by linarith⟩
      obtain ⟨r1, r2, _⟩ := s3 hb2
      have hnot : ¬ (m.requestCounts key).getD 0 + 1 ≤
          (if isToken then cfg.RateLimitToken else cfg.RateLimitIP) := by linarith
      rw [if_neg hnot] at r1
      cases i with
      | zero => simp [allowAll, r1]
      | succ j =>
        have hj : j < rest.length := by simpa using hi
        have hc2 : (if isToken then cfg.RateLimitToken else cfg.RateLimitIP) <
            (((NewRateLimiter cfg (MockStore.asStore now later)).Allow m key
              isToken).2.requestCounts key).getD 0 + 1 := by
          rw [r2]
          simp only [mapSet, if_true, Option.getD_some]
          linarith
        have := ih _ s1 hc2 j hj
        simpa [allowAll] using this

/-- From a store in which the key has no block and has count `c`, the call number `i + 1`
of a run is answered 200 while `c + i + 1` is within the limit and 429 afterwards. -/
theorem allowAll_from_count (cfg : Config) (key : String) (isToken : Bool)
    (ts : List (Time × Time)) :
    ∀ m : MockStore, m.failOnCall = false → m.blockedKeys key = none →
      ∀ i, i < ts.length →
        (allowAll cfg key isToken m ts).1[i]? =
          some (if (m.requestCounts key).getD 0 + (i : Int) + 1 ≤
              (if isToken then cfg.RateLimitToken else cfg.RateLimitIP)
            then (true, 200, "") else (false, 429, rateLimitMessage)) := by
  induction ts with
  | nil => intro m _ _ i hi; simp at hi
  | cons x rest ih =>
    obtain ⟨now, later⟩ := x
    intro m hf hb i hi
    obtain ⟨s1, _, s3⟩ := mockAllow_spec cfg m now later key isToken hf
    have hL : (NewRateLimiter cfg (MockStore.asStore now later)).limitFor isToken =
        (if isToken then cfg.RateLimitToken else cfg.RateLimitIP) := rfl
    rw [hL] at s3
    obtain ⟨r1, r2, r3⟩ := s3 (by simp [hb])
    cases i with
    | zero => simp [allowAll, r1]
    | succ j =>
      have hj : j < rest.length := by simpa using hi
      have hcnt : (((NewRateLimiter cfg (MockStore.asStore now later)).Allow m key
          isToken).2.requestCounts key).getD 0 = (m.requestCounts key).getD 0 + 1 := by
        rw [r2]
        simp [mapSet]
      by_cases hc : (m.requestCounts key).getD 0 + 1 ≤
          (if isToken then cfg.RateLimitToken else cfg.RateLimitIP)
      · rw [if_pos hc] at r3
        have := ih _ s1 r3 j hj
        rw [hcnt] at this
        have e1 : (m.requestCounts key).getD 0 + ((j + 1 : Nat) : Int) + 1 =
            (m.requestCounts key).getD 0 + 1 + (j : Int) + 1 := by push_cast; ring
        rw [e1]
        simpa [allowAll] using this
      · have hlt : (if isToken then cfg.RateLimitToken else cfg.RateLimitIP) <
            (((NewRateLimiter cfg (MockStore.asStore now later)).Allow m key
              isToken).2.requestCounts key).getD 0 + 1 := by
          rw [hcnt]
          linarith
        have := allowAll_over_limit cfg key isToken rest _ s1 hlt j hj
        have hnot : ¬ (m.requestCounts key).getD 0 + ((j + 1 : Nat) : Int) + 1 ≤
            (if isToken then cfg.RateLimitToken else cfg.RateLimitIP) := by
          push_cast
          have : (0 : Int) ≤ (j : Int) := Int.natCast_nonneg j
          linarith
        rw [if_neg hnot]
        simpa [allowAll] using this

/-- Only the limit and block duration of the policy class in use reach the store. -/
theorem allowAll_congr (cfg cfg2 : Config) (key : String) (isToken : Bool)
    (ts : List (Time × Time))
    (hL : (if isToken then cfg2.RateLimitToken else cfg2.RateLimitIP) =
      (if isToken then cfg.RateLimitToken else cfg.RateLimitIP))
    (hB : (if isToken then cfg2.BlockDurationToken else cfg2.BlockDurationIP) =
      (if isToken then cfg.BlockDurationToken else cfg.BlockDurationIP)) :
    ∀ m : MockStore, allowAll cfg2 key isToken m ts = allowAll cfg key isToken m ts := by
  induction ts with
  | nil => intro m; rfl
  | cons x rest ih =>
    obtain ⟨now, later⟩ := x
    intro m
    have h : (NewRateLimiter cfg2 (MockStore.asStore now later)).Allow m key isToken =
        (NewRateLimiter cfg (MockStore.asStore now later)).Allow m key isToken := by
      rw [mockAllow_unfold cfg2 m now later key isToken _ _ hL hB,
        mockAllow_unfold cfg m now later key isToken _ _ rfl rfl]
      rfl
    simp only [allowAll, h, ih]

/-- C1. End-to-end limit enforcement. On a store that does not fail and in which the key has
no counter and no block, in a run of `Allow(key, isToken)` calls at any clock readings `ts`
(in particular non-decreasing ones inside the block), call number `i + 1` returns
`(true, 200, "")` when `i + 1 ≤ L` and `(false, 429, rateLimitMessage)` when `i + 1 > L`,
`L` being `RateLimitToken` for a token and `RateLimitIP` otherwise; and a configuration
that differs only in the other policy class gives the same answers and the same store. -/
theorem allow_enforces_limit (cfg : Config) (key : String) (isToken : Bool) (m : MockStore)
    (ts : List (Time × Time)) (hf : m.failOnCall = false) (hc : m.requestCounts key = none)
    (hb : m.blockedKeys key = none) :
    (allowAll cfg key isToken m ts).1.length = ts.length ∧
    (∀ i, i < ts.length →
      (allowAll cfg key isToken m ts).1[i]? =
        some (if ((i : Int) + 1 ≤ (if isToken then cfg.RateLimitToken else cfg.RateLimitIP))
          then (true, 200, "") else (false, 429, rateLimitMessage))) ∧
    (∀ cfg2 : Config,
      (if isToken then cfg2.RateLimitToken else cfg2.RateLimitIP) =
        (if isToken then cfg.RateLimitToken else cfg.RateLimitIP) →
      (if isToken then cfg2.BlockDurationToken else cfg2.BlockDurationIP) =
        (if isToken then cfg.BlockDurationToken else cfg.BlockDurationIP) →
      allowAll cfg2 key isToken m ts = allowAll cfg key isToken m ts) := by
  refine ⟨allowAll_length cfg key isToken ts m, ?_, ?_⟩
  · intro i hi
    have := allowAll_from_count cfg key isToken ts m hf hb i hi
    rw [hc] at this
    simpa using this
  · intro cfg2 hL hB
    exact allowAll_congr cfg cfg2 key isToken ts hL hB m

theorem allow_enforces_limit_witness :
    (NewMockStore false).failOnCall = false ∧
    (NewMockStore false).requestCounts "ip:10.0.0.7" = none ∧
    (NewMockStore false).blockedKeys "ip:10.0.0.7" = none ∧
    (allowAll defaultConfig "ip:10.0.0.7" false (NewMockStore false)
      [(0, 1), (10, 11), (20, 22), (30, 30), (40, 41), (50, 53), (60, 61)]).1 =
      [(true, 200, ""), (true, 200, ""), (true, 200, ""), (true, 200, ""), (true, 200, ""),
        (false, 429, rateLimitMessage), (false, 429, rateLimitMessage)] := by
  have h := allow_enforces_limit defaultConfig "ip:10.0.0.7" false (NewMockStore false)
    [(0, 1), (10, 11), (20, 22), (30, 30), (40, 41), (50, 53), (60, 61)] rfl rfl rfl
  refine ⟨rfl, rfl, rfl, ?_⟩
  apply List.ext_getElem?
  intro i
  by_cases hi : i < 7
  · rw [h.2.1 i (by simpa using hi)]
    interval_cases i <;> rfl
  · have h1 : (allowAll defaultConfig "ip:10.0.0.7" false (NewMockStore false)
        [(0, 1), (10, 11), (20, 22), (30, 30), (40, 41), (50, 53), (60, 61)]).1.length ≤ i := by
      rw [h.1]
      simpa using hi
    rw [List.getElem?_eq_none h1, List.getElem?_eq_none (by simpa using hi)]

/-! ## The in-process store: what one `Increment` does to its key -/

/-- One `Increment` on a store that does not fail. A block of the key that has not expired
is answered with its remaining time, and neither the counters nor that block change;
otherwise the request is counted, and the key is blocked when the new count exceeds the
limit. -/
theorem Increment_spec (m : MockStore) (now later : Time) (key : String) (limit b : Int)
    (hf : m.failOnCall = false) :
    (m.Increment now later key limit b).2.failOnCall = false ∧
    (∀ e, m.blockedKeys key = some e → now < e →
      (m.Increment now later key limit b).1 = (false, e - now, none) ∧
      (m.Increment now later key limit b).2.requestCounts = m.requestCounts ∧
      (m.Increment now later key limit b).2.blockedKeys key = some e) ∧
    ((∀ e, m.blockedKeys key = some e → e ≤ now) →
      (m.Increment now later key limit b).1 =
        (decide ((m.requestCounts key).getD 0 + 1 ≤ limit),
          if (m.requestCounts key).getD 0 + 1 ≤ limit then 0
          else now + secondsToDuration b - later, none) ∧
      (m.Increment now later key limit b).2.requestCounts =
        mapSet m.requestCounts key ((m.requestCounts key).getD 0 + 1) ∧
      (m.Increment now later key limit b).2.blockedKeys key =
        if (m.requestCounts key).getD 0 + 1 ≤ limit then none
        else some (now + secondsToDuration b)) := by
  have hopen : (∀ e, m.blockedKeys key = some e → e ≤ now) →
      (m.Increment now later key limit b).2.failOnCall = false ∧
      (m.Increment now later key limit b).1 =
        (decide ((m.requestCounts key).getD 0 + 1 ≤ limit),
          if (m.requestCounts key).getD 0 + 1 ≤ limit then 0
          else now + secondsToDuration b - later, none) ∧
      (m.Increment now later key limit b).2.requestCounts =
        mapSet m.requestCounts key ((m.requestCounts key).getD 0 + 1) ∧
      (m.Increment now later key limit b).2.blockedKeys key =
        if (m.requestCounts key).getD 0 + 1 ≤ limit then none
        else some (now + secondsToDuration b) := by
    intro h
    obtain ⟨c1, c2, c3, c4⟩ := countRequest_spec
      { m with blockedKeys := mapDelete (sweepExpired now m.blockedKeys) key } now later key limit b
    rw [Increment_open m now later key limit b hf h]
    simp only at c1 c2 c3 c4
    refine ⟨by rw [c2]; exact hf, c1, c3, ?_⟩
    rw [c4]
    by_cases hc : (m.requestCounts key).getD 0 + 1 ≤ limit
    · simp [hc, mapDelete]
    · simp [hc, mapSet]
  have hblocked : ∀ e, m.blockedKeys key = some e → now < e →
      (m.Increment now later key limit b).2.failOnCall = false ∧
      (m.Increment now later key limit b).1 = (false, e - now, none) ∧
      (m.Increment now later key limit b).2.requestCounts = m.requestCounts ∧
      (m.Increment now later key limit b).2.blockedKeys key = some e := by
    intro e he ht
    rw [Increment_blocked m now later key limit b e hf he ht]
    refine ⟨hf, rfl, rfl, ?_⟩
    exact (sweepExpired_eq_some now m.blockedKeys key e).2 ⟨he, by linarith⟩
  refine ⟨?_, fun e he ht => (hblocked e he ht).2, fun h => (hopen h).2⟩
  by_cases h : ∀ e, m.blockedKeys key = some e → e ≤ now
  · exact (hopen h).1
  · push_neg at h
    obtain ⟨e, he, ht⟩ := h
    exact (hblocked e he ht).1

/-- An `Increment` on another key changes a key's block only by sweeping it when expired,
and does not change its counter. -/
theorem Increment_other (m : MockStore) (now later : Time) (key k : String) (limit b : Int)
    (hk : k ≠ key) :
    (m.Increment now later key limit b).2.requestCounts k = m.requestCounts k ∧
    (m.failOnCall = false →
      (m.Increment now later key limit b).2.blockedKeys k = sweepExpired now m.blockedKeys k) ∧
    (m.failOnCall = true → (m.Increment now later key limit b).2 = m) := by
  cases hf : m.failOnCall with
  | true =>
    have : m.Increment now later key limit b = ((false, 0, some ErrStorageFailure), m) := by
      unfold MockStore.Increment
      simp [hf]
    simp [this]
  | false =>
    by_cases h : ∀ e, m.blockedKeys key = some e → e ≤ now
    · obtain ⟨_, c2, c3, c4⟩ := countRequest_spec
        { m with blockedKeys := mapDelete (sweepExpired now m.blockedKeys) key } now later key
        limit b
      rw [Increment_open m now later key limit b hf h]
      simp only at c3 c4
      rw [c3, c4]
      by_cases hc : (m.requestCounts key).getD 0 + 1 ≤ limit
      · simp [hc, mapSet, mapDelete, hk]
      · simp [hc, mapSet, mapDelete, hk]
    · push_neg at h
      obtain ⟨e, he, ht⟩ := h
      rw [Increment_blocked m now later key limit b e hf he ht]
      simp

/-! ## The in-process store: a run of `Increment` calls on one key -/

theorem incrementAll_length (key : String) (limit b : Int) (ts : List (Time × Time)) :
    ∀ m : MockStore, (MockStore.incrementAll key limit b m ts).1.length = ts.length := by
  induction ts with
  | nil => intro m; rfl
  | cons x rest ih =>
    obtain ⟨now, later⟩ := x
    intro m
    simp [MockStore.incrementAll, ih]

/-- Once the count of the key exceeds the limit, every further `Increment` with that limit
is denied without error, whatever the clock reads. -/
theorem incrementAll_over_limit (key : String) (limit b : Int) (ts : List (Time × Time)) :
    ∀ m : MockStore, m.failOnCall = false → limit < (m.requestCounts key).getD 0 + 1 →
      (∀ i, i < ts.length →
        ∃ ttl, (MockStore.incrementAll key limit b m ts).1[i]? = some (false, ttl, none)) ∧
      ((MockStore.incrementAll key limit b m ts).1.filter fun r => r.1).length = 0 := by
  induction ts with
  | nil =>
    intro m _ _
    refine ⟨?_, rfl⟩
    intro i hi
    simp at hi
  | cons x rest ih =>
    obtain ⟨now, later⟩ := x
    intro m hf hc
    obtain ⟨s1, s2, s3⟩ := Increment_spec m now later key limit b hf
    have hstep : (∃ ttl, (m.Increment now later key limit b).1 = (false, ttl, none)) ∧
        limit < ((m.Increment now later key limit b).2.requestCounts key).getD 0 + 1 := by
      by_cases hb : ∀ e, m.blockedKeys key = some e → e ≤ now
      · obtain ⟨r1, r2, _⟩ := s3 hb
        have hnot : ¬ (m.requestCounts key).getD 0 + 1 ≤ limit := by linarith
        rw [r1, r2]
        refine ⟨⟨now + secondsToDuration b - later, by simp [hnot]⟩, ?_⟩
        simp only [mapSet, if_true, Option.getD_some]
        linarith
      · push_neg at hb
        obtain ⟨e, he, ht⟩ := hb
        obtain ⟨r1, r2, _⟩ := s2 e he ht
        rw [r1, r2]
        exact ⟨⟨e - now, rfl⟩, hc⟩
    obtain ⟨⟨ttl, h1⟩, h2⟩ := hstep
    obtain ⟨ih1, ih2⟩ := ih _ s1 h2
    refine ⟨?_, ?_⟩
    · intro i hi
      cases i with
      | zero => exact ⟨ttl, by simp [MockStore.incrementAll, h1]⟩
      | succ j =>
        have hj : j < rest.length := by simpa using hi
        obtain ⟨t2, ht2⟩ := ih1 j hj
        exact ⟨t2, by simpa [MockStore.incrementAll] using ht2⟩
    · simp only [MockStore.incrementAll, h1]
      rw [List.filter_cons_of_neg (by simp)]
      exact ih2

/-- From a store in which the key has no block and has count `c`: call number `i + 1` of a
run is allowed with ttl 0 while `c + i + 1` is within the limit, the call that takes the
count to `limit + 1` is denied with, as ttl, the block duration less the time between its two
clock readings, the later ones are denied, and `limit - c` calls are allowed if the run is
that long. -/
theorem incrementAll_from_count (key : String) (limit b : Int) (ts : List (Time × Time)) :
    ∀ m : MockStore, m.failOnCall = false → m.blockedKeys key = none →
      (∀ i, i < ts.length →
        ((m.requestCounts key).getD 0 + (i : Int) + 1 ≤ limit →
          (MockStore.incrementAll key limit b m ts).1[i]? = some (true, 0, none)) ∧
        ((m.requestCounts key).getD 0 + (i : Int) + 1 = limit + 1 →
          ∀ p, ts[i]? = some p →
            (MockStore.incrementAll key limit b m ts).1[i]? =
              some (false, p.1 + secondsToDuration b - p.2, none)) ∧
        (limit < (m.requestCounts key).getD 0 + (i : Int) + 1 →
          ∃ ttl, (MockStore.incrementAll key limit b m ts).1[i]? = some (false, ttl, none))) ∧
      ((MockStore.incrementAll key limit b m ts).1.filter fun r => r.1).length =
        min ts.length (limit - (m.requestCounts key).getD 0).toNat := by
  induction ts with
  | nil =>
    intro m _ _
    refine ⟨?_, by simp [MockStore.incrementAll]⟩
    intro i hi
    simp at hi
  | cons x rest ih =>
    obtain ⟨now, later⟩ := x
    intro m hf hb
    obtain ⟨s1, _, s3⟩ := Increment_spec m now later key limit b hf
    obtain ⟨r1, r2, r3⟩ := s3 (by simp [hb])
    have hcnt : ((m.Increment now later key limit b).2.requestCounts key).getD 0 =
        (m.requestCounts key).getD 0 + 1 := by
      rw [r2]
      simp [mapSet]
    by_cases hc : (m.requestCounts key).getD 0 + 1 ≤ limit
    · rw [if_pos hc] at r3
      simp only [hc, decide_True, if_true] at r1
      obtain ⟨ih1, ih2⟩ := ih _ s1 r3
      rw [hcnt] at ih2
      refine ⟨?_, ?_⟩
      · intro i hi
        cases i with
        | zero =>
          refine ⟨fun _ => by simp [MockStore.incrementAll, r1], fun h => ?_, fun h => ?_⟩
          · exfalso
            simp at h
            linarith
          · exfalso
            simp at h
            linarith
        | succ j =>
          have hj : j < rest.length := by simpa using hi
          have := ih1 j hj
          rw [hcnt] at this
          have e1 : (m.requestCounts key).getD 0 + ((j + 1 : Nat) : Int) + 1 =
              (m.requestCounts key).getD 0 + 1 + (j : Int) + 1 := by push_cast; ring
          rw [e1]
          simpa [MockStore.incrementAll] using this
      · simp only [MockStore.incrementAll, r1]
        rw [List.filter_cons_of_pos (by simp), List.length_cons, ih2, List.length_cons]
        have : (limit - (m.requestCounts key).getD 0).toNat =
            (limit - ((m.requestCounts key).getD 0 + 1)).toNat + 1 := by
          have h0 : 0 ≤ limit - ((m.requestCounts key).getD 0 + 1) := by linarith
          have h1 : limit - (m.requestCounts key).getD 0 =
              limit - ((m.requestCounts key).getD 0 + 1) + 1 := by ring
          rw [h1, Int.toNat_add h0 (by norm_num)]
          rfl
        rw [this]
        exact (Nat.succ_min_succ _ _).symm
    · rw [if_neg hc] at r3
      simp only [hc, decide_False, if_false] at r1
      have hlt : limit < ((m.Increment now later key limit b).2.requestCounts key).getD 0 + 1 := by
        rw [hcnt]
        linarith
      obtain ⟨o1, o2⟩ := incrementAll_over_limit key limit b rest _ s1 hlt
      refine ⟨?_, ?_⟩
      · intro i hi
        cases i with
        | zero =>
          refine ⟨fun h => ?_, fun _ p hp => ?_,
            fun _ => ⟨now + secondsToDuration b - later,
              by simp [MockStore.incrementAll, r1]⟩⟩
          rotate_left
          · simp only [List.getElem?_cons_zero, Option.some.injEq] at hp
            subst hp
            simp [MockStore.incrementAll, r1]
          exfalso
          simp at h
          exact hc h
        | succ j =>
          have hj : j < rest.length := by simpa using hi
          have hj0 : (0 : Int) ≤ (j : Int) := Int.natCast_nonneg j
          obtain ⟨t2, ht2⟩ := o1 j hj
          refine ⟨fun h => ?_, fun h => ?_,
            fun _ => ⟨t2, by simpa [MockStore.incrementAll] using ht2⟩⟩
          · exfalso
            push_cast at h
            apply hc
            linarith
          · exfalso
            push_cast at h
            apply hc
            linarith
      · simp only [MockStore.incrementAll, r1]
        rw [List.filter_cons_of_neg (by simp), o2]
        have : (limit - (m.requestCounts key).getD 0).toNat = 0 := by
          apply Int.toNat_eq_zero.2
          linarith
        rw [this]
        simp

/-! ## Durations -/

theorem wrapInt64_of_range (x : Int) (h1 : -(2 ^ 63) ≤ x) (h2 : x < 2 ^ 63) :
    wrapInt64 x = x := by
  unfold wrapInt64
  rw [Int.emod_eq_of_lt (by linarith) (by linarith)]
  ring

/-- A block duration of at most 9223372036 seconds fits a `time.Duration`. -/
theorem secondsToDuration_of_range (b : Int) (h1 : 0 ≤ b) (h2 : b ≤ 9223372036) :
    secondsToDuration b = b * Second := by
  unfold secondsToDuration Second
  apply wrapInt64_of_range
  · have : (0 : Int) ≤ b * 1000000000 := by positivity
    linarith
  · have : b * 1000000000 ≤ 9223372036 * 1000000000 := by linarith
    have h3 : (9223372036 * 1000000000 : Int) < 2 ^ 63 := by norm_num
    linarith

/-- C2 (amended). On a store that does not fail and in which the key has no counter and no
block, in a run of `Increment(key, limit, blockSeconds)` calls with `limit ≥ 0` and
`1 ≤ blockSeconds ≤ 9223372036`, each call made at its own pair `(now, later)` of clock
readings, all the readings of the run being earlier than `blockSeconds` seconds after call
number `limit + 1` read the clock: every call returns a nil error, call number `i + 1` is
allowed exactly when `i + 1 ≤ limit`, call number `limit + 1` is denied with a ttl that is
positive, and exactly `min ts.length limit` calls are allowed. The order of the readings
plays no part. -/
theorem increment_run_enforces_limit (key : String) (limit : Nat) (blockSeconds : Int)
    (m : MockStore) (ts : List (Time × Time)) (hf : m.failOnCall = false)
    (hc : m.requestCounts key = none) (hb : m.blockedKeys key = none)
    (h1 : 1 ≤ blockSeconds) (h2 : blockSeconds ≤ 9223372036)
    (hlate : ∀ p, ts[limit]? = some p →
      ∀ q ∈ ts, q.1 < p.1 + blockSeconds * Second ∧ q.2 < p.1 + blockSeconds * Second) :
    (MockStore.incrementAll key limit blockSeconds m ts).1.length = ts.length ∧
    (∀ i, i < ts.length →
      ∃ ttl, (MockStore.incrementAll key limit blockSeconds m ts).1[i]? =
        some (decide (i + 1 ≤ limit), ttl, none)) ∧
    (limit < ts.length →
      ∃ ttl, (MockStore.incrementAll key limit blockSeconds m ts).1[limit]? =
        some (false, ttl, none) ∧ 0 < ttl) ∧
    ((MockStore.incrementAll key limit blockSeconds m ts).1.filter fun r => r.1).length =
      min ts.length limit := by
  obtain ⟨r1, r2⟩ := incrementAll_from_count key limit blockSeconds ts m hf hb
  rw [hc] at r1 r2
  simp only [Option.getD_none, zero_add, sub_zero, Int.toNat_ofNat] at r1 r2
  refine ⟨incrementAll_length key limit blockSeconds ts m, ?_, ?_, r2⟩
  · intro i hi
    obtain ⟨a1, _, a3⟩ := r1 i hi
    by_cases h : i + 1 ≤ limit
    · have hz : (i : Int) + 1 ≤ (limit : Int) := by exact_mod_cast h
      exact ⟨0, by simpa [h] using a1 hz⟩
    · have hz : (limit : Int) < (i : Int) + 1 := by
        have : limit < i + 1 := by omega
        exact_mod_cast this
      obtain ⟨ttl, ht⟩ := a3 hz
      exact ⟨ttl, by simpa [h] using ht⟩
  · intro hl
    obtain ⟨_, a2, _⟩ := r1 limit hl
    have hp : ts[limit]? = some ts[limit] := List.getElem?_eq_getElem hl
    refine ⟨_, a2 rfl _ hp, ?_⟩
    rw [secondsToDuration_of_range blockSeconds (by linarith) h2]
    have := (hlate _ hp ts[limit] (List.getElem_mem hl)).2
    linarith

theorem increment_run_enforces_limit_witness :
    (NewMockStore false).failOnCall = false ∧
    (NewMockStore false).requestCounts "test-key" = none ∧
    (NewMockStore false).blockedKeys "test-key" = none ∧
    (∀ q ∈ ([(0, 0), (1, 1), (2, 3), (3, 3), (4, 4), (5, 350), (400, 420)] :
        List (Time × Time)), q.1 < 5 + 10 * Second ∧ q.2 < 5 + 10 * Second) ∧
    (∃ ttl, (MockStore.incrementAll "test-key" (5 : Nat) 10 (NewMockStore false)
        [(0, 0), (1, 1), (2, 3), (3, 3), (4, 4), (5, 350), (400, 420)]).1[5]? =
        some (false, ttl, none) ∧ 0 < ttl) ∧
    (MockStore.incrementAll "test-key" (5 : Nat) 10 (NewMockStore false)
        [(0, 0), (1, 1), (2, 3), (3, 3), (4, 4), (5, 350), (400, 420)]).1[5]? =
      some (false, 9999999655, none) ∧
    ((MockStore.incrementAll "test-key" (5 : Nat) 10 (NewMockStore false)
        [(0, 0), (1, 1), (2, 3), (3, 3), (4, 4), (5, 350), (400, 420)]).1.filter
      fun r => r.1).length = min 7 5 := by
  have hall : ∀ q ∈ ([(0, 0), (1, 1), (2, 3), (3, 3), (4, 4), (5, 350), (400, 420)] :
      List (Time × Time)), q.1 < 5 + 10 * Second ∧ q.2 < 5 + 10 * Second := by
    decide
  have hlate : ∀ p : Time × Time,
      ([(0, 0), (1, 1), (2, 3), (3, 3), (4, 4), (5, 350), (400, 420)] :
        List (Time × Time))[5]? = some p →
      ∀ q ∈ ([(0, 0), (1, 1), (2, 3), (3, 3), (4, 4), (5, 350), (400, 420)] :
        List (Time × Time)), q.1 < p.1 + 10 * Second ∧ q.2 < p.1 + 10 * Second := by
    intro p hp
    simp only [List.getElem?_cons_succ, List.getElem?_cons_zero, Option.some.injEq] at hp
    subst hp
    exact hall
  have h := increment_run_enforces_limit "test-key" 5 10 (NewMockStore false)
    [(0, 0), (1, 1), (2, 3), (3, 3), (4, 4), (5, 350), (400, 420)] rfl rfl rfl (by norm_num)
    (by norm_num) hlate
  exact ⟨rfl, rfl, rfl, hall, h.2.2.1 (by decide), by decide, h.2.2.2⟩

/-- C2 as stated fails for a block duration that does not fit a `time.Duration`: with
`limit = 0` and `blockSeconds = 9223372037` the first call on a fresh key, which reads the
clock at instant 0 and measures its ttl 350 ns later (earlier than `blockSeconds` seconds
after itself), is call number `limit + 1`; it is denied without error but its ttl is
negative. -/
theorem increment_run_ttl_not_positive :
    (NewMockStore false).failOnCall = false ∧
    (NewMockStore false).requestCounts "test-key" = none ∧
    (NewMockStore false).blockedKeys "test-key" = none ∧
    (0 : Int) ≤ 0 ∧ (1 : Int) ≤ 9223372037 ∧ (0 : Int) ≤ 350 ∧
    (350 : Int) < 0 + 9223372037 * 1000000000 ∧
    (MockStore.incrementAll "test-key" 0 9223372037 (NewMockStore false) [(0, 350)]).1[0]? =
      some (false, -9223372036709551966, none) ∧
    ¬ ((0 : Int) < -9223372036709551966) := by
  decide

/-! ## Blocks -/

/-- C5. Block takes precedence over the counter. On a store that does not fail and in which
the key has a block expiring at `e`, an `Increment` of that key at an instant `t < e`, with
any limit and block duration, returns `(false, e - t, nil)` and leaves the counter of the
key and the expiry of its block as they were (`later`, the reading at which a new block's
ttl would be measured, plays no part). -/
theorem increment_block_precedence (m : MockStore) (t later e : Time) (key : String)
    (limit blockSeconds : Int) (hf : m.failOnCall = false) (he : m.blockedKeys key = some e)
    (ht : t < e) :
    (m.Increment t later key limit blockSeconds).1 = (false, e - t, none) ∧
    (m.Increment t later key limit blockSeconds).2.requestCounts key = m.requestCounts key ∧
    (m.Increment t later key limit blockSeconds).2.GetRequestCount key = m.GetRequestCount key ∧
    (m.Increment t later key limit blockSeconds).2.blockedKeys key = some e := by
  obtain ⟨s1, s2, _⟩ := Increment_spec m t later key limit blockSeconds hf
  obtain ⟨r1, r2, r3⟩ := s2 e he ht
  refine ⟨r1, by rw [r2], ?_, r3⟩
  unfold MockStore.GetRequestCount
  rw [s1, hf, r2]

theorem increment_block_precedence_witness :
    ((NewMockStore false).Increment 0 0 "test-key" 0 10).2.failOnCall = false ∧
    ((NewMockStore false).Increment 0 0 "test-key" 0 10).2.blockedKeys "test-key" =
      some 10000000000 ∧
    (4000000000 : Int) < 10000000000 ∧
    ((((NewMockStore false).Increment 0 0 "test-key" 0 10).2.Increment 4000000000
      4000000200 "test-key" 100 7).1 = (false, 10000000000 - 4000000000, none) ∧
    (((NewMockStore false).Increment 0 0 "test-key" 0 10).2.Increment 4000000000
      4000000200 "test-key" 100 7).2.requestCounts "test-key" =
      ((NewMockStore false).Increment 0 0 "test-key" 0 10).2.requestCounts "test-key" ∧
    (((NewMockStore false).Increment 0 0 "test-key" 0 10).2.Increment 4000000000
      4000000200 "test-key" 100 7).2.GetRequestCount "test-key" =
      ((NewMockStore false).Increment 0 0 "test-key" 0 10).2.GetRequestCount "test-key" ∧
    (((NewMockStore false).Increment 0 0 "test-key" 0 10).2.Increment 4000000000
      4000000200 "test-key" 100 7).2.blockedKeys "test-key" = some 10000000000) :=
  ⟨by decide, by decide, by decide,
    increment_block_precedence ((NewMockStore false).Increment 0 0 "test-key" 0 10).2
      4000000000 4000000200 10000000000 "test-key" 100 7 (by decide) (by decide) (by decide)⟩

/-- The store `IsBlocked` leaves: the counters and the other keys' blocks are untouched, and
the block of the key is deleted exactly when the clock has passed its expiry. -/
theorem IsBlocked_state (m : MockStore) (now : Time) (key : String) :
    (m.IsBlocked now key).2.failOnCall = m.failOnCall ∧
    (m.IsBlocked now key).2.requestCounts = m.requestCounts ∧
    (∀ k, k ≠ key → (m.IsBlocked now key).2.blockedKeys k = m.blockedKeys k) ∧
    (m.failOnCall = false →
      (m.IsBlocked now key).2.blockedKeys key = sweepExpired now m.blockedKeys key) := by
  unfold MockStore.IsBlocked
  cases hf : m.failOnCall with
  | true => simp [hf]
  | false =>
    cases hb : m.blockedKeys key with
    | none => simp [sweepExpired, hb, hf]
    | some e =>
      by_cases ht : e < now
      · simp [sweepExpired, hb, timeAfter, ht, mapDelete, hf]
        intro k hk
        simp [hk]
      · simp [sweepExpired, hb, timeAfter, ht, hf]

/-- One call of a `Store` method, other than an `Increment` of `key`, does to the block of
`key` what the sweep of expired blocks does, or nothing. -/
theorem afterCall_block (m : MockStore) (now later : Time) (c : StoreCall) (key : String)
    (hf : m.failOnCall = false)
    (hc : ∀ l bs, c = StoreCall.Increment key l bs →
      ∃ e, m.blockedKeys key = some e ∧ now < e) :
    (m.afterCall now later c).failOnCall = false ∧
    (m.afterCall now later c).requestCounts key = m.requestCounts key ∧
    ((m.afterCall now later c).blockedKeys key = m.blockedKeys key ∨
      (m.afterCall now later c).blockedKeys key = sweepExpired now m.blockedKeys key) := by
  cases c with
  | Increment k l bs =>
    by_cases hk : key = k
    · subst hk
      obtain ⟨e, he, ht⟩ := hc l bs rfl
      obtain ⟨s1, s2, _⟩ := Increment_spec m now later key l bs hf
      obtain ⟨_, r2, r3⟩ := s2 e he ht
      exact ⟨s1, by simp [MockStore.afterCall, r2],
        Or.inl (by simp [MockStore.afterCall, r3, he])⟩
    · obtain ⟨o1, o2, _⟩ := Increment_other m now later k key l bs hk
      exact ⟨(Increment_spec m now later k l bs hf).1, o1, Or.inr (o2 hf)⟩
  | IsBlocked k =>
    obtain ⟨i1, i2, i3, i4⟩ := IsBlocked_state m now k
    refine ⟨by simp [MockStore.afterCall, i1, hf], by simp [MockStore.afterCall, i2], ?_⟩
    by_cases hk : key = k
    · subst hk
      exact Or.inr (i4 hf)
    · exact Or.inl (i3 key hk)
  | GetRequestCount k => exact ⟨hf, rfl, Or.inl rfl⟩

/-- Calls made before a block expires leave it in place. -/
theorem afterCalls_before_expiry (key : String) (e : Time)
    (calls : List (Time × Time × StoreCall)) :
    ∀ m : MockStore, m.failOnCall = false → m.blockedKeys key = some e →
      (∀ c ∈ calls, c.1 < e) →
      (m.afterCalls calls).failOnCall = false ∧
      (m.afterCalls calls).requestCounts key = m.requestCounts key ∧
      (m.afterCalls calls).blockedKeys key = some e := by
  induction calls with
  | nil => intro m hf hb _; exact ⟨hf, rfl, hb⟩
  | cons c rest ih =>
    intro m hf hb ht
    obtain ⟨now, later, call⟩ := c
    have hnow : now < e := ht (now, later, call) (List.mem_cons_self _ _)
    obtain ⟨a1, a2, a3⟩ :=
      afterCall_block m now later call key hf (fun _ _ _ => ⟨e, hb, hnow⟩)
    have hs : sweepExpired now m.blockedKeys key = some e :=
      (sweepExpired_eq_some now m.blockedKeys key e).2 ⟨hb, by linarith⟩
    have hb2 : (m.afterCall now later call).blockedKeys key = some e := by
      rcases a3 with h | h
      · rw [h, hb]
      · rw [h, hs]
    obtain ⟨b1, b2, b3⟩ := ih _ a1 hb2 (fun c hc => ht c (List.mem_cons_of_mem _ hc))
    exact ⟨b1, by rw [← a2]; exact b2, b3⟩

/-- Calls at non-decreasing instants, none of them an `Increment` of `key` at or after the
expiry `e` of its block, leave that block in place or, once the clock has passed `e`,
delete it; they never replace it. -/
theorem afterCalls_block_or_gone (key : String) (e : Time)
    (calls : List (Time × Time × StoreCall)) :
    ∀ m : MockStore, m.failOnCall = false →
      (m.blockedKeys key = some e ∨
        (m.blockedKeys key = none ∧ ∀ c ∈ calls, e < c.1)) →
      calls.Pairwise (fun a c => a.1 ≤ c.1) →
      (∀ c ∈ calls, ∀ l bs, c.2.2 = StoreCall.Increment key l bs → c.1 < e) →
      (m.afterCalls calls).failOnCall = false ∧
      ((m.afterCalls calls).blockedKeys key = some e ∨
        (m.afterCalls calls).blockedKeys key = none) := by
  induction calls with
  | nil =>
    intro m hf hb _ _
    exact ⟨hf, hb.imp id fun h => h.1⟩
  | cons c rest ih =>
    intro m hf hb hp hinc
    obtain ⟨now, later, call⟩ := c
    have hp2 := List.pairwise_cons.1 hp
    have hinc2 : ∀ c ∈ rest, ∀ l bs, c.2.2 = StoreCall.Increment key l bs → c.1 < e :=
      fun c hc => hinc c (List.mem_cons_of_mem _ hc)
    have hcall : ∀ l bs, call = StoreCall.Increment key l bs →
        ∃ e2, m.blockedKeys key = some e2 ∧ now < e2 := by
      intro l bs hcl
      have hlt : now < e := hinc (now, later, call) (List.mem_cons_self _ _) l bs hcl
      rcases hb with h | h
      · exact ⟨e, h, hlt⟩
      · have := h.2 (now, later, call) (List.mem_cons_self _ _)
        simp only at this
        exfalso
        linarith
    obtain ⟨a1, _, a3⟩ := afterCall_block m now later call key hf hcall
    have hb2 : (m.afterCall now later call).blockedKeys key = some e ∨
        ((m.afterCall now later call).blockedKeys key = none ∧ ∀ c ∈ rest, e < c.1) := by
      rcases hb with h | h
      · rcases a3 with h3 | h3
        · exact Or.inl (by rw [h3, h])
        · by_cases ht : e < now
          · refine Or.inr ⟨?_, ?_⟩
            · rw [h3]
              exact (sweepExpired_eq_none now m.blockedKeys key).2 (by
                intro e2 he2
                rw [h] at he2
                cases he2
                exact ht)
            · intro c hc
              have := hp2.1 c hc
              simp only at this
              linarith
          · refine Or.inl ?_
            rw [h3]
            exact (sweepExpired_eq_some now m.blockedKeys key e).2 ⟨h, by linarith⟩
      · refine Or.inr ⟨?_, fun c hc => h.2 c (List.mem_cons_of_mem _ hc)⟩
        rcases a3 with h3 | h3
        · rw [h3, h.1]
        · rw [h3]
          exact (sweepExpired_eq_none now m.blockedKeys key).2 (by simp [h.1])
    exact ih _ a1 hb2 hp2.2 hinc2

/-- C6 (amended). Block lifetime. Let an `Increment(key, limit, b)` that reads the clock at
`t0`, with `1 ≤ b ≤ 9223372036`, on a store that does not fail, find no unexpired block of
the key and take its count above `limit`. It records a block expiring at `t0 + b` seconds
and returns as ttl what is left of it at `later0`, the reading at which it measures the ttl:
`t0 + b seconds - later0`, the full `b` seconds only when the clock did not advance in
between. After any later `Increment`, `IsBlocked` and `GetRequestCount` calls on any keys,
made no later than `t`: if `t < t0 + b` seconds, `IsBlocked(key)` at `t` returns
`(true, t0 + b seconds - t, nil)` with a positive ttl; if `t > t0 + b` seconds, the calls
were made at non-decreasing instants and none of them is an `Increment` of `key` made at or
after `t0 + b` seconds, it returns `(false, 0, nil)`. -/
theorem block_lifetime (m : MockStore) (t0 later0 : Time) (key : String) (limit b : Int)
    (hf : m.failOnCall = false) (hopen : ∀ e, m.blockedKeys key = some e → e ≤ t0)
    (hcross : limit < (m.requestCounts key).getD 0 + 1) (h1 : 1 ≤ b) (h2 : b ≤ 9223372036) :
    (m.Increment t0 later0 key limit b).1 = (false, t0 + b * Second - later0, none) ∧
    (m.Increment t0 later0 key limit b).2.blockedKeys key = some (t0 + b * Second) ∧
    ∀ (calls : List (Time × Time × StoreCall)) (t : Time), (∀ c ∈ calls, c.1 ≤ t) →
      (t < t0 + b * Second →
        (((m.Increment t0 later0 key limit b).2.afterCalls calls).IsBlocked t key).1 =
          (true, t0 + b * Second - t, none) ∧ 0 < t0 + b * Second - t) ∧
      (t0 + b * Second < t → calls.Pairwise (fun a c => a.1 ≤ c.1) →
        (∀ c ∈ calls, ∀ l bs, c.2.2 = StoreCall.Increment key l bs →
          c.1 < t0 + b * Second) →
        (((m.Increment t0 later0 key limit b).2.afterCalls calls).IsBlocked t key).1 =
          (false, 0, none)) := by
  obtain ⟨s1, _, s3⟩ := Increment_spec m t0 later0 key limit b hf
  obtain ⟨r1, _, r3⟩ := s3 hopen
  have hnot : ¬ (m.requestCounts key).getD 0 + 1 ≤ limit := by linarith
  rw [if_neg hnot, secondsToDuration_of_range b (by linarith) h2] at r3
  simp only [hnot, decide_False, if_false] at r1
  rw [secondsToDuration_of_range b (by linarith) h2] at r1
  refine ⟨r1, r3, ?_⟩
  intro calls t hle
  refine ⟨?_, ?_⟩
  · intro ht
    obtain ⟨a1, _, a3⟩ := afterCalls_before_expiry key (t0 + b * Second) calls _ s1 r3
      (fun c hc => lt_of_le_of_lt (hle c hc) ht)
    obtain ⟨_, _, i3⟩ :=
      IsBlocked_spec ((m.Increment t0 later0 key limit b).2.afterCalls calls) t key a1
    rw [i3 (t0 + b * Second) a3 (by linarith)]
    exact ⟨rfl, by linarith⟩
  · intro ht hp hinc
    obtain ⟨a1, a3⟩ := afterCalls_block_or_gone key (t0 + b * Second) calls _ s1 (Or.inl r3)
      hp hinc
    obtain ⟨i1, i2, _⟩ :=
      IsBlocked_spec ((m.Increment t0 later0 key limit b).2.afterCalls calls) t key a1
    rcases a3 with h | h
    · rw [i2 (t0 + b * Second) h ht]
    · rw [i1 h]

theorem block_lifetime_witness :
    (NewMockStore false).failOnCall = false ∧
    (∀ e, (NewMockStore false).blockedKeys "test-key" = some e → e ≤ 0) ∧
    (0 : Int) < ((NewMockStore false).requestCounts "test-key").getD 0 + 1 ∧
    ((NewMockStore false).Increment 0 350 "test-key" 0 10).1 =
      (false, 0 + 10 * Second - 350, none) ∧
    ((NewMockStore false).Increment 0 350 "test-key" 0 10).2.blockedKeys "test-key" =
      some (0 + 10 * Second) ∧
    ((((NewMockStore false).Increment 0 350 "test-key" 0 10).2.afterCalls
        [(1000, 1200, StoreCall.Increment "other" 0 1),
          (2000, 2000, StoreCall.IsBlocked "test-key")]).IsBlocked
      4000000000 "test-key").1 = (true, 0 + 10 * Second - 4000000000, none) := by
  have h := block_lifetime (NewMockStore false) 0 350 "test-key" 0 10 rfl
    (by simp [NewMockStore]) (by decide) (by norm_num) (by norm_num)
  refine ⟨rfl, by simp [NewMockStore], by decide, h.1, h.2.1, ?_⟩
  exact ((h.2.2 [(1000, 1200, StoreCall.Increment "other" 0 1),
    (2000, 2000, StoreCall.IsBlocked "test-key")] 4000000000 (by decide)).1 (by decide)).1

/-- C6 as stated fails in three places. The blocking call does not return the full `b`
seconds when the clock advances between its two readings: with `limit = 0` and `b = 10`, a
call that reads the clock at 0 and measures the ttl 350 ns later records the block at 10 s
and returns 9999999650 ns. An `Increment` of the key made exactly at `t0 + b` seconds (so
not after it) finds the block expired and blocks the key anew: with `limit = 0` and `b = 1`,
after the blocking call at 0 and an `Increment` at 1 s, `IsBlocked` at 1.5 s answers
blocked. And a block duration that does not fit a `time.Duration` gives neither a block at
`t0 + b` seconds nor a ttl of `b` seconds: for `b = 9223372037` both are negative. -/
theorem block_lifetime_fails :
    ((NewMockStore false).Increment 0 350 "test-key" 0 10).1 = (false, 9999999650, none) ∧
    ((NewMockStore false).Increment 0 350 "test-key" 0 10).2.blockedKeys "test-key" =
      some (0 + 10 * 1000000000) ∧
    ¬ ((9999999650 : Int) = 10 * 1000000000) ∧
    ((NewMockStore false).Increment 0 0 "test-key" 0 1).2.blockedKeys "test-key" =
      some (0 + 1 * 1000000000) ∧
    ¬ ((0 : Int) + 1 * 1000000000 < 1000000000) ∧
    (0 : Int) + 1 * 1000000000 < 1500000000 ∧
    ((((NewMockStore false).Increment 0 0 "test-key" 0 1).2.afterCalls
        [(1000000000, 1000000000, StoreCall.Increment "test-key" 0 1)]).IsBlocked
      1500000000 "test-key").1 = (true, 500000000, none) ∧
    ((NewMockStore false).Increment 0 0 "test-key" 0 9223372037).1 =
      (false, -9223372036709551616, none) ∧
    ((NewMockStore false).Increment 0 0 "test-key" 0 9223372037).2.blockedKeys "test-key" =
      some (-9223372036709551616) := by
  decide

/-! ## The counter -/

theorem incrementAll_state_eq_afterCalls (key : String) (limit b : Int) (ts : List (Time × Time)) :
    ∀ m : MockStore, (MockStore.incrementAll key limit b m ts).2 =
      m.afterCalls (ts.map fun t => (t.1, t.2, StoreCall.Increment key limit b)) := by
  induction ts with
  | nil => intro m; rfl
  | cons x rest ih =>
    obtain ⟨now, later⟩ := x
    intro m
    simp only [MockStore.incrementAll, List.map_cons, MockStore.afterCalls, MockStore.afterCall]
    exact ih _

theorem afterCalls_append (xs ys : List (Time × Time × StoreCall)) :
    ∀ m : MockStore, m.afterCalls (xs ++ ys) = (m.afterCalls xs).afterCalls ys := by
  induction xs with
  | nil => intro m; rfl
  | cons c rest ih =>
    intro m
    obtain ⟨now, later, call⟩ := c
    simp only [List.cons_append, MockStore.afterCalls]
    exact ih _

theorem incrementAll_state_append (key : String) (limit b : Int) (xs ys : List (Time × Time))
    (m : MockStore) :
    (MockStore.incrementAll key limit b m (xs ++ ys)).2 =
      (MockStore.incrementAll key limit b (MockStore.incrementAll key limit b m xs).2 ys).2 := by
  rw [incrementAll_state_eq_afterCalls, incrementAll_state_eq_afterCalls,
    incrementAll_state_eq_afterCalls, List.map_append, afterCalls_append]

/-- A run that stays within the limit counts every call and creates no block. -/
theorem incrementAll_within (key : String) (limit b : Int) (ts : List (Time × Time)) :
    ∀ m : MockStore, m.failOnCall = false → m.blockedKeys key = none →
      (m.requestCounts key).getD 0 + (ts.length : Int) ≤ limit →
      (MockStore.incrementAll key limit b m ts).2.failOnCall = false ∧
      (MockStore.incrementAll key limit b m ts).2.blockedKeys key = none ∧
      ((MockStore.incrementAll key limit b m ts).2.requestCounts key).getD 0 =
        (m.requestCounts key).getD 0 + (ts.length : Int) := by
  induction ts with
  | nil =>
    intro m hf hb _
    exact ⟨hf, hb, by simp [MockStore.incrementAll]⟩
  | cons x rest ih =>
    obtain ⟨now, later⟩ := x
    intro m hf hb hle
    obtain ⟨s1, _, s3⟩ := Increment_spec m now later key limit b hf
    obtain ⟨_, r2, r3⟩ := s3 (by simp [hb])
    have hlen : ((((now, later) :: rest).length : Nat) : Int) = (rest.length : Int) + 1 := by
      simp
    have h0 : (0 : Int) ≤ (rest.length : Int) := Int.natCast_nonneg _
    have hc : (m.requestCounts key).getD 0 + 1 ≤ limit := by linarith
    rw [if_pos hc] at r3
    have hcnt : ((m.Increment now later key limit b).2.requestCounts key).getD 0 =
        (m.requestCounts key).getD 0 + 1 := by
      rw [r2]
      simp [mapSet]
    obtain ⟨a1, a2, a3⟩ := ih _ s1 r3 (by rw [hcnt]; linarith)
    refine ⟨a1, a2, ?_⟩
    simp only [MockStore.incrementAll]
    rw [a3, hcnt, hlen]
    ring

/-- C7. Counter value. On a store that does not fail and in which the key has no counter and
no block, the key reads 0; and after a run of `Increment(key, limit, blockSeconds)` calls at
instants `ts`, of which those after call number `limit + 1` are made before the block that
call created expires, `GetRequestCount(key)` returns `(min ts.length (limit + 1), nil)`. -/
theorem request_count_after_run (key : String) (limit : Nat) (blockSeconds : Int)
    (m : MockStore) (ts : List (Time × Time)) (hf : m.failOnCall = false)
    (hc : m.requestCounts key = none) (hb : m.blockedKeys key = none)
    (hlate : ∀ j t tl, limit < j → ts[j]? = some t → ts[limit]? = some tl →
      t.1 < tl.1 + secondsToDuration blockSeconds) :
    m.GetRequestCount key = (0, none) ∧
    (MockStore.incrementAll key limit blockSeconds m ts).2.GetRequestCount key =
      (((min ts.length (limit + 1) : Nat) : Int), none) := by
  refine ⟨by simp [MockStore.GetRequestCount, hf, hc], ?_⟩
  by_cases hlen : ts.length ≤ limit
  · obtain ⟨a1, _, a3⟩ := incrementAll_within key limit blockSeconds ts m hf hb
      (by rw [hc]; simpa using hlen)
    rw [hc] at a3
    have hmin : min ts.length (limit + 1) = ts.length := by omega
    simp [MockStore.GetRequestCount, a1, a3, hmin]
  · have hlt : limit < ts.length := by omega
    have hsplit : ts = ts.take limit ++ (ts[limit] :: ts.drop (limit + 1)) := by
      rw [← List.drop_eq_getElem_cons hlt, List.take_append_drop]
    have htake : (ts.take limit).length = limit := by
      rw [List.length_take]
      omega
    obtain ⟨a1, a2, a3⟩ := incrementAll_within key limit blockSeconds (ts.take limit) m hf hb
      (by rw [hc, htake]; simp)
    rw [hc, htake] at a3
    simp only [Option.getD_none, zero_add] at a3
    obtain ⟨s1, _, s3⟩ := Increment_spec
      (MockStore.incrementAll key limit blockSeconds m (ts.take limit)).2 ts[limit].1 ts[limit].2
      key limit
      blockSeconds a1
    obtain ⟨_, r2, r3⟩ := s3 (by simp [a2])
    rw [a3] at r2 r3
    rw [if_neg (by linarith)] at r3
    have hafter : ∀ c ∈ (ts.drop (limit + 1)).map
        (fun t => (t.1, t.2, StoreCall.Increment key (limit : Int) blockSeconds)),
        c.1 < ts[limit].1 + secondsToDuration blockSeconds := by
      intro c hcm
      obtain ⟨t, htm, rfl⟩ := List.mem_map.1 hcm
      obtain ⟨n, hn⟩ := List.mem_iff_getElem?.1 htm
      rw [List.getElem?_drop] at hn
      exact hlate (limit + 1 + n) t ts[limit] (by omega) hn (List.getElem?_eq_getElem hlt)
    obtain ⟨b1, b2, _⟩ := afterCalls_before_expiry key
      (ts[limit].1 + secondsToDuration blockSeconds) _ _ s1 r3 hafter
    have hstate : (MockStore.incrementAll key limit blockSeconds m ts).2 =
        ((MockStore.incrementAll key limit blockSeconds m (ts.take limit)).2.Increment
          ts[limit].1 ts[limit].2 key limit blockSeconds).2.afterCalls
          ((ts.drop (limit + 1)).map
            (fun t => (t.1, t.2, StoreCall.Increment key (limit : Int) blockSeconds))) := by
      conv_lhs => rw [hsplit]
      rw [incrementAll_state_append, ← incrementAll_state_eq_afterCalls]
      rfl
    have hmin : min ts.length (limit + 1) = limit + 1 := by omega
    rw [hstate]
    simp only [MockStore.GetRequestCount, b1, b2, r2, hmin]
    simp [mapSet]

theorem request_count_after_run_witness :
    (NewMockStore false).failOnCall = false ∧
    (NewMockStore false).requestCounts "test-key" = none ∧
    (NewMockStore false).blockedKeys "test-key" = none ∧
    (NewMockStore false).GetRequestCount "test-key" = (0, none) ∧
    (MockStore.incrementAll "test-key" ((5 : Nat) : Int) 10 (NewMockStore false)
        [(0, 0), (1, 2), (2, 3), (3, 3), (4, 5), (5, 350), (400, 600),
          (700, 900)]).2.GetRequestCount "test-key" =
      (((min 8 (5 + 1) : Nat) : Int), none) := by
  have h := request_count_after_run "test-key" 5 10 (NewMockStore false)
    [(0, 0), (1, 2), (2, 3), (3, 3), (4, 5), (5, 350), (400, 600), (700, 900)] rfl rfl rfl (by
      intro j t tl hj h1 h2
      have hj8 : j < 8 := by
        by_contra hge
        rw [List.getElem?_eq_none (by simpa using hge)] at h1
        cases h1
      simp at h2
      subst h2
      interval_cases j <;> simp at h1 <;> subst h1 <;> decide)
  exact ⟨rfl, rfl, rfl, h.1, h.2⟩

/-- C8 (amended). The in-process backend keeps no counting window. On a store that does not
fail and in which the key has no counter and no block, after a run of `n ≤ limit` calls
`Increment(key, limit, b)`, all of which are allowed, `GetRequestCount(key)` returns `n`
(the call reads no clock, so at any later time), and a further `Increment` of the key at any
instant, with any limit and block duration, returns no error, leaves the count at `n + 1`
and is allowed exactly when `n + 1` is within its limit. -/
theorem counter_never_expires (key : String) (limit : Nat) (b : Int) (m : MockStore)
    (ts : List (Time × Time)) (hf : m.failOnCall = false) (hc : m.requestCounts key = none)
    (hb : m.blockedKeys key = none) (hn : ts.length ≤ limit) :
    (∀ i, i < ts.length →
      (MockStore.incrementAll key limit b m ts).1[i]? = some (true, 0, none)) ∧
    (MockStore.incrementAll key limit b m ts).2.GetRequestCount key =
      ((ts.length : Int), none) ∧
    ∀ (t later : Time) (limit2 b2 : Int),
      ((MockStore.incrementAll key limit b m ts).2.Increment t later key limit2 b2).1.1 =
        decide ((ts.length : Int) + 1 ≤ limit2) ∧
      ((MockStore.incrementAll key limit b m ts).2.Increment t later key limit2 b2).1.2.2 =
        none ∧
      ((MockStore.incrementAll key limit b m ts).2.Increment t later key limit2
        b2).2.GetRequestCount key = ((ts.length : Int) + 1, none) := by
  obtain ⟨r1, _⟩ := incrementAll_from_count key limit b ts m hf hb
  obtain ⟨a1, a2, a3⟩ := incrementAll_within key limit b ts m hf hb
    (by rw [hc]; simpa using hn)
  rw [hc] at r1 a3
  simp only [Option.getD_none, zero_add] at r1 a3
  refine ⟨?_, by simp [MockStore.GetRequestCount, a1, a3], ?_⟩
  · intro i hi
    refine (r1 i hi).1 ?_
    have : i + 1 ≤ limit := by omega
    exact_mod_cast this
  · intro t later limit2 b2
    obtain ⟨s1, _, s3⟩ := Increment_spec (MockStore.incrementAll key limit b m ts).2 t later key
      limit2 b2 a1
    obtain ⟨q1, q2, _⟩ := s3 (by simp [a2])
    rw [a3] at q1 q2
    refine ⟨by rw [q1], by rw [q1], ?_⟩
    simp [MockStore.GetRequestCount, s1, q2, mapSet]

theorem counter_never_expires_witness :
    (NewMockStore false).failOnCall = false ∧
    (NewMockStore false).requestCounts "test-key" = none ∧
    (NewMockStore false).blockedKeys "test-key" = none ∧
    (MockStore.incrementAll "test-key" ((5 : Nat) : Int) 10 (NewMockStore false)
        [(0, 0), (1, 4), (5, 6)]).2.GetRequestCount "test-key" =
      ((([(0, 0), (1, 4), (5, 6)] : List (Time × Time)).length : Int), none) ∧
    ((MockStore.incrementAll "test-key" ((5 : Nat) : Int) 10 (NewMockStore false)
        [(0, 0), (1, 4), (5, 6)]).2.Increment 7000000000 7000000200 "test-key" 5
      10).2.GetRequestCount "test-key" =
      ((([(0, 0), (1, 4), (5, 6)] : List (Time × Time)).length : Int) + 1, none) := by
  have h := counter_never_expires "test-key" 5 10 (NewMockStore false)
    [(0, 0), (1, 4), (5, 6)] rfl rfl rfl
    (by decide)
  exact ⟨rfl, rfl, rfl, h.2.1, (h.2.2 7000000000 7000000200 5 10).2.2⟩

/-- C8 as stated fails: with `limit = 1`, after one allowed `Increment` at instant 0,
`GetRequestCount` still returns 1, and an `Increment` two seconds later is denied and leaves
the count at 2. -/
theorem counter_window_fails :
    ((NewMockStore false).Increment 0 0 "test-key" 1 10).1 = (true, 0, none) ∧
    (0 : Int) + 1 * 1000000000 < 2000000000 ∧
    ((NewMockStore false).Increment 0 0 "test-key" 1 10).2.GetRequestCount "test-key" =
      (1, none) ∧
    (((NewMockStore false).Increment 0 0 "test-key" 1 10).2.Increment 2000000000 2000000000
      "test-key" 1 10).1 = (false, 10000000000, none) ∧
    (((NewMockStore false).Increment 0 0 "test-key" 1 10).2.Increment 2000000000 2000000000
      "test-key" 1 10).2.GetRequestCount "test-key" = (2, none) := by
  decide

/-! ## After the block -/

theorem secondsToDuration_le (b : Int) (h : 0 ≤ b) : secondsToDuration b ≤ b * Second := by
  unfold secondsToDuration wrapInt64 Second
  show (b * 1000000000 + 2 ^ 63) % 2 ^ 64 - 2 ^ 63 ≤ b * 1000000000
  omega

/-- C9 (amended). After the block. Let an `Increment(key, limit, b)` at `t0`, with `b ≥ 1`,
on a store that does not fail, find no unexpired block of the key and take its count above
`limit`. At every instant `t > t0 + b` seconds `IsBlocked(key)` returns `(false, 0, nil)`.
The counter is kept: an `Increment(key, limit, b)` that follows, at any clock readings `t2`
and `later2`, is denied without error and blocks the key until `t2` plus the block duration
(its ttl is what is left of that block at `later2`); made after `ResetCounter(key)` instead,
it returns no error and is allowed exactly when `limit ≥ 1`. -/
theorem after_block_expiry (m : MockStore) (t0 later0 t t2 later2 : Time) (key : String)
    (limit b : Int)
    (hf : m.failOnCall = false) (hopen : ∀ e, m.blockedKeys key = some e → e ≤ t0)
    (hcross : limit < (m.requestCounts key).getD 0 + 1) (h1 : 1 ≤ b)
    (ht : t0 + b * Second < t) :
    ((m.Increment t0 later0 key limit b).2.IsBlocked t key).1 = (false, 0, none) ∧
    (((m.Increment t0 later0 key limit b).2.IsBlocked t key).2.Increment t2 later2 key limit
      b).1 = (false, t2 + secondsToDuration b - later2, none) ∧
    (((m.Increment t0 later0 key limit b).2.IsBlocked t key).2.Increment t2 later2 key limit
      b).2.blockedKeys key = some (t2 + secondsToDuration b) ∧
    ((((m.Increment t0 later0 key limit b).2.IsBlocked t key).2.ResetCounter key).2.Increment t2
      later2 key limit b).1.1 = decide (1 ≤ limit) ∧
    ((((m.Increment t0 later0 key limit b).2.IsBlocked t key).2.ResetCounter key).2.Increment t2
      later2 key limit b).1.2.2 = none := by
  obtain ⟨s1, _, s3⟩ := Increment_spec m t0 later0 key limit b hf
  obtain ⟨_, r2, r3⟩ := s3 hopen
  have hnot : ¬ (m.requestCounts key).getD 0 + 1 ≤ limit := by linarith
  rw [if_neg hnot] at r3
  have hle := secondsToDuration_le b (by linarith)
  have hexp : t0 + secondsToDuration b < t := by linarith
  obtain ⟨_, i2, _⟩ := IsBlocked_spec (m.Increment t0 later0 key limit b).2 t key s1
  have hi := i2 _ r3 hexp
  obtain ⟨j1, j2, _, j4⟩ := IsBlocked_state (m.Increment t0 later0 key limit b).2 t key
  have hnone :
      ((m.Increment t0 later0 key limit b).2.IsBlocked t key).2.blockedKeys key = none := by
    rw [j4 s1]
    exact (sweepExpired_eq_none t _ key).2 (by
      intro e he
      rw [r3] at he
      cases he
      exact hexp)
  have hf2 : ((m.Increment t0 later0 key limit b).2.IsBlocked t key).2.failOnCall = false := by
    rw [j1, s1]
  have hcnt :
      (((m.Increment t0 later0 key limit b).2.IsBlocked t key).2.requestCounts key).getD 0 =
        (m.requestCounts key).getD 0 + 1 := by
    rw [j2, r2]
    simp [mapSet]
  obtain ⟨_, _, u3⟩ := Increment_spec ((m.Increment t0 later0 key limit b).2.IsBlocked t key).2
    t2 later2 key limit b hf2
  obtain ⟨v1, _, v3⟩ := u3 (by simp [hnone])
  have hnot2 :
      ¬ (((m.Increment t0 later0 key limit b).2.IsBlocked t key).2.requestCounts key).getD 0
        + 1 ≤ limit := by
    rw [hcnt]
    linarith
  rw [if_neg hnot2] at v3
  simp only [hnot2, decide_False, if_false] at v1
  have hreset : (((m.Increment t0 later0 key limit b).2.IsBlocked t key).2.ResetCounter key) =
      (none, { ((m.Increment t0 later0 key limit b).2.IsBlocked t key).2 with
        requestCounts :=
          mapDelete ((m.Increment t0 later0 key limit b).2.IsBlocked t key).2.requestCounts
            key }) := by
    unfold MockStore.ResetCounter
    simp [hf2]
  obtain ⟨_, _, w3⟩ := Increment_spec
    (((m.Increment t0 later0 key limit b).2.IsBlocked t key).2.ResetCounter key).2 t2 later2 key
    limit b (by rw [hreset]; exact hf2)
  obtain ⟨x1, _, _⟩ := w3 (by rw [hreset]; simp [hnone])
  have hzero : ((((m.Increment t0 later0 key limit b).2.IsBlocked t key).2.ResetCounter
      key).2.requestCounts key).getD 0 = 0 := by
    rw [hreset]
    simp [mapDelete]
  rw [hzero] at x1
  refine ⟨by rw [hi], v1, v3, ?_, ?_⟩
  · rw [x1]
    simp
  · rw [x1]

theorem after_block_expiry_witness :
    ((NewMockStore false).Increment 0 0 "test-key" 1 1).2.failOnCall = false ∧
    (∀ e, ((NewMockStore false).Increment 0 0 "test-key" 1 1).2.blockedKeys "test-key" =
      some e → e ≤ 0) ∧
    (1 : Int) <
      (((NewMockStore false).Increment 0 0 "test-key" 1 1).2.requestCounts "test-key").getD 0
        + 1 ∧
    (0 : Int) + 1 * Second < 2000000000 ∧
    (((((NewMockStore false).Increment 0 0 "test-key" 1 1).2.Increment 0 200 "test-key" 1
      1).2.IsBlocked 2000000000 "test-key").2.Increment 2000000000 2000000300 "test-key" 1 1).1 =
      (false, 2000000000 + secondsToDuration 1 - 2000000300, none) := by
  have h := after_block_expiry ((NewMockStore false).Increment 0 0 "test-key" 1 1).2 0 200
    2000000000 2000000000 2000000300 "test-key" 1 1 (by decide) (by decide) (by decide)
    (by norm_num) (by decide)
  exact ⟨by decide, by decide, by decide, by decide, h.2.1⟩

/-- C9 as stated fails: with `limit = 1` and `blockSeconds = 1`, two `Increment` calls at
instant 0 block the key; two seconds later `IsBlocked` answers not blocked, but the
`Increment` that follows is denied, the count being 3. -/
theorem recovery_after_block_fails :
    (((NewMockStore false).Increment 0 0 "test-key" 1 1).2.Increment 0 0 "test-key" 1 1).1 =
      (false, 1000000000, none) ∧
    (0 : Int) + 1 * 1000000000 < 2000000000 ∧
    ((((NewMockStore false).Increment 0 0 "test-key" 1 1).2.Increment 0 0 "test-key" 1
      1).2.IsBlocked 2000000000 "test-key").1 = (false, 0, none) ∧
    (((((NewMockStore false).Increment 0 0 "test-key" 1 1).2.Increment 0 0 "test-key" 1
      1).2.IsBlocked 2000000000 "test-key").2.Increment 2000000000 2000000000 "test-key" 1
      1).1 = (false, 1000000000, none) ∧
    (((((NewMockStore false).Increment 0 0 "test-key" 1 1).2.Increment 0 0 "test-key" 1
      1).2.IsBlocked 2000000000 "test-key").2.Increment 2000000000 2000000000 "test-key" 1
      1).2.GetRequestCount "test-key" = (3, none) := by
  decide

/-! ## Reset -/

/-- C10. Reset equivalence. On a store `s` that does not fail, `ResetCounter(k)` returns nil,
removes the counter of `k` and changes no block and no other key's counter. If `k` has no
unexpired block at `t`, an `Increment(k, limit, b)` made at the clock readings `t` and
`later` after the reset returns `(limit ≥ 1, ttl, nil)` and leaves the count of `k` at 1, and
so does the same call, at the same readings, on any store `s2` that does not fail and in
which `k` has no counter and no unexpired block: same answer, same count. -/
theorem reset_equivalence (s : MockStore) (k : String) (t later : Time) (limit b : Int)
    (hf : s.failOnCall = false) (hopen : ∀ e, s.blockedKeys k = some e → e ≤ t) :
    (s.ResetCounter k).1 = none ∧
    (s.ResetCounter k).2.blockedKeys = s.blockedKeys ∧
    (s.ResetCounter k).2.requestCounts k = none ∧
    (∀ k2, k2 ≠ k → (s.ResetCounter k).2.requestCounts k2 = s.requestCounts k2) ∧
    ((s.ResetCounter k).2.Increment t later k limit b).1 =
      (decide (1 ≤ limit), if 1 ≤ limit then 0 else t + secondsToDuration b - later, none) ∧
    ((s.ResetCounter k).2.Increment t later k limit b).2.GetRequestCount k = (1, none) ∧
    ∀ s2 : MockStore, s2.failOnCall = false → s2.requestCounts k = none →
      (∀ e, s2.blockedKeys k = some e → e ≤ t) →
      (s2.Increment t later k limit b).1 =
        ((s.ResetCounter k).2.Increment t later k limit b).1 ∧
      (s2.Increment t later k limit b).2.GetRequestCount k =
        ((s.ResetCounter k).2.Increment t later k limit b).2.GetRequestCount k := by
  have hfresh : ∀ s2 : MockStore, s2.failOnCall = false → s2.requestCounts k = none →
      (∀ e, s2.blockedKeys k = some e → e ≤ t) →
      (s2.Increment t later k limit b).1 =
        (decide (1 ≤ limit), if 1 ≤ limit then 0 else t + secondsToDuration b - later, none) ∧
      (s2.Increment t later k limit b).2.GetRequestCount k = (1, none) := by
    intro s2 hf2 hc2 ho2
    obtain ⟨s1, _, s3⟩ := Increment_spec s2 t later k limit b hf2
    obtain ⟨r1, r2, _⟩ := s3 ho2
    rw [hc2] at r1 r2
    simp only [Option.getD_none, zero_add] at r1 r2
    refine ⟨r1, ?_⟩
    simp [MockStore.GetRequestCount, s1, r2, mapSet]
  have hreset : s.ResetCounter k =
      (none, { s with requestCounts := mapDelete s.requestCounts k }) := by
    unfold MockStore.ResetCounter
    simp [hf]
  have hmine := hfresh (s.ResetCounter k).2 (by rw [hreset]; exact hf)
    (by rw [hreset]; simp [mapDelete]) (by rw [hreset]; exact hopen)
  refine ⟨by rw [hreset], by rw [hreset], by rw [hreset]; simp [mapDelete], ?_, hmine.1,
    hmine.2, ?_⟩
  · intro k2 hk2
    rw [hreset]
    simp [mapDelete, hk2]
  · intro s2 hf2 hc2 ho2
    obtain ⟨a1, a2⟩ := hfresh s2 hf2 hc2 ho2
    exact ⟨by rw [a1, hmine.1], by rw [a2, hmine.2]⟩

theorem reset_equivalence_witness :
    (MockStore.incrementAll "test-key" 3 1 (NewMockStore false)
        [(0, 0), (0, 0), (0, 0), (0, 0)]).2.failOnCall = false ∧
    (∀ e, (MockStore.incrementAll "test-key" 3 1 (NewMockStore false)
        [(0, 0), (0, 0), (0, 0), (0, 0)]).2.blockedKeys "test-key" = some e →
      e ≤ 2000000000) ∧
    (MockStore.incrementAll "test-key" 3 1 (NewMockStore false)
        [(0, 0), (0, 0), (0, 0), (0, 0)]).2.GetRequestCount "test-key" = (4, none) ∧
    (((MockStore.incrementAll "test-key" 3 1 (NewMockStore false)
        [(0, 0), (0, 0), (0, 0), (0, 0)]).2.ResetCounter "test-key").2.Increment 2000000000
      2000000400 "test-key" 3 1).1 =
      (decide ((1 : Int) ≤ 3),
        if (1 : Int) ≤ 3 then 0 else 2000000000 + secondsToDuration 1 - 2000000400, none) ∧
    ((NewMockStore false).Increment 2000000000 2000000400 "test-key" 3 1).1 =
      (((MockStore.incrementAll "test-key" 3 1 (NewMockStore false)
        [(0, 0), (0, 0), (0, 0), (0, 0)]).2.ResetCounter "test-key").2.Increment 2000000000
      2000000400 "test-key" 3 1).1 := by
  have hopen : ∀ e, (MockStore.incrementAll "test-key" 3 1 (NewMockStore false)
      [(0, 0), (0, 0), (0, 0), (0, 0)]).2.blockedKeys "test-key" = some e → e ≤ 2000000000 := by
    intro e he
    have h1 : (MockStore.incrementAll "test-key" 3 1 (NewMockStore false)
        [(0, 0), (0, 0), (0, 0), (0, 0)]).2.blockedKeys "test-key" = some 1000000000 := by decide
    rw [h1] at he
    cases he
    decide
  have h := reset_equivalence (MockStore.incrementAll "test-key" 3 1 (NewMockStore false)
    [(0, 0), (0, 0), (0, 0), (0, 0)]).2 "test-key" 2000000000 2000000400 3 1 (by decide) hopen
  exact ⟨by decide, hopen, by decide, h.2.2.2.2.1,
    (h.2.2.2.2.2.2 (NewMockStore false) rfl rfl (by simp [NewMockStore])).1⟩

/-! ## A store that fails -/

theorem perform_failing (m : MockStore) (now later : Time) (c : MockCall)
    (hf : m.failOnCall = true) :
    (m.perform now later c).1.err = some ErrStorageFailure ∧ (m.perform now later c).2 = m := by
  cases c <;>
    simp [MockStore.perform, MockStore.Increment, MockStore.IsBlocked,
      MockStore.GetRequestCount, MockStore.ResetCounter, MockAnswer.err, hf]

theorem perform_failOnCall (m : MockStore) (now later : Time) (c : MockCall) :
    (m.perform now later c).2.failOnCall = m.failOnCall := by
  cases hf : m.failOnCall with
  | true => rw [(perform_failing m now later c hf).2, hf]
  | false =>
    cases c with
    | Increment key limit b => exact (Increment_spec m now later key limit b hf).1
    | IsBlocked key =>
      rw [← hf]
      exact (IsBlocked_state m now key).1
    | GetRequestCount key => exact hf
    | ResetCounter key => simp [MockStore.perform, MockStore.ResetCounter, hf]

theorem perform_not_failing (m : MockStore) (now later : Time) (c : MockCall)
    (hf : m.failOnCall = false) : (m.perform now later c).1.err = none := by
  cases c with
  | Increment key limit b =>
    by_cases h : ∀ e, m.blockedKeys key = some e → e ≤ now
    · have := ((Increment_spec m now later key limit b hf).2.2 h).1
      simp [MockStore.perform, MockAnswer.err, this]
    · push_neg at h
      obtain ⟨e, he, ht⟩ := h
      have := ((Increment_spec m now later key limit b hf).2.1 e he ht).1
      simp [MockStore.perform, MockAnswer.err, this]
  | IsBlocked key =>
    simp only [MockStore.perform, MockAnswer.err, MockStore.IsBlocked, hf]
    cases m.blockedKeys key with
    | none => simp
    | some e => by_cases h : timeAfter now e = true <;> simp [h]
  | GetRequestCount key => simp [MockStore.perform, MockAnswer.err, MockStore.GetRequestCount, hf]
  | ResetCounter key => simp [MockStore.perform, MockAnswer.err, MockStore.ResetCounter, hf]

theorem performAll_errors (calls : List (Time × Time × MockCall)) :
    ∀ m : MockStore,
      (m.failOnCall = false → ∀ a ∈ (m.performAll calls).1, a.err = none) ∧
      (m.failOnCall = true →
        (∀ a ∈ (m.performAll calls).1, a.err = some ErrStorageFailure) ∧
        (m.performAll calls).2 = m) := by
  induction calls with
  | nil =>
    intro m
    simp [MockStore.performAll]
  | cons c rest ih =>
    intro m
    obtain ⟨now, later, call⟩ := c
    refine ⟨?_, ?_⟩
    · intro hf a ha
      simp only [MockStore.performAll, List.mem_cons] at ha
      rcases ha with h | h
      · rw [h]
        exact perform_not_failing m now later call hf
      · exact (ih _).1 (by rw [perform_failOnCall, hf]) a h
    · intro hf
      obtain ⟨p1, p2⟩ := perform_failing m now later call hf
      simp only [MockStore.performAll, p2]
      refine ⟨?_, ((ih m).2 hf).2⟩
      intro a ha
      simp only [List.mem_cons] at ha
      rcases ha with h | h
      · rw [h]
        exact p1
      · exact ((ih m).2 hf).1 a h

/-- C11. A store with `failOnCall = true`, whatever it holds: `Increment` returns
`(false, 0, ErrStorageFailure)`, `IsBlocked` returns `(false, 0, ErrStorageFailure)`,
`GetRequestCount` returns `(0, ErrStorageFailure)`, `ResetCounter` returns
`ErrStorageFailure`, and each leaves the store as it was. `NewMockStore` sets the flag it is
given; in any run of calls on a store created with `false` no call returns an error, and in
any run on a store created with `true` every call returns `ErrStorageFailure` and the store
stays empty. -/
theorem failOnCall_atomic (m : MockStore) (now later : Time) (key : String)
    (limit blockSeconds : Int) :
    (m.failOnCall = true →
      m.Increment now later key limit blockSeconds = ((false, 0, some ErrStorageFailure), m) ∧
      m.IsBlocked now key = ((false, 0, some ErrStorageFailure), m) ∧
      m.GetRequestCount key = (0, some ErrStorageFailure) ∧
      m.ResetCounter key = (some ErrStorageFailure, m)) ∧
    (∀ flag, (NewMockStore flag).failOnCall = flag) ∧
    (∀ calls : List (Time × Time × MockCall),
      ∀ a ∈ ((NewMockStore false).performAll calls).1, a.err = none) ∧
    (∀ calls : List (Time × Time × MockCall),
      (∀ a ∈ ((NewMockStore true).performAll calls).1, a.err = some ErrStorageFailure) ∧
      ((NewMockStore true).performAll calls).2 = NewMockStore true) := by
  refine ⟨?_, fun _ => rfl, fun calls => (performAll_errors calls _).1 rfl,
    fun calls => (performAll_errors calls _).2 rfl⟩
  intro hf
  simp [MockStore.Increment, MockStore.IsBlocked, MockStore.GetRequestCount,
    MockStore.ResetCounter, hf]

/-! ## The ttl of an allowed request -/

/-- C14 (amended). Whenever `MockStore.Increment` allows a request it returns a nil error
and the ttl 0. -/
theorem increment_allowed_ttl_zero (m : MockStore) (now later : Time) (key : String)
    (limit blockSeconds : Int)
    (h : (m.Increment now later key limit blockSeconds).1.1 = true) :
    (m.Increment now later key limit blockSeconds).1.2.1 = 0 ∧
    (m.Increment now later key limit blockSeconds).1.2.2 = none := by
  cases hf : m.failOnCall with
  | true =>
    have : m.Increment now later key limit blockSeconds =
        ((false, 0, some ErrStorageFailure), m) := by
      simp [MockStore.Increment, hf]
    rw [this] at h
    simp at h
  | false =>
    obtain ⟨_, s2, s3⟩ := Increment_spec m now later key limit blockSeconds hf
    by_cases ho : ∀ e, m.blockedKeys key = some e → e ≤ now
    · obtain ⟨r1, _, _⟩ := s3 ho
      rw [r1] at h ⊢
      simp only [decide_eq_true_eq] at h
      simp [h]
    · push_neg at ho
      obtain ⟨e, he, ht⟩ := ho
      obtain ⟨r1, _, _⟩ := s2 e he ht
      rw [r1] at h
      simp at h

theorem increment_allowed_ttl_zero_witness :
    ((NewMockStore false).Increment 0 150 "test-key" 5 10).1.1 = true ∧
    ((NewMockStore false).Increment 0 150 "test-key" 5 10).1.2.1 = 0 ∧
    ((NewMockStore false).Increment 0 150 "test-key" 5 10).1.2.2 = none :=
  ⟨by decide, increment_allowed_ttl_zero (NewMockStore false) 0 150 "test-key" 5 10 (by decide)⟩

/-- C14 as stated fails: the first `Increment` of a fresh key with `limit = 5` is allowed
without error and its ttl is 0, which is not greater than 0. -/
theorem increment_allowed_ttl_not_positive :
    ((NewMockStore false).Increment 0 0 "test-key" 5 10).1 = (true, 0, none) ∧
    ¬ ((0 : Int) < ((NewMockStore false).Increment 0 0 "test-key" 5 10).1.2.1) := by
  decide

/-! ## The instant a block expires -/

/-- C20, at the failing input. A store whose key `"test-key"` is blocked until 10 s, read at
the instant 10 s: `IsBlocked` answers blocked with ttl 0, while `Increment` on the same store
at the same instant is not rejected by the block: it counts the request (the count goes from
1 to 2) and allows it. -/
theorem isBlocked_increment_disagree_at_expiry :
    ((NewMockStore false).Increment 0 0 "test-key" 0 10).2.failOnCall = false ∧
    ((NewMockStore false).Increment 0 0 "test-key" 0 10).2.blockedKeys "test-key" =
      some 10000000000 ∧
    (((NewMockStore false).Increment 0 0 "test-key" 0 10).2.IsBlocked 10000000000
      "test-key").1 = (true, 0, none) ∧
    (((NewMockStore false).Increment 0 0 "test-key" 0 10).2.Increment 10000000000 10000000000
      "test-key" 100 10).1 = (true, 0, none) ∧
    ((NewMockStore false).Increment 0 0 "test-key" 0 10).2.GetRequestCount "test-key" =
      (1, none) ∧
    (((NewMockStore false).Increment 0 0 "test-key" 0 10).2.Increment 10000000000 10000000000
      "test-key" 100 10).2.GetRequestCount "test-key" = (2, none) := by
  decide

/-! ## Blocks and counters along a run -/

/-- One call changes a counter only by counting an `Increment` of its key. -/
theorem afterCall_count (m : MockStore) (now later : Time) (c : StoreCall) (k : String) :
    (m.afterCall now later c).requestCounts k = m.requestCounts k ∨
    (((m.afterCall now later c).requestCounts k).getD 0 = (m.requestCounts k).getD 0 + 1 ∧
      ∃ l bs, c = StoreCall.Increment k l bs) := by
  cases c with
  | Increment key l bs =>
    by_cases hk : k = key
    · subst hk
      cases hf : m.failOnCall with
      | true =>
        have : m.Increment now later k l bs = ((false, 0, some ErrStorageFailure), m) := by
          simp [MockStore.Increment, hf]
        simp [MockStore.afterCall, this]
      | false =>
        obtain ⟨_, s2, s3⟩ := Increment_spec m now later k l bs hf
        by_cases ho : ∀ e, m.blockedKeys k = some e → e ≤ now
        · obtain ⟨_, r2, _⟩ := s3 ho
          refine Or.inr ⟨?_, l, bs, rfl⟩
          simp [MockStore.afterCall, r2, mapSet]
        · push_neg at ho
          obtain ⟨e, he, ht⟩ := ho
          obtain ⟨_, r2, _⟩ := s2 e he ht
          exact Or.inl (by simp [MockStore.afterCall, r2])
    · exact Or.inl (Increment_other m now later key k l bs hk).1
  | IsBlocked key => exact Or.inl (by simp [MockStore.afterCall, (IsBlocked_state m now key).2.1])
  | GetRequestCount key => exact Or.inl rfl

theorem afterCall_failOnCall (m : MockStore) (now later : Time) (c : StoreCall) :
    (m.afterCall now later c).failOnCall = m.failOnCall := by
  cases c with
  | Increment key l bs =>
    cases hf : m.failOnCall with
    | true => simp [MockStore.afterCall, MockStore.Increment, hf]
    | false => exact (Increment_spec m now later key l bs hf).1
  | IsBlocked key => exact (IsBlocked_state m now key).1
  | GetRequestCount key => rfl

/-- A counter never decreases along a run of `Increment`, `IsBlocked` and
`GetRequestCount` calls. -/
theorem afterCalls_count_mono (calls : List (Time × Time × StoreCall)) (k : String) :
    ∀ m : MockStore,
      (m.requestCounts k).getD 0 ≤ ((m.afterCalls calls).requestCounts k).getD 0 := by
  induction calls with
  | nil => intro m; exact le_refl _
  | cons c rest ih =>
    intro m
    obtain ⟨now, later, call⟩ := c
    have h := ih (m.afterCall now later call)
    simp only [MockStore.afterCalls]
    rcases afterCall_count m now later call k with h1 | h1
    · rw [h1] at h
      exact h
    · linarith [h1.1]

theorem afterCalls_failOnCall (calls : List (Time × Time × StoreCall)) :
    ∀ m : MockStore, (m.afterCalls calls).failOnCall = m.failOnCall := by
  induction calls with
  | nil => intro m; rfl
  | cons c rest ih =>
    intro m
    obtain ⟨now, later, call⟩ := c
    simp only [MockStore.afterCalls]
    rw [ih, afterCall_failOnCall]

/-- What an `Increment` leaves in `blockedKeys`: records that were there, and for its own
key possibly a new record, written when the count it reached exceeds its limit. -/
theorem Increment_blocks (m : MockStore) (now later : Time) (key : String) (limit b : Int)
    (k : String) (e : Time) (h : (m.Increment now later key limit b).2.blockedKeys k = some e) :
    m.blockedKeys k = some e ∨
    (k = key ∧ limit < ((m.Increment now later key limit b).2.requestCounts key).getD 0 ∧
      ((m.Increment now later key limit b).2.requestCounts key).getD 0 =
        (m.requestCounts key).getD 0 + 1) := by
  cases hf : m.failOnCall with
  | true =>
    have : m.Increment now later key limit b = ((false, 0, some ErrStorageFailure), m) := by
      simp [MockStore.Increment, hf]
    rw [this] at h
    exact Or.inl h
  | false =>
    by_cases hk : k = key
    · subst hk
      obtain ⟨_, s2, s3⟩ := Increment_spec m now later k limit b hf
      by_cases ho : ∀ e, m.blockedKeys k = some e → e ≤ now
      · obtain ⟨_, r2, r3⟩ := s3 ho
        by_cases hc : (m.requestCounts k).getD 0 + 1 ≤ limit
        · rw [r3, if_pos hc] at h
          cases h
        · refine Or.inr ⟨rfl, ?_, ?_⟩
          · rw [r2]
            simp only [mapSet, if_true, Option.getD_some]
            linarith
          · rw [r2]
            simp [mapSet]
      · push_neg at ho
        obtain ⟨e2, he2, ht⟩ := ho
        obtain ⟨_, _, r3⟩ := s2 e2 he2 ht
        rw [r3] at h
        rw [he2]
        exact Or.inl h
    · rw [(Increment_other m now later key k limit b hk).2.1 hf] at h
      exact Or.inl ((sweepExpired_eq_some now m.blockedKeys k e).1 h).1

/-- One call keeps the property that a block of `k` comes with a counter above `L`, as long
as an `Increment` of `k` uses the limit `L`. -/
theorem afterCall_block_above (m : MockStore) (now later : Time) (c : StoreCall) (k : String)
    (L : Int) (hL : ∀ l bs, c = StoreCall.Increment k l bs → l = L)
    (hinv : ∀ e, m.blockedKeys k = some e → L < (m.requestCounts k).getD 0) :
    ∀ e, (m.afterCall now later c).blockedKeys k = some e →
      L < ((m.afterCall now later c).requestCounts k).getD 0 := by
  intro e he
  cases c with
  | Increment key l bs =>
    simp only [MockStore.afterCall] at he ⊢
    rcases Increment_blocks m now later key l bs k e he with h | ⟨h1, h2, _⟩
    · have := hinv e h
      have hmono := afterCalls_count_mono [(now, later, StoreCall.Increment key l bs)] k m
      simp only [MockStore.afterCalls, MockStore.afterCall] at hmono
      linarith
    · subst h1
      rw [← hL l bs rfl]
      exact h2
  | IsBlocked key =>
    simp only [MockStore.afterCall] at he ⊢
    obtain ⟨_, i2, i3, _⟩ := IsBlocked_state m now key
    rw [i2]
    by_cases hk : k = key
    · subst hk
      cases hf : m.failOnCall with
      | true =>
        have : m.IsBlocked now k = ((false, 0, some ErrStorageFailure), m) := by
          simp [MockStore.IsBlocked, hf]
        rw [this] at he
        exact hinv e he
      | false =>
        rw [(IsBlocked_state m now k).2.2.2 hf] at he
        exact hinv e ((sweepExpired_eq_some now m.blockedKeys k e).1 he).1
    · rw [i3 k hk] at he
      exact hinv e he
  | GetRequestCount key => exact hinv e he

theorem afterCalls_block_above (k : String) (L : Int) (calls : List (Time × Time × StoreCall)) :
    ∀ m : MockStore,
      (∀ c ∈ calls, ∀ l bs, c.2.2 = StoreCall.Increment k l bs → l = L) →
      (∀ e, m.blockedKeys k = some e → L < (m.requestCounts k).getD 0) →
      ∀ e, (m.afterCalls calls).blockedKeys k = some e →
        L < ((m.afterCalls calls).requestCounts k).getD 0 := by
  induction calls with
  | nil => intro m _ hinv; exact hinv
  | cons c rest ih =>
    intro m hL hinv
    obtain ⟨now, later, call⟩ := c
    simp only [MockStore.afterCalls]
    exact ih _ (fun c hc => hL c (List.mem_cons_of_mem _ hc))
      (afterCall_block_above m now later call k L
        (hL (now, later, call) (List.mem_cons_self _ _)) hinv)

/-- C18. Block records are created only on exceeding the limit. In the store reached from an
empty store that does not fail by any run of `Increment`, `IsBlocked` and `GetRequestCount`
calls whose `Increment`s all use the limit `L`, every key with a block record has a counter
greater than `L`. And for an `Increment` on any store, a block record found afterwards either
was there before with the same expiry, or belongs to the key of the call, which counted the
request and reached a count above its limit. -/
theorem blocks_only_above_limit (L : Int) (calls : List (Time × Time × StoreCall))
    (hL : ∀ c ∈ calls, ∀ k l bs, c.2.2 = StoreCall.Increment k l bs → l = L) :
    (∀ k e, ((NewMockStore false).afterCalls calls).blockedKeys k = some e →
      L < (((NewMockStore false).afterCalls calls).requestCounts k).getD 0) ∧
    (∀ (m : MockStore) (now later : Time) (key : String) (limit b : Int) (k : String)
      (e : Time),
      (m.Increment now later key limit b).2.blockedKeys k = some e →
      m.blockedKeys k = some e ∨
      (k = key ∧ limit < ((m.Increment now later key limit b).2.requestCounts key).getD 0 ∧
        ((m.Increment now later key limit b).2.requestCounts key).getD 0 =
          (m.requestCounts key).getD 0 + 1)) := by
  refine ⟨?_, fun m now later key limit b k e h =>
    Increment_blocks m now later key limit b k e h⟩
  intro k e he
  exact afterCalls_block_above k L calls (NewMockStore false)
    (fun c hc l bs h => hL c hc k l bs h) (by simp [NewMockStore]) e he

theorem blocks_only_above_limit_witness :
    (∀ c ∈ [((0 : Time), (0 : Time), StoreCall.Increment "a" 1 10),
        (1, 300, StoreCall.Increment "a" 1 10), (400, 400, StoreCall.IsBlocked "a"),
        (500, 600, StoreCall.Increment "b" 1 10)],
      ∀ k l bs, c.2.2 = StoreCall.Increment k l bs → l = 1) ∧
    ((NewMockStore false).afterCalls
      [((0 : Time), (0 : Time), StoreCall.Increment "a" 1 10),
        (1, 300, StoreCall.Increment "a" 1 10), (400, 400, StoreCall.IsBlocked "a"),
        (500, 600, StoreCall.Increment "b" 1 10)]).blockedKeys "a" =
      some 10000000001 ∧
    (1 : Int) < (((NewMockStore false).afterCalls
      [((0 : Time), (0 : Time), StoreCall.Increment "a" 1 10),
        (1, 300, StoreCall.Increment "a" 1 10), (400, 400, StoreCall.IsBlocked "a"),
        (500, 600, StoreCall.Increment "b" 1 10)]).requestCounts
      "a").getD 0 := by
  have hL : ∀ c ∈ [((0 : Time), (0 : Time), StoreCall.Increment "a" 1 10),
      (1, 300, StoreCall.Increment "a" 1 10), (400, 400, StoreCall.IsBlocked "a"),
      (500, 600, StoreCall.Increment "b" 1 10)],
      ∀ k l bs, c.2.2 = StoreCall.Increment k l bs → l = 1 := by
    intro c hc k l bs h
    simp only [List.mem_cons, List.mem_singleton, List.not_mem_nil, or_false] at hc
    rcases hc with rfl | rfl | rfl | rfl <;> simp at h <;> simp [h]
  have hb : ((NewMockStore false).afterCalls
      [((0 : Time), (0 : Time), StoreCall.Increment "a" 1 10),
        (1, 300, StoreCall.Increment "a" 1 10), (400, 400, StoreCall.IsBlocked "a"),
        (500, 600, StoreCall.Increment "b" 1 10)]).blockedKeys "a" =
      some 10000000001 := by decide
  exact ⟨hL, hb, (blocks_only_above_limit 1 _ hL).1 "a" 10000000001 hb⟩

/-- C19 (amended). The in-process counter is sticky. Along a run of `Increment`, `IsBlocked`
and `GetRequestCount` calls no counter decreases. In a run from an empty store in which the
key is always incremented with the limit `L`, every denied `Increment(key, L, b)` leaves
the counter of the key above `L`. And once an `Increment(key, L, b)` has left the counter
above `L` on a store that does not fail, it was denied, and after any run of such calls every
`Increment(key, L, b2)`, at any clock readings, is denied without error, blocks the key anew
when it finds no unexpired block, and a burst of them has no allowed call. -/
theorem counter_sticky (m : MockStore) (key : String) (L b : Int) (t0 later0 : Time)
    (hf : m.failOnCall = false)
    (habove : L < ((m.Increment t0 later0 key L b).2.requestCounts key).getD 0) :
    (∀ (s : MockStore) (calls : List (Time × Time × StoreCall)) (k : String),
      (s.requestCounts k).getD 0 ≤ ((s.afterCalls calls).requestCounts k).getD 0) ∧
    (∀ (pre : List (Time × Time × StoreCall)) (t later : Time) (b2 : Int),
      (∀ c ∈ pre, ∀ l bs, c.2.2 = StoreCall.Increment key l bs → l = L) →
      (((NewMockStore false).afterCalls pre).Increment t later key L b2).1.1 = false →
      L < ((((NewMockStore false).afterCalls pre).Increment t later key L b2).2.requestCounts
        key).getD 0) ∧
    (m.Increment t0 later0 key L b).1.1 = false ∧
    ∀ (calls : List (Time × Time × StoreCall)) (t later : Time) (b2 : Int),
      (((m.Increment t0 later0 key L b).2.afterCalls calls).Increment t later key L b2).1.1 =
        false ∧
      (((m.Increment t0 later0 key L b).2.afterCalls calls).Increment t later key L b2).1.2.2 =
        none ∧
      ((∀ e, ((m.Increment t0 later0 key L b).2.afterCalls calls).blockedKeys key = some e →
          e ≤ t) →
        (((m.Increment t0 later0 key L b).2.afterCalls calls).Increment t later key L
          b2).2.blockedKeys key = some (t + secondsToDuration b2)) ∧
      ∀ ts : List (Time × Time),
        ((MockStore.incrementAll key L b2 ((m.Increment t0 later0 key L b).2.afterCalls calls)
          ts).1.filter fun r => r.1).length = 0 := by
  have hden : ∀ (s : MockStore) (t later : Time) (b2 : Int), s.failOnCall = false →
      (s.Increment t later key L b2).1.1 = false →
      (∀ e, s.blockedKeys key = some e → L < (s.requestCounts key).getD 0) →
      L < ((s.Increment t later key L b2).2.requestCounts key).getD 0 := by
    intro s t later b2 hs hd hinv
    obtain ⟨_, s2, s3⟩ := Increment_spec s t later key L b2 hs
    by_cases ho : ∀ e, s.blockedKeys key = some e → e ≤ t
    · obtain ⟨r1, r2, _⟩ := s3 ho
      rw [r1] at hd
      simp only [decide_eq_false_iff_not, not_le] at hd
      rw [r2]
      simpa [mapSet] using hd
    · push_neg at ho
      obtain ⟨e, he, ht⟩ := ho
      obtain ⟨_, r2, _⟩ := s2 e he ht
      rw [r2]
      exact hinv e he
  have hdenied : ∀ (s : MockStore) (t later : Time) (b2 : Int), s.failOnCall = false →
      L < (s.requestCounts key).getD 0 + 1 →
      (s.Increment t later key L b2).1.1 = false ∧
      (s.Increment t later key L b2).1.2.2 = none ∧
      ((∀ e, s.blockedKeys key = some e → e ≤ t) →
        (s.Increment t later key L b2).2.blockedKeys key = some (t + secondsToDuration b2)) := by
    intro s t later b2 hs hc
    obtain ⟨_, s2, s3⟩ := Increment_spec s t later key L b2 hs
    have hnot : ¬ (s.requestCounts key).getD 0 + 1 ≤ L := by linarith
    by_cases ho : ∀ e, s.blockedKeys key = some e → e ≤ t
    · obtain ⟨r1, _, r3⟩ := s3 ho
      rw [r1, r3]
      simp [hnot]
    · push_neg at ho
      obtain ⟨e, he, ht⟩ := ho
      obtain ⟨r1, _, _⟩ := s2 e he ht
      rw [r1]
      refine ⟨rfl, rfl, fun h => ?_⟩
      exact absurd (h e he) (by linarith)
  obtain ⟨s1, s2, s3⟩ := Increment_spec m t0 later0 key L b hf
  refine ⟨fun s calls k => afterCalls_count_mono calls k s, ?_, ?_, ?_⟩
  · intro pre t later b2 hpre hd
    refine hden _ t later b2 (by rw [afterCalls_failOnCall]; rfl) hd ?_
    exact afterCalls_block_above key L pre (NewMockStore false) hpre (by simp [NewMockStore])
  · by_cases ho : ∀ e, m.blockedKeys key = some e → e ≤ t0
    · obtain ⟨r1, r2, _⟩ := s3 ho
      rw [r2] at habove
      simp only [mapSet, if_true, Option.getD_some] at habove
      rw [r1]
      simp
      linarith
    · push_neg at ho
      obtain ⟨e, he, ht⟩ := ho
      obtain ⟨r1, _, _⟩ := s2 e he ht
      rw [r1]
  · intro calls t later b2
    have hmono := afterCalls_count_mono calls key (m.Increment t0 later0 key L b).2
    have hf2 : ((m.Increment t0 later0 key L b).2.afterCalls calls).failOnCall = false := by
      rw [afterCalls_failOnCall]
      exact s1
    have hc :
        L < (((m.Increment t0 later0 key L b).2.afterCalls calls).requestCounts key).getD 0
          + 1 := by
      linarith
    obtain ⟨d1, d2, d3⟩ := hdenied _ t later b2 hf2 hc
    exact ⟨d1, d2, d3, fun ts => (incrementAll_over_limit key L b2 ts _ hf2 hc).2⟩

theorem counter_sticky_witness :
    (NewMockStore false).failOnCall = false ∧
    (0 : Int) < (((NewMockStore false).Increment 0 0 "burst-traffic-key" 0 5).2.requestCounts
      "burst-traffic-key").getD 0 ∧
    (((NewMockStore false).Increment 0 0 "burst-traffic-key" 0 5).2.afterCalls
      [(1, 1, StoreCall.IsBlocked "burst-traffic-key")]).blockedKeys "burst-traffic-key" =
      some 5000000000 ∧
    ((((NewMockStore false).Increment 0 0 "burst-traffic-key" 0 5).2.afterCalls
      [(1, 1, StoreCall.IsBlocked "burst-traffic-key")]).Increment 6000000000 6000000000
      "burst-traffic-key" 0 5).1.1 = false ∧
    ((MockStore.incrementAll "burst-traffic-key" 0 5
      (((NewMockStore false).Increment 0 0 "burst-traffic-key" 0 5).2.afterCalls
        [(1, 1, StoreCall.IsBlocked "burst-traffic-key")])
      [(6000000000, 6000000200), (6000000300, 6000000500)]).1.filter
        fun r => r.1).length = 0 := by
  have h := counter_sticky (NewMockStore false) "burst-traffic-key" 0 5 0 0 rfl (by decide)
  exact ⟨rfl, by decide, by decide,
    (h.2.2.2 [(1, 1, StoreCall.IsBlocked "burst-traffic-key")] 6000000000 6000000000 5).1,
    (h.2.2.2 [(1, 1, StoreCall.IsBlocked "burst-traffic-key")] 6000000000 6000000000 5).2.2.2
      [(6000000000, 6000000200), (6000000300, 6000000500)]⟩

/-- C19 as stated fails when the denial came from a block while the counter was not above
`L`. With other limits: `Increment(k, 0, 1)` at 0 blocks the key, `Increment(k, 5, 1)` at
0.5 s is denied by that block, and `Increment(k, 5, 1)` at 2 s is allowed. With one limit:
two `Increment(k, 1, 1)` at 0 block the key, `ResetCounter(k)` removes the counter,
`Increment(k, 1, 1)` at 0.5 s is denied by the block, and with no further reset
`Increment(k, 1, 1)` at 2 s is allowed. -/
theorem denial_not_sticky :
    ((NewMockStore false).performAll
      [(0, 0, MockCall.Increment "k" 0 1), (500000000, 500000000, MockCall.Increment "k" 5 1),
        (2000000000, 2000000000, MockCall.Increment "k" 5 1)]).1 =
      [MockAnswer.decision (false, 1000000000, none),
        MockAnswer.decision (false, 500000000, none),
        MockAnswer.decision (true, 0, none)] ∧
    ((NewMockStore false).performAll
      [(0, 0, MockCall.Increment "k" 1 1), (0, 0, MockCall.Increment "k" 1 1),
        (0, 0, MockCall.ResetCounter "k"), (500000000, 500000000, MockCall.Increment "k" 1 1),
        (2000000000, 2000000000, MockCall.Increment "k" 1 1)]).1 =
      [MockAnswer.decision (true, 0, none), MockAnswer.decision (false, 1000000000, none),
        MockAnswer.done none, MockAnswer.decision (false, 500000000, none),
        MockAnswer.decision (true, 0, none)] := by
  decide

/-! ## Stores that differ only in expired blocks -/

theorem sweepExpired_congr (t t2 : Time) (a b : String → Option Time) (k : String)
    (ht : t ≤ t2) (h : sweepExpired t a k = sweepExpired t b k) :
    sweepExpired t2 a k = sweepExpired t2 b k := by
  have key : ∀ c : String → Option Time,
      sweepExpired t2 c k = (sweepExpired t c k).bind fun e => if e < t2 then none else some e := by
    intro c
    rw [sweepExpired_apply, sweepExpired_apply]
    cases c k with
    | none => rfl
    | some e =>
      by_cases h1 : e < t
      · have h2 : e < t2 := lt_of_lt_of_le h1 ht
        simp [h1, h2]
      · simp [h1]
  rw [key a, key b, h]

theorem sweepExpired_idem (t : Time) (a : String → Option Time) (k : String) :
    sweepExpired t (sweepExpired t a) k = sweepExpired t a k := by
  rw [sweepExpired_apply, sweepExpired_apply]
  cases a k with
  | none => rfl
  | some e => by_cases h1 : e < t <;> simp [h1]

theorem agreeOn_refl (k : String) (t : Time) (m : MockStore) : agreeOn k t m m :=
  ⟨rfl, rfl, rfl⟩

theorem agreeOn_symm {k : String} {t : Time} {m m2 : MockStore} (h : agreeOn k t m m2) :
    agreeOn k t m2 m :=
  ⟨h.1.symm, h.2.1.symm, h.2.2.symm⟩

theorem agreeOn_trans {k : String} {t : Time} {m m2 m3 : MockStore} (h : agreeOn k t m m2)
    (h2 : agreeOn k t m2 m3) : agreeOn k t m m3 :=
  ⟨h.1.trans h2.1, h.2.1.trans h2.2.1, h.2.2.trans h2.2.2⟩

theorem agreeOn_mono {k : String} {t t2 : Time} {m m2 : MockStore} (ht : t ≤ t2)
    (h : agreeOn k t m m2) : agreeOn k t2 m m2 :=
  ⟨h.1, h.2.1, sweepExpired_congr t t2 _ _ k ht h.2.2⟩

/-- Whether `Increment` counts depends on the block of the key only through the sweep. -/
theorem open_iff_sweep (bk : String → Option Time) (now : Time) (k : String) :
    (∀ e, bk k = some e → e ≤ now) ↔
      (∀ e, sweepExpired now bk k = some e → e ≤ now) := by
  constructor
  · intro h e he
    exact h e ((sweepExpired_eq_some now bk k e).1 he).1
  · intro h e he
    by_cases h1 : e < now
    · linarith
    · exact h e ((sweepExpired_eq_some now bk k e).2 ⟨he, by linarith⟩)

/-- An `Increment` of `k` on two stores that agree on `k`: same answer, and the stores
agree on `k` afterwards. -/
theorem Increment_agree (k : String) (now later : Time) (limit b : Int) (m m2 : MockStore)
    (h : agreeOn k now m m2) :
    (m.Increment now later k limit b).1 = (m2.Increment now later k limit b).1 ∧
    agreeOn k now (m.Increment now later k limit b).2 (m2.Increment now later k limit b).2 := by
  obtain ⟨h1, h2, h3⟩ := h
  cases hf : m.failOnCall with
  | true =>
    have hf2 : m2.failOnCall = true := by rw [← h1, hf]
    have e1 : m.Increment now later k limit b = ((false, 0, some ErrStorageFailure), m) := by
      simp [MockStore.Increment, hf]
    have e2 : m2.Increment now later k limit b = ((false, 0, some ErrStorageFailure), m2) := by
      simp [MockStore.Increment, hf2]
    rw [e1, e2]
    exact ⟨rfl, h1, h2, h3⟩
  | false =>
    have hf2 : m2.failOnCall = false := by rw [← h1, hf]
    obtain ⟨a1, a2, a3⟩ := Increment_spec m now later k limit b hf
    obtain ⟨b1, b2, b3⟩ := Increment_spec m2 now later k limit b hf2
    by_cases ho : ∀ e, m.blockedKeys k = some e → e ≤ now
    · have ho2 : ∀ e, m2.blockedKeys k = some e → e ≤ now := by
        rw [open_iff_sweep, ← h3, ← open_iff_sweep]
        exact ho
      obtain ⟨r1, r2, r3⟩ := a3 ho
      obtain ⟨q1, q2, q3⟩ := b3 ho2
      refine ⟨by rw [r1, q1, h2], by rw [a1, b1], ?_, ?_⟩
      · rw [r2, q2, h2]
        simp [mapSet]
      · rw [sweepExpired_apply, sweepExpired_apply, r3, q3, h2]
    · push_neg at ho
      obtain ⟨e, he, ht⟩ := ho
      have he2 : m2.blockedKeys k = some e := by
        have hs : sweepExpired now m.blockedKeys k = some e :=
          (sweepExpired_eq_some now m.blockedKeys k e).2 ⟨he, by linarith⟩
        rw [h3] at hs
        exact ((sweepExpired_eq_some now m2.blockedKeys k e).1 hs).1
      obtain ⟨r1, r2, r3⟩ := a2 e he ht
      obtain ⟨q1, q2, q3⟩ := b2 e he2 ht
      refine ⟨by rw [r1, q1], by rw [a1, b1], by rw [r2, q2, h2], ?_⟩
      rw [sweepExpired_apply, sweepExpired_apply, r3, q3]

/-- An `IsBlocked` of `k` on two stores that agree on `k`: same answer, and the stores agree
on `k` afterwards. -/
theorem IsBlocked_agree (k : String) (now : Time) (m m2 : MockStore)
    (h : agreeOn k now m m2) :
    (m.IsBlocked now k).1 = (m2.IsBlocked now k).1 ∧
    agreeOn k now (m.IsBlocked now k).2 (m2.IsBlocked now k).2 := by
  obtain ⟨h1, h2, h3⟩ := h
  cases hf : m.failOnCall with
  | true =>
    have hf2 : m2.failOnCall = true := by rw [← h1, hf]
    have e1 : m.IsBlocked now k = ((false, 0, some ErrStorageFailure), m) := by
      simp [MockStore.IsBlocked, hf]
    have e2 : m2.IsBlocked now k = ((false, 0, some ErrStorageFailure), m2) := by
      simp [MockStore.IsBlocked, hf2]
    rw [e1, e2]
    exact ⟨rfl, h1, h2, h3⟩
  | false =>
    have hf2 : m2.failOnCall = false := by rw [← h1, hf]
    obtain ⟨i1, i2, _, i4⟩ := IsBlocked_state m now k
    obtain ⟨j1, j2, _, j4⟩ := IsBlocked_state m2 now k
    have hanswer : ∀ s : MockStore, s.failOnCall = false →
        (s.IsBlocked now k).1 =
          match sweepExpired now s.blockedKeys k with
          | some e => (true, e - now, none)
          | none => (false, 0, none) := by
      intro s hs
      obtain ⟨p1, p2, p3⟩ := IsBlocked_spec s now k hs
      cases hb : s.blockedKeys k with
      | none =>
        rw [p1 hb, (sweepExpired_eq_none now s.blockedKeys k).2 (by simp [hb])]
      | some e =>
        by_cases ht : e < now
        · rw [p2 e hb ht, (sweepExpired_eq_none now s.blockedKeys k).2 (by
            intro e2 he2
            rw [hb] at he2
            cases he2
            exact ht)]
        · have hle : now ≤ e := by linarith
          rw [p3 e hb hle, (sweepExpired_eq_some now s.blockedKeys k e).2 ⟨hb, hle⟩]
    refine ⟨by rw [hanswer m hf, hanswer m2 hf2, h3], by rw [i1, j1, h1],
      by rw [i2, j2, h2], ?_⟩
    rw [sweepExpired_apply, sweepExpired_apply, i4 hf, j4 hf2, ← sweepExpired_apply,
      ← sweepExpired_apply, sweepExpired_idem, sweepExpired_idem, h3]

/-- A call about `k` on two stores that agree on `k`: same answer, and the stores agree on
`k` afterwards. -/
theorem perform_agree (k : String) (now later : Time) (c : MockCall) (m m2 : MockStore)
    (hc : c.key = k) (h : agreeOn k now m m2) :
    (m.perform now later c).1 = (m2.perform now later c).1 ∧
    agreeOn k now (m.perform now later c).2 (m2.perform now later c).2 := by
  cases c with
  | Increment key limit b =>
    simp only [MockCall.key] at hc
    subst hc
    obtain ⟨a1, a2⟩ := Increment_agree key now later limit b m m2 h
    exact ⟨by simp [MockStore.perform, a1], a2⟩
  | IsBlocked key =>
    simp only [MockCall.key] at hc
    subst hc
    obtain ⟨a1, a2⟩ := IsBlocked_agree key now m m2 h
    exact ⟨by simp [MockStore.perform, a1], a2⟩
  | GetRequestCount key =>
    simp only [MockCall.key] at hc
    subst hc
    refine ⟨?_, h⟩
    simp [MockStore.perform, MockStore.GetRequestCount, h.1, h.2.1]
  | ResetCounter key =>
    simp only [MockCall.key] at hc
    subst hc
    obtain ⟨h1, h2, h3⟩ := h
    cases hf : m.failOnCall with
    | true =>
      have hf2 : m2.failOnCall = true := by rw [← h1, hf]
      simp only [MockStore.perform, MockStore.ResetCounter, hf, hf2, if_true]
      exact ⟨trivial, h1, h2, h3⟩
    | false =>
      have hf2 : m2.failOnCall = false := by rw [← h1, hf]
      simp only [MockStore.perform, MockStore.ResetCounter, hf, hf2]
      refine ⟨by simp, ?_, ?_, ?_⟩
      · simp [hf, hf2]
      · simp [mapDelete]
      · simpa using h3

/-- A call about another key leaves a store agreeing with itself on `k`. -/
theorem perform_other (k : String) (now later : Time) (c : MockCall) (m : MockStore)
    (hc : c.key ≠ k) : agreeOn k now (m.perform now later c).2 m := by
  cases hf : m.failOnCall with
  | true =>
    rw [(perform_failing m now later c hf).2]
    exact agreeOn_refl k now m
  | false =>
    cases c with
    | Increment key limit b =>
      simp only [MockCall.key] at hc
      obtain ⟨o1, o2, _⟩ := Increment_other m now later key k limit b (Ne.symm hc)
      refine ⟨by rw [perform_failOnCall], o1, ?_⟩
      simp only [MockStore.perform]
      rw [sweepExpired_apply, o2 hf, ← sweepExpired_apply, sweepExpired_idem]
    | IsBlocked key =>
      simp only [MockCall.key] at hc
      obtain ⟨i1, i2, i3, _⟩ := IsBlocked_state m now key
      refine ⟨i1, by simp [MockStore.perform, i2], ?_⟩
      simp only [MockStore.perform]
      rw [sweepExpired_apply, i3 k (Ne.symm hc), ← sweepExpired_apply]
    | GetRequestCount key => exact agreeOn_refl k now m
    | ResetCounter key =>
      simp only [MockCall.key] at hc
      refine ⟨by rw [perform_failOnCall], ?_, ?_⟩
      · simp [MockStore.perform, MockStore.ResetCounter, hf, mapDelete, Ne.symm hc]
      · simp [MockStore.perform, MockStore.ResetCounter, hf]

/-- Two stores that agree on every key give the same answers to a run of calls made at
non-decreasing instants. -/
theorem performAll_agree (calls : List (Time × Time × MockCall)) :
    ∀ (t : Time) (m m2 : MockStore), (∀ k, agreeOn k t m m2) →
      calls.Pairwise (fun a c => a.1 ≤ c.1) → (∀ x ∈ calls, t ≤ x.1) →
      (m.performAll calls).1 = (m2.performAll calls).1 := by
  induction calls with
  | nil => intro t m m2 _ _ _; rfl
  | cons x rest ih =>
    intro t m m2 h hp ht
    obtain ⟨now, later, c⟩ := x
    have hnow : t ≤ now := ht (now, later, c) (List.mem_cons_self _ _)
    have hp2 := List.pairwise_cons.1 hp
    have hstep : ∀ k, agreeOn k now (m.perform now later c).2 (m2.perform now later c).2 := by
      intro k
      by_cases hk : c.key = k
      · exact (perform_agree k now later c m m2 hk (agreeOn_mono hnow (h k))).2
      · exact agreeOn_trans (perform_other k now later c m hk)
          (agreeOn_trans (agreeOn_mono hnow (h k))
            (agreeOn_symm (perform_other k now later c m2 hk)))
    have hhead := (perform_agree c.key now later c m m2 rfl (agreeOn_mono hnow (h c.key))).1
    simp only [MockStore.performAll, hhead]
    rw [ih now _ _ hstep hp2.2 (fun y hy => hp2.1 y hy)]

/-- From two stores that agree on `k`, the calls about `k` in a run made at non-decreasing
instants get the answers they get when the calls about other keys are left out. -/
theorem answersFor_projection (k : String) (calls : List (Time × Time × MockCall)) :
    ∀ (t : Time) (m m2 : MockStore), agreeOn k t m m2 →
      calls.Pairwise (fun a c => a.1 ≤ c.1) → (∀ x ∈ calls, t ≤ x.1) →
      m.answersFor k calls =
        (m2.performAll (calls.filter fun x => decide (x.2.2.key = k))).1 := by
  induction calls with
  | nil => intro t m m2 _ _ _; rfl
  | cons x rest ih =>
    intro t m m2 h hp ht
    obtain ⟨now, later, c⟩ := x
    have hnow : t ≤ now := ht (now, later, c) (List.mem_cons_self _ _)
    have hp2 := List.pairwise_cons.1 hp
    by_cases hk : c.key = k
    · obtain ⟨a1, a2⟩ := perform_agree k now later c m m2 hk (agreeOn_mono hnow h)
      simp only [MockStore.answersFor, hk, if_true, List.filter_cons, decide_True,
        MockStore.performAll, a1]
      rw [ih now _ _ a2 hp2.2 (fun y hy => hp2.1 y hy)]
    · have a2 := agreeOn_trans (perform_other k now later c m hk) (agreeOn_mono hnow h)
      simp only [MockStore.answersFor, hk, if_false, List.filter_cons, decide_False]
      exact ih now _ _ a2 hp2.2 (fun y hy => hp2.1 y hy)

theorem answersFor_agree (k : String) (calls : List (Time × Time × MockCall)) (t : Time)
    (m m2 : MockStore) (h : agreeOn k t m m2) (hp : calls.Pairwise (fun a c => a.1 ≤ c.1))
    (ht : ∀ x ∈ calls, t ≤ x.1) : m.answersFor k calls = m2.answersFor k calls := by
  rw [answersFor_projection k calls t m m2 h hp ht,
    answersFor_projection k calls t m2 m2 (agreeOn_refl k t m2) hp ht]

theorem pairwise_lower_bound (calls : List (Time × Time × MockCall))
    (hp : calls.Pairwise (fun a c => a.1 ≤ c.1)) :
    ∃ t : Time, ∀ x ∈ calls, t ≤ x.1 := by
  cases calls with
  | nil => exact ⟨0, by simp⟩
  | cons x rest =>
    refine ⟨x.1, ?_⟩
    intro y hy
    simp only [List.mem_cons] at hy
    rcases hy with h | h
    · rw [h]
    · exact (List.pairwise_cons.1 hp).1 y h

theorem performAll_increments (k : String) (limit b : Int) (ts : List (Time × Time)) :
    ∀ m : MockStore,
      (m.performAll (ts.map fun t => (t.1, t.2, MockCall.Increment k limit b))).1 =
        (MockStore.incrementAll k limit b m ts).1.map MockAnswer.decision := by
  induction ts with
  | nil => intro m; rfl
  | cons t rest ih =>
    obtain ⟨now, later⟩ := t
    intro m
    simp only [List.map_cons, MockStore.performAll, MockStore.perform, MockStore.incrementAll]
    rw [ih]

theorem filter_all_increments (k : String) (limit b : Int)
    (calls : List (Time × Time × MockCall))
    (h : ∀ x ∈ calls, x.2.2.key = k → x.2.2 = MockCall.Increment k limit b) :
    (calls.filter fun x => decide (x.2.2.key = k)) =
      ((calls.filter fun x => decide (x.2.2.key = k)).map fun x => (x.1, x.2.1)).map
        fun t => (t.1, t.2, MockCall.Increment k limit b) := by
  induction calls with
  | nil => rfl
  | cons x rest ih =>
    have ih2 := ih (fun y hy => h y (List.mem_cons_of_mem _ hy))
    by_cases hk : x.2.2.key = k
    · have hx := h x (List.mem_cons_self _ _) hk
      simp only [List.filter_cons, hk, decide_True, if_true, List.map_cons]
      rw [← ih2]
      congr 1
      exact Prod.ext rfl (Prod.ext rfl hx)
    · simp only [List.filter_cons, hk, decide_False]
      exact ih2

/-- C12. Key independence. Let `c` be an `Increment`, `IsBlocked`, `GetRequestCount` or
`ResetCounter` call about `k`, made at `t` (`later` being its second clock reading when it
is an `Increment`), and `k2` another key. The call leaves
`GetRequestCount(k2)` as it was; an `IsBlocked(k2)` or `Increment(k2, ...)` at an instant
`t2 ≥ t` answers the same with and without it; so do all calls about `k2` in a run made at
non-decreasing instants from `t` on. In any such run the calls about `k2` are answered as
if the calls about other keys were not made, so that on a store that does not fail and in
which `k2` is fresh, when the calls about `k2` are `Increment(k2, limit, b)`, the one number
`i + 1` among them is allowed exactly when `i + 1 ≤ limit`. -/
theorem key_independence (m : MockStore) (k k2 : String) (c : MockCall) (t later : Time)
    (hk : k2 ≠ k) (hc : c.key = k) :
    (m.perform t later c).2.GetRequestCount k2 = m.GetRequestCount k2 ∧
    (∀ t2, t ≤ t2 →
      ((m.perform t later c).2.IsBlocked t2 k2).1 = (m.IsBlocked t2 k2).1 ∧
      ∀ later2 limit b, ((m.perform t later c).2.Increment t2 later2 k2 limit b).1 =
        (m.Increment t2 later2 k2 limit b).1) ∧
    (∀ calls : List (Time × Time × MockCall), calls.Pairwise (fun a x => a.1 ≤ x.1) →
      (∀ x ∈ calls, t ≤ x.1) →
      (m.perform t later c).2.answersFor k2 calls = m.answersFor k2 calls) ∧
    (∀ (s : MockStore) (calls : List (Time × Time × MockCall)),
      calls.Pairwise (fun a x => a.1 ≤ x.1) →
      s.answersFor k2 calls =
        (s.performAll (calls.filter fun x => decide (x.2.2.key = k2))).1) ∧
    (∀ (s : MockStore) (calls : List (Time × Time × MockCall)) (limit : Nat) (b : Int),
      s.failOnCall = false → s.requestCounts k2 = none → s.blockedKeys k2 = none →
      calls.Pairwise (fun a x => a.1 ≤ x.1) →
      (∀ x ∈ calls, x.2.2.key = k2 → x.2.2 = MockCall.Increment k2 limit b) →
      ∀ i, i < (s.answersFor k2 calls).length →
        ∃ ttl, (s.answersFor k2 calls)[i]? =
          some (MockAnswer.decision (decide (i + 1 ≤ limit), ttl, none))) := by
  have hne : c.key ≠ k2 := by
    rw [hc]
    exact Ne.symm hk
  have hag : agreeOn k2 t (m.perform t later c).2 m := perform_other k2 t later c m hne
  refine ⟨?_, ?_, ?_, ?_, ?_⟩
  · unfold MockStore.GetRequestCount
    rw [hag.1, hag.2.1]
  · intro t2 ht2
    have h2 := agreeOn_mono ht2 hag
    exact ⟨(IsBlocked_agree k2 t2 _ _ h2).1,
      fun later2 limit b => (Increment_agree k2 t2 later2 limit b _ _ h2).1⟩
  · intro calls hp ht
    exact answersFor_agree k2 calls t _ _ hag hp ht
  · intro s calls hp
    obtain ⟨t1, ht1⟩ := pairwise_lower_bound calls hp
    exact answersFor_projection k2 calls t1 s s (agreeOn_refl k2 t1 s) hp ht1
  · intro s calls limit b hf hcnt hb hp hall i hi
    obtain ⟨t1, ht1⟩ := pairwise_lower_bound calls hp
    have hproj := answersFor_projection k2 calls t1 s s (agreeOn_refl k2 t1 s) hp ht1
    rw [filter_all_increments k2 limit b calls hall, performAll_increments] at hproj
    rw [hproj] at hi ⊢
    rw [List.length_map, incrementAll_length] at hi
    obtain ⟨r1, _⟩ := incrementAll_from_count k2 limit b
      ((calls.filter fun x => decide (x.2.2.key = k2)).map fun x => (x.1, x.2.1)) s hf hb
    rw [hcnt] at r1
    simp only [Option.getD_none, zero_add] at r1
    obtain ⟨a1, _, a3⟩ := r1 i hi
    by_cases h : i + 1 ≤ limit
    · have hz : (i : Int) + 1 ≤ (limit : Int) := by exact_mod_cast h
      refine ⟨0, ?_⟩
      rw [List.getElem?_map, a1 hz]
      simp [h]
    · have hz : (limit : Int) < (i : Int) + 1 := by
        have : limit < i + 1 := by omega
        exact_mod_cast this
      obtain ⟨ttl, httl⟩ := a3 hz
      refine ⟨ttl, ?_⟩
      rw [List.getElem?_map, httl]
      simp [h]

theorem key_independence_witness :
    ("key-1" : String) ≠ "key-0" ∧
    (MockCall.Increment "key-0" 0 10).key = "key-0" ∧
    (((NewMockStore false).Increment 0 0 "key-1" 0 1).2.perform 2000000000 2000000250
      (MockCall.Increment "key-0" 0 10)).2.blockedKeys "key-1" = none ∧
    ((NewMockStore false).Increment 0 0 "key-1" 0 1).2.blockedKeys "key-1" = some 1000000000 ∧
    ((((NewMockStore false).Increment 0 0 "key-1" 0 1).2.perform 2000000000 2000000250
      (MockCall.Increment "key-0" 0 10)).2.IsBlocked 2000000000 "key-1").1 =
      (((NewMockStore false).Increment 0 0 "key-1" 0 1).2.IsBlocked 2000000000 "key-1").1 := by
  have h := key_independence ((NewMockStore false).Increment 0 0 "key-1" 0 1).2 "key-0" "key-1"
    (MockCall.Increment "key-0" 0 10) 2000000000 2000000250 (by decide) rfl
  exact ⟨by decide, rfl, by decide, by decide, (h.2.1 2000000000 (le_refl _)).1⟩

/-- C13. `IsBlocked` is an observationally pure read. `IsBlocked(k)` at `t` changes no
counter, not the failure flag and no other key's block, and the block of `k` it leaves, if
any, is the one that was there; every run of `Increment`, `IsBlocked`, `GetRequestCount` and
`ResetCounter` calls made afterwards at non-decreasing instants from `t` on returns the same
answers as from the store before the call; and it answers blocked only if `k` has a block
whose expiry the clock has not passed. -/
theorem isBlocked_pure_read (m : MockStore) (k : String) (t : Time) :
    (m.IsBlocked t k).2.requestCounts = m.requestCounts ∧
    (m.IsBlocked t k).2.failOnCall = m.failOnCall ∧
    (∀ k2, k2 ≠ k → (m.IsBlocked t k).2.blockedKeys k2 = m.blockedKeys k2) ∧
    (∀ e, (m.IsBlocked t k).2.blockedKeys k = some e → m.blockedKeys k = some e) ∧
    (∀ calls : List (Time × Time × MockCall), calls.Pairwise (fun a x => a.1 ≤ x.1) →
      (∀ x ∈ calls, t ≤ x.1) →
      ((m.IsBlocked t k).2.performAll calls).1 = (m.performAll calls).1) ∧
    ((m.IsBlocked t k).1.1 = true → ∃ e, m.blockedKeys k = some e ∧ t ≤ e) := by
  obtain ⟨i1, i2, i3, i4⟩ := IsBlocked_state m t k
  have hag : ∀ k2, agreeOn k2 t (m.IsBlocked t k).2 m := by
    intro k2
    by_cases hk : k = k2
    · subst hk
      refine ⟨i1, by rw [i2], ?_⟩
      cases hf : m.failOnCall with
      | true =>
        have : m.IsBlocked t k = ((false, 0, some ErrStorageFailure), m) := by
          simp [MockStore.IsBlocked, hf]
        rw [this]
      | false =>
        rw [sweepExpired_apply, i4 hf, ← sweepExpired_apply, sweepExpired_idem]
    · exact perform_other k2 t t (MockCall.IsBlocked k) m hk
  refine ⟨i2, i1, i3, ?_, ?_, ?_⟩
  · intro e he
    cases hf : m.failOnCall with
    | true =>
      have : m.IsBlocked t k = ((false, 0, some ErrStorageFailure), m) := by
        simp [MockStore.IsBlocked, hf]
      rw [this] at he
      exact he
    | false =>
      rw [i4 hf] at he
      exact ((sweepExpired_eq_some t m.blockedKeys k e).1 he).1
  · intro calls hp ht
    exact performAll_agree calls t _ _ hag hp ht
  · intro hb
    cases hf : m.failOnCall with
    | true =>
      have : m.IsBlocked t k = ((false, 0, some ErrStorageFailure), m) := by
        simp [MockStore.IsBlocked, hf]
      rw [this] at hb
      simp at hb
    | false =>
      obtain ⟨p1, p2, _⟩ := IsBlocked_spec m t k hf
      cases hbk : m.blockedKeys k with
      | none =>
        rw [p1 hbk] at hb
        simp at hb
      | some e =>
        by_cases hlt : e < t
        · rw [p2 e hbk hlt] at hb
          simp at hb
        · exact ⟨e, rfl, by linarith⟩

/-! ## The remote backend over the server: one call -/

theorem blockKeyOf_ne (key : String) : blockKeyOf key ≠ key := by
  intro h
  have h2 := congrArg String.length h
  unfold blockKeyOf at h2
  rw [String.length_append] at h2
  have h3 : ("block:" : String).length = 6 := by decide
  omega

theorem live_put (db : RedisDB) (now : Time) (k k2 : String) (e : RedisEntry) :
    (db.put k e).live now k2 =
      if k2 = k then
        (match e.expireAt with
          | some x => if x < now then none else some e
          | none => some e)
      else db.live now k2 := by
  unfold RedisDB.live RedisDB.put mapSet
  by_cases h : k2 = k <;> simp [h]

theorem live_eq_some (db : RedisDB) (now : Time) (k : String) (e : RedisEntry)
    (h : db.live now k = some e) :
    db.entries k = some e ∧ ∀ x, e.expireAt = some x → now ≤ x := by
  unfold RedisDB.live at h
  cases hk : db.entries k with
  | none => simp [hk] at h
  | some e2 =>
    rw [hk] at h
    cases hx : e2.expireAt with
    | none =>
      simp [hx] at h
      subst h
      exact ⟨rfl, by simp [hx]⟩
    | some x =>
      simp only [hx] at h
      by_cases hlt : x < now
      · simp [hlt] at h
      · simp [hlt] at h
        subst h
        refine ⟨rfl, ?_⟩
        intro y hy
        rw [hx] at hy
        cases hy
        linarith

/-- A key that is absent stays absent as the clock advances, until it is written. -/
theorem live_none_mono (db : RedisDB) (t t2 : Time) (k : String) (ht : t ≤ t2)
    (h : db.live t k = none) : db.live t2 k = none := by
  unfold RedisDB.live at h ⊢
  cases hk : db.entries k with
  | none => simp
  | some e =>
    rw [hk] at h
    cases hx : e.expireAt with
    | none => simp [hx] at h
    | some x =>
      simp only [hx] at h ⊢
      by_cases hlt : x < t
      · have : x < t2 := lt_of_lt_of_le hlt ht
        simp [this]
      · simp [hlt] at h

theorem redisIncrement_unfold (db : RedisDB) (now : Time) (key : String) (limit b : Int) :
    (RedisStore.mk (redisServer now)).Increment db key limit b =
      if db.cmdExists now (blockKeyOf key) = 1 then
        ((false, db.cmdTTL now (blockKeyOf key), none), db)
      else if (db.cmdIncr now key).1 = 1 then
        (RedisStore.mk (redisServer now)).blockOrAllow
          ((db.cmdIncr now key).2.cmdExpire now key Second).2 key limit b (db.cmdIncr now key).1
      else
        (RedisStore.mk (redisServer now)).blockOrAllow (db.cmdIncr now key).2 key limit b
          (db.cmdIncr now key).1 := by
  simp only [RedisStore.Increment, redisServer]
  split_ifs <;> simp_all

theorem redisBlockOrAllow_unfold (db : RedisDB) (now : Time) (key : String)
    (limit b count : Int) :
    (RedisStore.mk (redisServer now)).blockOrAllow db key limit b count =
      if count > limit then
        if (db.cmdSetNX now (blockKeyOf key) 1 (secondsToDuration b)).1.2 ≠ none then
          ((false, 0, (db.cmdSetNX now (blockKeyOf key) 1 (secondsToDuration b)).1.2),
            (db.cmdSetNX now (blockKeyOf key) 1 (secondsToDuration b)).2)
        else if (db.cmdSetNX now (blockKeyOf key) 1 (secondsToDuration b)).1.1 then
          ((false, secondsToDuration b, none),
            (db.cmdSetNX now (blockKeyOf key) 1 (secondsToDuration b)).2)
        else
          ((false,
            (db.cmdSetNX now (blockKeyOf key) 1 (secondsToDuration b)).2.cmdTTL now
              (blockKeyOf key), none),
            (db.cmdSetNX now (blockKeyOf key) 1 (secondsToDuration b)).2)
      else ((true, db.cmdTTL now key, none), db) := by
  simp only [RedisStore.blockOrAllow, redisServer]


/-- A call that finds the block key present answers with its remaining time and writes
nothing. -/
theorem redisIncrement_blocked (db : RedisDB) (now : Time) (key : String) (limit b : Int)
    (e : RedisEntry) (h : db.live now (blockKeyOf key) = some e) :
    (RedisStore.mk (redisServer now)).Increment db key limit b =
      ((false, db.cmdTTL now (blockKeyOf key), none), db) := by
  rw [redisIncrement_unfold]
  simp [RedisDB.cmdExists, h]

/-- The counter key after the `INCR` and, when it returned 1, the `EXPIRE` of a call that
found no block key: the count the `INCR` returned, with the expiry it had, or with the
expiry `now + 1 s` when the count is 1. -/
theorem redisIncrement_counter (db : RedisDB) (now : Time) (key : String) :
    (if (db.cmdIncr now key).1 = 1 then ((db.cmdIncr now key).2.cmdExpire now key Second).2
      else (db.cmdIncr now key).2) =
      db.put key
        { value := (db.cmdIncr now key).1,
          expireAt := if (db.cmdIncr now key).1 = 1 then some (now + Second)
            else (db.live now key).bind fun e => e.expireAt } := by
  have hput : ∀ (d : RedisDB) (e1 e2 : RedisEntry), (d.put key e1).put key e2 = d.put key e2 := by
    intro d e1 e2
    unfold RedisDB.put
    congr 1
    funext k
    simp only [mapSet]
    by_cases hk : k = key <;> simp [hk]
  cases hl : db.live now key with
  | none =>
    simp only [RedisDB.cmdIncr, hl, if_true, RedisDB.cmdExpire, live_put, Second]
    norm_num
    exact hput _ _ _
  | some e =>
    by_cases h1 : e.value + 1 = 1
    · obtain ⟨_, hx⟩ := live_eq_some db now key e hl
      have hlive : (db.put key { value := e.value + 1, expireAt := e.expireAt }).live now key =
          some { value := e.value + 1, expireAt := e.expireAt } := by
        rw [live_put]
        simp only [if_true]
        cases hxe : e.expireAt with
        | none => rfl
        | some x =>
          have := hx x hxe
          have hnot : ¬ x < now := by linarith
          simp [hnot]
      simp only [RedisDB.cmdIncr, hl, h1, if_true, RedisDB.cmdExpire]
      rw [h1] at hlive
      rw [hlive]
      simp only [Second]
      norm_num
      exact hput _ _ _
    · simp [RedisDB.cmdIncr, hl, h1]


/-- A call that finds no block key counts, then blocks or allows on the count. -/
theorem redisIncrement_open (db : RedisDB) (now : Time) (key : String) (limit b : Int)
    (h : db.live now (blockKeyOf key) = none) :
    (RedisStore.mk (redisServer now)).Increment db key limit b =
      (RedisStore.mk (redisServer now)).blockOrAllow (db.counted now key) key limit b
        (db.cmdIncr now key).1 := by
  rw [redisIncrement_unfold]
  have hc := redisIncrement_counter db now key
  have hex : ¬ db.cmdExists now (blockKeyOf key) = 1 := by
    simp [RedisDB.cmdExists, h]
  rw [if_neg hex]
  unfold RedisDB.counted
  rw [← hc]
  split_ifs <;> rfl

theorem counted_live_block (db : RedisDB) (now : Time) (key : String) :
    (db.counted now key).live now (blockKeyOf key) = db.live now (blockKeyOf key) ∧
    (db.counted now key).entries (blockKeyOf key) = db.entries (blockKeyOf key) := by
  unfold RedisDB.counted
  refine ⟨by rw [live_put, if_neg (blockKeyOf_ne key)], ?_⟩
  simp [RedisDB.put, mapSet, blockKeyOf_ne key]

/-- The answers and writes of a call that finds no block key. With a count within the limit
it is allowed, with the remaining time of the counter key as ttl, and writes the counter key
only. With a count above the limit it is denied; when the block duration `d` is a positive
number of seconds it writes the block key with the value 1 and the expiry `now + d` and
returns `d`. -/
theorem redisIncrement_open_spec (db : RedisDB) (now : Time) (key : String) (limit b : Int)
    (h : db.live now (blockKeyOf key) = none) :
    ((db.cmdIncr now key).1 ≤ limit →
      (RedisStore.mk (redisServer now)).Increment db key limit b =
        ((true, (db.counted now key).cmdTTL now key, none), db.counted now key)) ∧
    (limit < (db.cmdIncr now key).1 →
      ((RedisStore.mk (redisServer now)).Increment db key limit b).1.1 = false ∧
      ((RedisStore.mk (redisServer now)).Increment db key limit b).2.entries key =
        (db.counted now key).entries key ∧
      (0 < secondsToDuration b → secondsToDuration b % Second = 0 →
        (RedisStore.mk (redisServer now)).Increment db key limit b =
          ((false, secondsToDuration b, none),
            (db.counted now key).put (blockKeyOf key)
              { value := 1, expireAt := some (now + secondsToDuration b) }))) := by
  rw [redisIncrement_open db now key limit b h, redisBlockOrAllow_unfold]
  obtain ⟨hl, _⟩ := counted_live_block db now key
  rw [h] at hl
  refine ⟨?_, ?_⟩
  · intro hc
    have : ¬ (db.cmdIncr now key).1 > limit := by linarith
    rw [if_neg this]
  · intro hc
    have hgt : (db.cmdIncr now key).1 > limit := hc
    rw [if_pos hgt]
    refine ⟨?_, ?_, ?_⟩
    · split_ifs <;> rfl
    · have hkeep : ∀ q : (Bool × Option GoError) × RedisDB,
          q = (db.counted now key).cmdSetNX now (blockKeyOf key) 1 (secondsToDuration b) →
          q.2.entries key = (db.counted now key).entries key := by
        intro q hq
        rw [hq]
        unfold RedisDB.cmdSetNX
        rw [hl]
        have hne : key ≠ blockKeyOf key := fun hh => blockKeyOf_ne key hh.symm
        split_ifs <;> simp [RedisDB.put, mapSet, hne]
      have := hkeep _ rfl
      split_ifs <;> exact this
    · intro hpos hmod
      have hsec : ¬ secondsToDuration b < Second := by
        intro hlt
        have h1 : secondsToDuration b % Second = secondsToDuration b :=
          Int.emod_eq_of_lt (le_of_lt hpos) hlt
        rw [h1] at hmod
        linarith
      have hset : (db.counted now key).cmdSetNX now (blockKeyOf key) 1 (secondsToDuration b) =
          ((true, none), (db.counted now key).put (blockKeyOf key)
            { value := 1, expireAt := some (now + secondsToDuration b) }) := by
        unfold RedisDB.cmdSetNX
        rw [hl]
        have h0 : ¬ secondsToDuration b < 0 := by linarith
        have h00 : ¬ secondsToDuration b = 0 := by linarith
        simp [h0, h00, hsec, hmod]
      rw [hset]
      simp

/-! ## The remote backend over the server: a run of calls in one window -/

theorem live_of_entries (db : RedisDB) (now : Time) (k : String) (e : RedisEntry)
    (h : db.entries k = some e) (hx : ∀ x, e.expireAt = some x → now ≤ x) :
    db.live now k = some e := by
  unfold RedisDB.live
  rw [h]
  cases hxe : e.expireAt with
  | none => simp [hxe]
  | some x =>
    have := hx x hxe
    have hnot : ¬ x < now := by linarith
    simp [hxe, hnot]

theorem live_congr (db db2 : RedisDB) (now : Time) (k : String)
    (h : db2.entries k = db.entries k) : db2.live now k = db.live now k := by
  unfold RedisDB.live
  rw [h]

theorem counted_entries (db : RedisDB) (now : Time) (key : String) :
    (db.counted now key).entries key =
      some { value := (db.cmdIncr now key).1,
             expireAt := if (db.cmdIncr now key).1 = 1 then some (now + Second)
               else (db.live now key).bind fun e => e.expireAt } := by
  simp [RedisDB.counted, RedisDB.put, mapSet]

theorem redisIncrementAll_length (key : String) (limit b : Int) (ts : List Time) :
    ∀ db : RedisDB, (RedisStore.incrementAll key limit b db ts).1.length = ts.length := by
  induction ts with
  | nil => intro db; rfl
  | cons now rest ih =>
    intro db
    simp [RedisStore.incrementAll, ih]

/-- Inside the window of a counter that has reached the limit, every call is denied. -/
theorem redis_run_denied (key : String) (limit b : Int) (E : Time) (ts : List Time) :
    ∀ db : RedisDB,
      (∃ c, db.entries key = some { value := c, expireAt := some E } ∧ limit ≤ c ∧ 1 ≤ c) →
      (∀ t ∈ ts, t ≤ E) →
      ∀ i, i < ts.length →
        ∃ ttl err, (RedisStore.incrementAll key limit b db ts).1[i]? = some (false, ttl, err) := by
  induction ts with
  | nil => intro db _ _ i hi; simp at hi
  | cons now rest ih =>
    intro db hdb hts i hi
    obtain ⟨c, hc, hlim, hpos⟩ := hdb
    have hnow : now ≤ E := hts now (List.mem_cons_self _ _)
    have hlive : db.live now key = some { value := c, expireAt := some E } :=
      live_of_entries db now key _ hc (by
        intro x hx
        simp only [Option.some.injEq] at hx
        rw [← hx]
        exact hnow)
    have hstep : (∃ ttl err, ((RedisStore.mk (redisServer now)).Increment db key limit b).1 =
          (false, ttl, err)) ∧
        ∃ c2, ((RedisStore.mk (redisServer now)).Increment db key limit b).2.entries key =
          some { value := c2, expireAt := some E } ∧ limit ≤ c2 ∧ 1 ≤ c2 := by
      cases hb : db.live now (blockKeyOf key) with
      | some e =>
        rw [redisIncrement_blocked db now key limit b e hb]
        exact ⟨⟨_, _, rfl⟩, c, hc, hlim, hpos⟩
      | none =>
        have hcount : (db.cmdIncr now key).1 = c + 1 := by
          simp [RedisDB.cmdIncr, hlive]
        obtain ⟨_, o2⟩ := redisIncrement_open_spec db now key limit b hb
        obtain ⟨p1, p2, _⟩ := o2 (by rw [hcount]; linarith)
        refine ⟨⟨_, _, Prod.ext p1 (Prod.ext rfl rfl)⟩, c + 1, ?_, by linarith, by linarith⟩
        rw [p2, counted_entries, hcount, hlive]
        have hne : ¬ c + 1 = 1 := by
          intro h
          linarith
        simp [hne]
    obtain ⟨⟨ttl, err, h1⟩, h2⟩ := hstep
    cases i with
    | zero => exact ⟨ttl, err, by simp [RedisStore.incrementAll, h1]⟩
    | succ j =>
      have hj : j < rest.length := by simpa using hi
      obtain ⟨t2, e2, ht2⟩ := ih _ h2 (fun t ht => hts t (List.mem_cons_of_mem _ ht)) j hj
      exact ⟨t2, e2, by simpa [RedisStore.incrementAll] using ht2⟩

/-- Inside the window of a counter holding `c`, with no block key: call number `i + 1` of a
run is allowed without error while `c + i + 1` is within the limit and denied afterwards. -/
theorem redis_run_window (key : String) (limit b : Int) (E : Time) (ts : List Time) :
    ∀ (db : RedisDB) (c : Int),
      db.entries key = some { value := c, expireAt := some E } → 1 ≤ c →
      (∀ t ∈ ts, t ≤ E ∧ db.live t (blockKeyOf key) = none) →
      ∀ i, i < ts.length →
        (c + (i : Int) + 1 ≤ limit →
          ∃ ttl, (RedisStore.incrementAll key limit b db ts).1[i]? = some (true, ttl, none)) ∧
        (limit < c + (i : Int) + 1 →
          ∃ ttl err, (RedisStore.incrementAll key limit b db ts).1[i]? =
            some (false, ttl, err)) := by
  induction ts with
  | nil => intro db c _ _ _ i hi; simp at hi
  | cons now rest ih =>
    intro db c hc hpos hts i hi
    obtain ⟨hnow, hb⟩ := hts now (List.mem_cons_self _ _)
    have hlive : db.live now key = some { value := c, expireAt := some E } :=
      live_of_entries db now key _ hc (by
        intro x hx
        simp only [Option.some.injEq] at hx
        rw [← hx]
        exact hnow)
    have hcount : (db.cmdIncr now key).1 = c + 1 := by
      simp [RedisDB.cmdIncr, hlive]
    have hne : ¬ c + 1 = 1 := by
      intro h
      linarith
    have hentry : (db.counted now key).entries key =
        some { value := c + 1, expireAt := some E } := by
      rw [counted_entries, hcount, hlive]
      simp [hne]
    obtain ⟨o1, o2⟩ := redisIncrement_open_spec db now key limit b hb
    have hj0 : ∀ j : Nat, c + ((j + 1 : Nat) : Int) + 1 = c + 1 + (j : Int) + 1 := by
      intro j
      push_cast
      ring
    by_cases hle : c + 1 ≤ limit
    · have hres := o1 (by rw [hcount]; exact hle)
      cases i with
      | zero =>
        refine ⟨fun _ => ⟨(db.counted now key).cmdTTL now key,
          by simp [RedisStore.incrementAll, hres]⟩, fun h => ?_⟩
        exfalso
        simp at h
        linarith
      | succ j =>
        have hj : j < rest.length := by simpa using hi
        have hts2 : ∀ t ∈ rest, t ≤ E ∧ (db.counted now key).live t (blockKeyOf key) = none := by
          intro t ht
          obtain ⟨a1, a2⟩ := hts t (List.mem_cons_of_mem _ ht)
          refine ⟨a1, ?_⟩
          rw [live_congr db _ t _ (counted_live_block db now key).2]
          exact a2
        have := ih (db.counted now key) (c + 1) hentry (by linarith) hts2 j hj
        rw [hj0 j]
        simpa [RedisStore.incrementAll, hres] using this
    · obtain ⟨p1, p2, _⟩ := o2 (by rw [hcount]; linarith)
      have hden : ∀ j, j < (now :: rest).length →
          ∃ ttl err, (RedisStore.incrementAll key limit b db (now :: rest)).1[j]? =
            some (false, ttl, err) :=
        redis_run_denied key limit b E (now :: rest) db ⟨c, hc, by linarith, hpos⟩
          (fun t ht => (hts t ht).1)
      refine ⟨fun h => ?_, fun _ => hden i hi⟩
      exfalso
      have : (0 : Int) ≤ (i : Int) := Int.natCast_nonneg i
      linarith

/-- C15. Fixed window in the remote backend, for calls made one after the other without
errors. A call that finds the block key present writes nothing. A call that finds none
leaves the counter key at the count its `INCR` returned, with the expiry `now + 1 s` when
that count is 1 and with the expiry it had otherwise; so a present counter of at least 1
keeps its expiry, and an absent or expired counter is recreated at 1 with the expiry
`now + 1 s`, the call being allowed with ttl 1 s when `limit ≥ 1`. And in a run on a key
with no counter and no block, whose calls after the first are made within the second after
it, call number `i + 1` is allowed, without error, exactly when `i + 1 ≤ limit`. -/
theorem redis_fixed_window (db : RedisDB) (now : Time) (key : String) (limit : Nat)
    (b : Int) :
    (∀ e, db.live now (blockKeyOf key) = some e →
      (RedisStore.mk (redisServer now)).Increment db key limit b =
        ((false, db.cmdTTL now (blockKeyOf key), none), db)) ∧
    (db.live now (blockKeyOf key) = none →
      ((RedisStore.mk (redisServer now)).Increment db key limit b).2.entries key =
        some { value := (db.cmdIncr now key).1,
               expireAt := if (db.cmdIncr now key).1 = 1 then some (now + Second)
                 else (db.live now key).bind fun e => e.expireAt } ∧
      (∀ e, db.live now key = some e → 1 ≤ e.value →
        ((RedisStore.mk (redisServer now)).Increment db key limit b).2.entries key =
          some { value := e.value + 1, expireAt := e.expireAt }) ∧
      (db.live now key = none →
        ((RedisStore.mk (redisServer now)).Increment db key limit b).2.entries key =
          some { value := 1, expireAt := some (now + Second) } ∧
        (1 ≤ limit →
          ((RedisStore.mk (redisServer now)).Increment db key limit b).1 =
            (true, Second, none)) ∧
        ∀ rest : List Time, (∀ t ∈ rest, now ≤ t ∧ t < now + Second) →
          ∀ i, i < (now :: rest).length →
            ∃ ttl err, (RedisStore.incrementAll key limit b db (now :: rest)).1[i]? =
              some (decide (i + 1 ≤ limit), ttl, err) ∧ (i + 1 ≤ limit → err = none))) := by
  refine ⟨fun e he => redisIncrement_blocked db now key limit b e he, ?_⟩
  intro hblk
  obtain ⟨o1, o2⟩ := redisIncrement_open_spec db now key limit b hblk
  have hentry : ((RedisStore.mk (redisServer now)).Increment db key limit b).2.entries key =
      (db.counted now key).entries key := by
    by_cases hle : (db.cmdIncr now key).1 ≤ (limit : Int)
    · rw [o1 hle]
    · exact (o2 (by linarith)).2.1
  refine ⟨by rw [hentry, counted_entries], ?_, ?_⟩
  · intro e he hv
    rw [hentry, counted_entries]
    have hne : ¬ e.value + 1 = 1 := by
      intro h
      linarith
    simp [RedisDB.cmdIncr, he, hne]
  · intro hnone
    have hcount : (db.cmdIncr now key).1 = 1 := by
      simp [RedisDB.cmdIncr, hnone]
    have hcounted : (db.counted now key).entries key =
        some { value := 1, expireAt := some (now + Second) } := by
      rw [counted_entries, hcount]
      simp
    have hsec : (0 : Int) < Second := by
      unfold Second
      norm_num
    have httl : (db.counted now key).cmdTTL now key = Second := by
      have hl := live_of_entries (db.counted now key) now key _ hcounted (by
        intro x hx
        simp only [Option.some.injEq] at hx
        rw [← hx]
        linarith)
      simp [RedisDB.cmdTTL, hl]
    refine ⟨by rw [hentry, hcounted], ?_, ?_⟩
    · intro hl
      have hle : (db.cmdIncr now key).1 ≤ (limit : Int) := by
        rw [hcount]
        exact_mod_cast hl
      rw [o1 hle, httl]
    · intro rest hrest i hi
      by_cases hl : 1 ≤ limit
      · have hle : (db.cmdIncr now key).1 ≤ (limit : Int) := by
          rw [hcount]
          exact_mod_cast hl
        have hres := o1 hle
        cases i with
        | zero =>
          exact ⟨(db.counted now key).cmdTTL now key, none,
            by simp [RedisStore.incrementAll, hres, hl], fun _ => rfl⟩
        | succ j =>
          have hj : j < rest.length := by simpa using hi
          have hts : ∀ t ∈ rest, t ≤ now + Second ∧
              (db.counted now key).live t (blockKeyOf key) = none := by
            intro t ht
            obtain ⟨a1, a2⟩ := hrest t ht
            refine ⟨by linarith, ?_⟩
            rw [live_congr db _ t _ (counted_live_block db now key).2]
            exact live_none_mono db now t _ a1 hblk
          obtain ⟨w1, w2⟩ := redis_run_window key limit b (now + Second) rest
            (db.counted now key) 1 hcounted (le_refl _) hts j hj
          by_cases hjl : j + 1 + 1 ≤ limit
          · have hz : (1 : Int) + (j : Int) + 1 ≤ (limit : Int) := by
              have : ((j + 1 + 1 : Nat) : Int) ≤ (limit : Int) := by exact_mod_cast hjl
              push_cast at this
              linarith
            obtain ⟨ttl, httl2⟩ := w1 hz
            exact ⟨ttl, none, by simpa [RedisStore.incrementAll, hres, hjl] using httl2,
              fun _ => rfl⟩
          · have hz : (limit : Int) < (1 : Int) + (j : Int) + 1 := by
              have : limit < j + 1 + 1 := by omega
              have h2 : (limit : Int) < ((j + 1 + 1 : Nat) : Int) := by exact_mod_cast this
              push_cast at h2
              linarith
            obtain ⟨ttl, err, httl2⟩ := w2 hz
            exact ⟨ttl, err, by simpa [RedisStore.incrementAll, hres, hjl] using httl2,
              fun h => absurd h hjl⟩
      · have hl0 : limit = 0 := by omega
        have hden := redis_run_denied key limit b (now + Second) rest
        obtain ⟨p1, p2, _⟩ := o2 (by rw [hcount, hl0]; norm_num)
        have hnot : ∀ j : Nat, ¬ j + 1 ≤ limit := by
          intro j
          omega
        cases i with
        | zero =>
          refine ⟨((RedisStore.mk (redisServer now)).Increment db key limit b).1.2.1,
            ((RedisStore.mk (redisServer now)).Increment db key limit b).1.2.2, ?_,
            fun h => absurd h (hnot 0)⟩
          simp only [RedisStore.incrementAll, List.getElem?_cons_zero, hnot 0, decide_False]
          rw [← p1]
        | succ j =>
          have hj : j < rest.length := by simpa using hi
          obtain ⟨ttl, err, h3⟩ := hden _
            ⟨1, by rw [p2, hcounted], by rw [hl0]; norm_num, le_refl _⟩
            (fun t ht => by linarith [(hrest t ht).2]) j hj
          exact ⟨ttl, err, by simpa [RedisStore.incrementAll, hnot (j + 1)] using h3,
            fun h => absurd h (hnot (j + 1))⟩

theorem redis_fixed_window_witness :
    RedisDB.empty.live 0 (blockKeyOf "ip:10.0.0.7") = none ∧
    RedisDB.empty.live 0 "ip:10.0.0.7" = none ∧
    ((RedisStore.mk (redisServer 0)).Increment RedisDB.empty "ip:10.0.0.7" ((2 : Nat) : Int)
      10).2.entries "ip:10.0.0.7" = some { value := 1, expireAt := some (0 + Second) } ∧
    (RedisStore.incrementAll "ip:10.0.0.7" ((2 : Nat) : Int) 10 RedisDB.empty
      [0, 400000000, 900000000]).1 =
      [(true, 1000000000, none), (true, 600000000, none), (false, 10000000000, none)] := by
  have h := (redis_fixed_window RedisDB.empty 0 "ip:10.0.0.7" 2 10).2 (by decide)
  exact ⟨by decide, by decide, (h.2.2 (by decide)).1, by decide⟩

/-! ## Block establishment in the remote backend -/

theorem blockKeyOf_injective (k k2 : String) (h : blockKeyOf k = blockKeyOf k2) : k = k2 := by
  unfold blockKeyOf at h
  have h2 := congrArg String.data h
  simp only [String.data_append] at h2
  exact String.ext (List.append_cancel_left h2)

/-- The server state a call of `Increment` leaves. -/
theorem redisIncrement_state (db : RedisDB) (now : Time) (key : String) (limit b : Int) :
    ((RedisStore.mk (redisServer now)).Increment db key limit b).2 = db ∨
    (db.live now (blockKeyOf key) = none ∧
      (((RedisStore.mk (redisServer now)).Increment db key limit b).2 = db.counted now key ∨
        ((RedisStore.mk (redisServer now)).Increment db key limit b).2 =
          ((db.counted now key).cmdSetNX now (blockKeyOf key) 1 (secondsToDuration b)).2)) := by
  cases hb : db.live now (blockKeyOf key) with
  | some e =>
    rw [redisIncrement_blocked db now key limit b e hb]
    exact Or.inl rfl
  | none =>
    refine Or.inr ⟨rfl, ?_⟩
    rw [redisIncrement_open db now key limit b hb, redisBlockOrAllow_unfold]
    split_ifs
    · exact Or.inr rfl
    · exact Or.inr rfl
    · exact Or.inr rfl
    · exact Or.inl rfl

/-- What `SetNX` leaves of an entry: any key other than its own is untouched, and its own
key, when present, too. -/
theorem cmdSetNX_entries (db : RedisDB) (now : Time) (k : String) (v : Int) (d : Duration)
    (k2 : String) (h : k2 ≠ k ∨ ∃ e, db.live now k = some e) :
    (db.cmdSetNX now k v d).2.entries k2 = db.entries k2 := by
  unfold RedisDB.cmdSetNX
  rcases h with h | ⟨e, he⟩
  · cases db.live now k <;> (split_ifs <;> simp [RedisDB.put, mapSet, h])
  · rw [he]
    split_ifs <;> rfl

/-- The entry a present block key has after a call of `Increment` about any key, when the
values of the server are at least 1: its expiry is the one it had, and the whole entry is,
unless the key of the call is that block key itself. -/
theorem redisIncrement_keeps_block (db : RedisDB) (now : Time) (key2 key : String)
    (limit b : Int) (e : RedisEntry) (hpos : db.valuesPositive)
    (he : db.live now (blockKeyOf key) = some e) :
    (∃ e2, ((RedisStore.mk (redisServer now)).Increment db key2 limit b).2.entries
        (blockKeyOf key) = some e2 ∧ e2.expireAt = e.expireAt) ∧
    (key2 ≠ blockKeyOf key →
      ((RedisStore.mk (redisServer now)).Increment db key2 limit b).2.entries (blockKeyOf key) =
        some e) := by
  obtain ⟨hent, _⟩ := live_eq_some db now _ e he
  have hcounted : (∃ e2, (db.counted now key2).entries (blockKeyOf key) = some e2 ∧
      e2.expireAt = e.expireAt) ∧
      (key2 ≠ blockKeyOf key → (db.counted now key2).entries (blockKeyOf key) = some e) := by
    by_cases hk : blockKeyOf key = key2
    · subst hk
      refine ⟨?_, fun h => absurd rfl h⟩
      rw [counted_entries]
      have hv := hpos _ e hent
      have hne : ¬ e.value + 1 = 1 := by
        intro h
        linarith
      refine ⟨_, rfl, ?_⟩
      simp [RedisDB.cmdIncr, he, hne]
    · have : (db.counted now key2).entries (blockKeyOf key) = some e := by
        simp [RedisDB.counted, RedisDB.put, mapSet, hk, hent]
      exact ⟨⟨e, this, rfl⟩, fun _ => this⟩
  rcases redisIncrement_state db now key2 limit b with h | ⟨hb, h | h⟩
  · rw [h]
    exact ⟨⟨e, hent, rfl⟩, fun _ => hent⟩
  · rw [h]
    exact hcounted
  · rw [h]
    have hne : blockKeyOf key ≠ blockKeyOf key2 := by
      intro hh
      have := blockKeyOf_injective _ _ hh
      subst this
      rw [hb] at he
      cases he
    rw [cmdSetNX_entries _ now _ 1 _ _ (Or.inl hne)]
    exact hcounted

/-- A call of `Increment` keeps every value of the server at least 1. -/
theorem redisIncrement_valuesPositive (db : RedisDB) (now : Time) (key : String)
    (limit b : Int) (hpos : db.valuesPositive) :
    ((RedisStore.mk (redisServer now)).Increment db key limit b).2.valuesPositive := by
  have hcounted : (db.counted now key).valuesPositive := by
    intro k e hk
    by_cases h : k = key
    · subst h
      rw [counted_entries] at hk
      simp only [Option.some.injEq] at hk
      rw [← hk]
      simp only
      cases hl : db.live now k with
      | none => simp [RedisDB.cmdIncr, hl]
      | some e0 =>
        have := hpos k e0 (live_eq_some db now k e0 hl).1
        simp only [RedisDB.cmdIncr, hl]
        linarith
    · have : (db.counted now key).entries k = db.entries k := by
        simp [RedisDB.counted, RedisDB.put, mapSet, h]
      rw [this] at hk
      exact hpos k e hk
  rcases redisIncrement_state db now key limit b with h | ⟨_, h | h⟩
  · rw [h]
    exact hpos
  · rw [h]
    exact hcounted
  · rw [h]
    intro k e hk
    unfold RedisDB.cmdSetNX at hk
    by_cases hkk : k = blockKeyOf key
    · subst hkk
      cases hl : (db.counted now key).live now (blockKeyOf key) with
      | some e0 =>
        rw [hl] at hk
        have hk2 : (db.counted now key).entries (blockKeyOf key) = some e := by
          split_ifs at hk <;> exact hk
        exact hcounted _ e hk2
      | none =>
        rw [hl] at hk
        split_ifs at hk
        · exact hcounted _ e hk
        all_goals
          simp only [RedisDB.put, mapSet, if_true, Option.some.injEq] at hk
          rw [← hk]
    · have hk2 : (db.counted now key).entries k = some e := by
        cases hl : (db.counted now key).live now (blockKeyOf key) with
        | some e0 =>
          rw [hl] at hk
          split_ifs at hk <;> exact hk
        | none =>
          rw [hl] at hk
          split_ifs at hk
          · exact hk
          all_goals
            simpa [RedisDB.put, mapSet, hkk] using hk
      exact hcounted k e hk2

theorem redisIsBlocked_spec (db : RedisDB) (now : Time) (key : String) :
    (RedisStore.mk (redisServer now)).IsBlocked db key =
      (if (db.live now (blockKeyOf key)).isSome then
          (true, db.cmdTTL now (blockKeyOf key), none)
        else (false, 0, none), db) := by
  simp only [RedisStore.IsBlocked, redisServer, RedisDB.cmdExists]
  cases db.live now (blockKeyOf key) <;> simp

/-- C16 (amended). Block establishment in the remote backend is set-if-absent. For a call
`Increment(key, limit, b)` on the server, made without errors: if the block key is absent
and the count after the `INCR` exceeds `limit`, then with `1 ≤ b ≤ 9223372036` the call
writes `"block:" + key` with the value 1 and the expiry `now + b` seconds and returns
`(false, b seconds, nil)`; if the block key is present the call writes nothing and returns
`(false, its remaining TTL, nil)`. On the server a `SetNX` of a present key answers false
and changes nothing, and on any client, when the `SetNX` of the block key answers false, the
call returns (false, the TTL the client then reports, nil). On a server whose values are at
least 1, which every call keeps so, no `Increment` or `IsBlocked` about any key changes the
expiry of a present block key, and none about `key` changes its entry. `IsBlocked(key)`
returns no error and answers true exactly when `"block:" + key` is present. -/
theorem redis_block_set_if_absent (db : RedisDB) (now : Time) (key : String) (limit b : Int) :
    (db.live now (blockKeyOf key) = none → limit < (db.cmdIncr now key).1 → 1 ≤ b →
      b ≤ 9223372036 →
      (RedisStore.mk (redisServer now)).Increment db key limit b =
        ((false, b * Second, none),
          (db.counted now key).put (blockKeyOf key)
            { value := 1, expireAt := some (now + b * Second) })) ∧
    (∀ e, db.live now (blockKeyOf key) = some e →
      (RedisStore.mk (redisServer now)).Increment db key limit b =
        ((false, db.cmdTTL now (blockKeyOf key), none), db)) ∧
    (∀ (s : RedisDB) (e : RedisEntry) (v : Int) (d : Duration),
      s.live now (blockKeyOf key) = some e → 0 ≤ d →
      s.cmdSetNX now (blockKeyOf key) v d = ((false, none), s)) ∧
    (∀ (σ : Type) (r : RedisStore σ) (s : σ) (count : Int), limit < count →
      (r.client.SetNX s (blockKeyOf key) 1 (secondsToDuration b)).1 = (false, none) →
      r.blockOrAllow s key limit b count =
        ((false,
          (r.client.TTL (r.client.SetNX s (blockKeyOf key) 1 (secondsToDuration b)).2
            (blockKeyOf key)).1.1, none),
          (r.client.TTL (r.client.SetNX s (blockKeyOf key) 1 (secondsToDuration b)).2
            (blockKeyOf key)).2)) ∧
    (db.valuesPositive →
      ((RedisStore.mk (redisServer now)).Increment db key limit b).2.valuesPositive ∧
      ∀ (key2 : String) (limit2 b2 : Int) (e : RedisEntry),
        db.live now (blockKeyOf key) = some e →
        (∃ e2, ((RedisStore.mk (redisServer now)).Increment db key2 limit2 b2).2.entries
            (blockKeyOf key) = some e2 ∧ e2.expireAt = e.expireAt) ∧
        ((RedisStore.mk (redisServer now)).Increment db key limit2 b2).2.entries
          (blockKeyOf key) = some e ∧
        ((RedisStore.mk (redisServer now)).IsBlocked db key2).2 = db) ∧
    (((RedisStore.mk (redisServer now)).IsBlocked db key).1.1 = true ↔
      (db.live now (blockKeyOf key)).isSome = true) ∧
    ((RedisStore.mk (redisServer now)).IsBlocked db key).1.2.2 = none := by
  refine ⟨?_, fun e he => redisIncrement_blocked db now key limit b e he, ?_, ?_, ?_, ?_, ?_⟩
  · intro hb hc h1 h2
    have hd := secondsToDuration_of_range b (by linarith) h2
    have hsec : (0 : Int) < Second := by
      unfold Second
      norm_num
    have hpos : 0 < secondsToDuration b := by
      rw [hd]
      exact mul_pos (by linarith) hsec
    have hmod : secondsToDuration b % Second = 0 := by
      rw [hd]
      exact Int.mul_emod_left b Second
    have := ((redisIncrement_open_spec db now key limit b hb).2 hc).2.2 hpos hmod
    rw [hd] at this
    exact this
  · intro s e v d he hd
    unfold RedisDB.cmdSetNX
    have : ¬ d < 0 := by linarith
    simp [this, he]
  · intro σ r s count hc hset
    unfold RedisStore.blockOrAllow
    have hgt : count > limit := hc
    rw [if_pos hgt]
    have h1 := congrArg Prod.fst hset
    have h2 := congrArg Prod.snd hset
    simp only at h1 h2
    simp [h1, h2]
  · intro hpos
    refine ⟨redisIncrement_valuesPositive db now key limit b hpos, ?_⟩
    intro key2 limit2 b2 e he
    refine ⟨(redisIncrement_keeps_block db now key2 key limit2 b2 e hpos he).1, ?_, ?_⟩
    · exact (redisIncrement_keeps_block db now key key limit2 b2 e hpos he).2
        (fun h => blockKeyOf_ne key h.symm)
    · rw [redisIsBlocked_spec]
  · rw [redisIsBlocked_spec]
    cases db.live now (blockKeyOf key) <;> simp
  · rw [redisIsBlocked_spec]
    cases db.live now (blockKeyOf key) <;> simp

theorem redis_block_set_if_absent_witness :
    RedisDB.empty.live 0 (blockKeyOf "ip:10.0.0.7") = none ∧
    (0 : Int) < (RedisDB.empty.cmdIncr 0 "ip:10.0.0.7").1 ∧
    (RedisStore.mk (redisServer 0)).Increment RedisDB.empty "ip:10.0.0.7" 0 10 =
      ((false, 10 * Second, none),
        (RedisDB.empty.counted 0 "ip:10.0.0.7").put (blockKeyOf "ip:10.0.0.7")
          { value := 1, expireAt := some (0 + 10 * Second) }) ∧
    ((RedisStore.mk (contendedServer 0)).Increment
      (RedisDB.empty, [[], [], [], [RedisWrite.setNX "block:ip:10.0.0.7" 1 7000000000]])
      "ip:10.0.0.7" 0 10).1 = (false, 7000000000, none) ∧
    ((RedisStore.mk (contendedServer 0)).Increment
      (RedisDB.empty, [[], [], [], [RedisWrite.setNX "block:ip:10.0.0.7" 1 7000000000]])
      "ip:10.0.0.7" 0 10).2.1.entries "block:ip:10.0.0.7" =
      some { value := 1, expireAt := some 7000000000 } := by
  have h := (redis_block_set_if_absent RedisDB.empty 0 "ip:10.0.0.7" 0 10).1 (by decide)
    (by decide) (by norm_num) (by norm_num)
  exact ⟨by decide, by decide, h, by decide, by decide⟩

/-- C16 as stated fails for a block duration outside `1 ≤ b ≤ 9223372036`. On an empty
server the first `Increment("ip:10.0.0.7", 0, b)` finds no block key and its count 1 exceeds
the limit 0. With `b = 0` the client sends `SETNX`, so the block key is written with no
expiry at all, not with a TTL of 0 seconds: a thousand seconds later `IsBlocked` still
answers blocked, with the TTL reply `-1`. With `b = -1`, and with `b = 9223372037`, whose
product with `time.Second` wraps to a negative duration, the server rejects the `SET` and
its expiry: the call returns that error, not `(false, b seconds, nil)`, and writes no block
key. -/
theorem redis_block_duration_out_of_range :
    RedisDB.empty.live 0 (blockKeyOf "ip:10.0.0.7") = none ∧
    (0 : Int) < (RedisDB.empty.cmdIncr 0 "ip:10.0.0.7").1 ∧
    ((RedisStore.mk (redisServer 0)).Increment RedisDB.empty "ip:10.0.0.7" 0 0).1 =
      (false, 0, none) ∧
    ((RedisStore.mk (redisServer 0)).Increment RedisDB.empty "ip:10.0.0.7" 0 0).2.entries
      "block:ip:10.0.0.7" = some { value := 1, expireAt := none } ∧
    ((RedisStore.mk (redisServer 1000000000000)).IsBlocked
      ((RedisStore.mk (redisServer 0)).Increment RedisDB.empty "ip:10.0.0.7" 0 0).2
      "ip:10.0.0.7").1 = (true, -1, none) ∧
    ((RedisStore.mk (redisServer 0)).Increment RedisDB.empty "ip:10.0.0.7" 0 (-1)).1 =
      (false, 0, some invalidExpire) ∧
    ((RedisStore.mk (redisServer 0)).Increment RedisDB.empty "ip:10.0.0.7" 0 (-1)).2.entries
      "block:ip:10.0.0.7" = none ∧
    ((RedisStore.mk (redisServer 0)).Increment RedisDB.empty "ip:10.0.0.7" 0 9223372037).1 =
      (false, 0, some invalidExpire) ∧
    ((RedisStore.mk (redisServer 0)).Increment RedisDB.empty "ip:10.0.0.7" 0
      9223372037).2.entries "block:ip:10.0.0.7" = none := by
  decide

/-! ## The remote backend when commands fail -/

theorem cmdSetNX_error_state (db : RedisDB) (now : Time) (k : String) (v : Int)
    (d : Duration) (h : (db.cmdSetNX now k v d).1.2 ≠ none) :
    (db.cmdSetNX now k v d).2 = db := by
  unfold RedisDB.cmdSetNX at h ⊢
  by_cases hd : d < 0
  · simp [hd]
  · simp only [hd, if_false] at h ⊢
    cases hl : db.live now k with
    | some e => simp
    | none =>
      rw [hl] at h
      split_ifs at h <;> simp at h

/-- The server state a call of `Increment` leaves when it returns an error, over a client
whose commands may fail: the state before the call when the first or the second command is
the one that fails, and otherwise that state after the `INCR`, or after the `INCR` and the
`EXPIRE`. -/
theorem flakyIncrement_error_state (db : RedisDB) (now : Time) (key : String)
    (limit b : Int) (fs : List Bool)
    (herr : ((RedisStore.mk (redisServer now).flaky).Increment (db, fs) key limit b).1.2.2 ≠
      none) :
    (¬ nextFails fs = true → ¬ nextFails fs.tail = true →
      ((RedisStore.mk (redisServer now).flaky).Increment (db, fs) key limit b).2.1 =
        (db.cmdIncr now key).2 ∨
      ((RedisStore.mk (redisServer now).flaky).Increment (db, fs) key limit b).2.1 =
        db.counted now key) ∧
    (nextFails fs = true ∨ nextFails fs.tail = true →
      ((RedisStore.mk (redisServer now).flaky).Increment (db, fs) key limit b).2.1 = db) := by
  have hc := redisIncrement_counter db now key
  have hcounted1 : (db.cmdIncr now key).1 = 1 →
      ((db.cmdIncr now key).2.cmdExpire now key Second).2 = db.counted now key := by
    intro h1
    rw [if_pos h1] at hc
    exact hc
  have hcounted2 : ¬ (db.cmdIncr now key).1 = 1 → (db.cmdIncr now key).2 = db.counted now key := by
    intro h1
    rw [if_neg h1] at hc
    exact hc
  have hset := cmdSetNX_error_state (db.counted now key) now (blockKeyOf key) 1
    (secondsToDuration b)
  simp only [RedisStore.Increment, RedisStore.blockOrAllow, RedisClient.flaky, redisServer]
    at herr ⊢
  by_cases f0 : nextFails fs = true
  · simp [f0]
  · by_cases hex : db.cmdExists now (blockKeyOf key) = 1
    · simp [f0, hex] at herr
    · by_cases f1 : nextFails fs.tail = true
      · simp [f0, hex, f1]
      · by_cases h1 : (db.cmdIncr now key).1 = 1
        · by_cases f2 : nextFails fs.tail.tail = true
          · simp [f0, hex, f1, h1, f2]
          · by_cases hl : (db.cmdIncr now key).1 > limit
            · by_cases f3 : nextFails fs.tail.tail.tail = true
              · have hl1 : limit < 1 := by
                  rw [h1] at hl
                  exact hl
                simp [f0, hex, f1, h1, f2, hl1, f3, hcounted1 h1]
              · have hl1 : limit < 1 := by
                  rw [h1] at hl
                  exact hl
                by_cases he : ((db.counted now key).cmdSetNX now (blockKeyOf key) 1
                    (secondsToDuration b)).1.2 = none
                · exfalso
                  simp [f0, hex, f1, h1, f2, hl1, f3, hcounted1 h1, he] at herr
                  split_ifs at herr <;> simp at herr
                · simp [f0, hex, f1, h1, f2, hl1, f3, hcounted1 h1, he, hset he]
            · have hl1 : ¬ limit < 1 := by
                rw [h1] at hl
                exact hl
              simp [f0, hex, f1, h1, f2, hl1] at herr
        · by_cases hl : (db.cmdIncr now key).1 > limit
          · by_cases f2 : nextFails fs.tail.tail = true
            · simp [f0, hex, f1, h1, hl, f2, hcounted2 h1]
            · by_cases he : ((db.counted now key).cmdSetNX now (blockKeyOf key) 1
                  (secondsToDuration b)).1.2 = none
              · exfalso
                simp [f0, hex, f1, h1, hl, f2, hcounted2 h1, he] at herr
                split_ifs at herr <;> simp at herr
              · simp [f0, hex, f1, h1, hl, f2, hcounted2 h1, he, hset he]
          · simp [f0, hex, f1, h1, hl] at herr


theorem cmdIncr_entries (db : RedisDB) (now : Time) (key k : String) (h : k ≠ key) :
    (db.cmdIncr now key).2.entries k = db.entries k := by
  unfold RedisDB.cmdIncr
  cases db.live now key <;> simp [RedisDB.put, mapSet, h]

theorem cmdIncr_value (db : RedisDB) (now : Time) (key : String) :
    ∃ e, (db.cmdIncr now key).2.entries key = some e ∧ e.value = (db.cmdIncr now key).1 := by
  unfold RedisDB.cmdIncr
  cases db.live now key <;> simp [RedisDB.put, mapSet]

/-- C17 (amended). Errors of the remote backend's `Increment`, for every server state and
every pattern of failing commands: when the call returns an error, no key other than the
counter key has changed, so the block key is as before the call; when the failing command
is the first (`EXISTS`) or the second (`INCR`) the whole state is as before the call; and
when neither of them fails, the error comes from a later command and the counter key holds
the count the `INCR` returned. -/
theorem redis_error_state (db : RedisDB) (now : Time) (key : String) (limit b : Int)
    (fs : List Bool)
    (herr : ((RedisStore.mk (redisServer now).flaky).Increment (db, fs) key limit b).1.2.2 ≠
      none) :
    ((RedisStore.mk (redisServer now).flaky).Increment (db, fs) key limit b).2.1.entries
      (blockKeyOf key) = db.entries (blockKeyOf key) ∧
    (∀ k, k ≠ key →
      ((RedisStore.mk (redisServer now).flaky).Increment (db, fs) key limit b).2.1.entries k =
        db.entries k) ∧
    (nextFails fs = true ∨ nextFails fs.tail = true →
      ((RedisStore.mk (redisServer now).flaky).Increment (db, fs) key limit b).2.1 = db) ∧
    (¬ nextFails fs = true → ¬ nextFails fs.tail = true →
      ∃ e, ((RedisStore.mk (redisServer now).flaky).Increment (db, fs) key limit b).2.1.entries
        key = some e ∧ e.value = (db.cmdIncr now key).1) := by
  obtain ⟨hlater, hfirst⟩ := flakyIncrement_error_state db now key limit b fs herr
  have hstate : ((RedisStore.mk (redisServer now).flaky).Increment (db, fs) key limit b).2.1 =
      db ∨
      ((RedisStore.mk (redisServer now).flaky).Increment (db, fs) key limit b).2.1 =
        (db.cmdIncr now key).2 ∨
      ((RedisStore.mk (redisServer now).flaky).Increment (db, fs) key limit b).2.1 =
        db.counted now key := by
    by_cases f0 : nextFails fs = true
    · exact Or.inl (hfirst (Or.inl f0))
    · by_cases f1 : nextFails fs.tail = true
      · exact Or.inl (hfirst (Or.inr f1))
      · exact Or.inr (hlater f0 f1)
  have hvalue : ∀ s : RedisDB, s = (db.cmdIncr now key).2 ∨ s = db.counted now key →
      ∃ e, s.entries key = some e ∧ e.value = (db.cmdIncr now key).1 := by
    intro s hs
    rcases hs with h | h
    · rw [h]
      exact cmdIncr_value db now key
    · rw [h]
      exact ⟨_, counted_entries db now key, rfl⟩
  have hother : ∀ k, k ≠ key →
      ((RedisStore.mk (redisServer now).flaky).Increment (db, fs) key limit b).2.1.entries k =
        db.entries k := by
    intro k hk
    rcases hstate with h | h | h
    · rw [h]
    · rw [h]
      exact cmdIncr_entries db now key k hk
    · rw [h]
      simp [RedisDB.counted, RedisDB.put, mapSet, hk]
  exact ⟨hother _ (blockKeyOf_ne key), hother, hfirst,
    fun f0 f1 => hvalue _ (hlater f0 f1)⟩

theorem redis_error_state_witness :
    ((RedisStore.mk (redisServer 0).flaky).Increment (RedisDB.empty, [false, true])
      "ip:10.0.0.7" 5 10).1 = (false, 0, some connectionError) ∧
    ((RedisStore.mk (redisServer 0).flaky).Increment (RedisDB.empty, [false, true])
      "ip:10.0.0.7" 5 10).2.1 = RedisDB.empty := by
  have h := redis_error_state RedisDB.empty 0 "ip:10.0.0.7" 5 10 [false, true] (by decide)
  exact ⟨by decide, h.2.2.1 (Or.inr rfl)⟩

/-- C17 as stated fails. On an empty server, with `limit = 5`: when the third command (the
`EXPIRE`) fails, `Increment` returns an error and the counter key is left at 1 with no
expiry. With `limit = 0`: when the fourth command (the `SETNX`) fails, `Increment` returns an
error and the counter key is left at 1, with its expiry, and no block key. -/
theorem redis_error_not_atomic :
    RedisDB.empty.entries "ip:10.0.0.7" = none ∧
    ((RedisStore.mk (redisServer 0).flaky).Increment (RedisDB.empty, [false, false, true])
      "ip:10.0.0.7" 5 10).1 = (false, 0, some connectionError) ∧
    ((RedisStore.mk (redisServer 0).flaky).Increment (RedisDB.empty, [false, false, true])
      "ip:10.0.0.7" 5 10).2.1.entries "ip:10.0.0.7" = some { value := 1, expireAt := none } ∧
    ((RedisStore.mk (redisServer 0).flaky).Increment
      (RedisDB.empty, [false, false, false, true]) "ip:10.0.0.7" 0 10).1 =
      (false, 0, some connectionError) ∧
    ((RedisStore.mk (redisServer 0).flaky).Increment
      (RedisDB.empty, [false, false, false, true]) "ip:10.0.0.7" 0 10).2.1.entries
      "ip:10.0.0.7" = some { value := 1, expireAt := some 1000000000 } ∧
    ((RedisStore.mk (redisServer 0).flaky).Increment
      (RedisDB.empty, [false, false, false, true]) "ip:10.0.0.7" 0 10).2.1.entries
      "block:ip:10.0.0.7" = none := by
  decide

/-! ## The instant a block expires: away from it the two methods agree -/

/-- Away from the expiry instant of the block of `k`, `IsBlocked(k)` answers blocked exactly
when the key has a block that expires later, which is when `Increment(k, ...)` is rejected by
the block, and the ttl of a blocked answer is positive. -/
theorem isBlocked_agrees_off_expiry (m : MockStore) (t later : Time) (k : String)
    (hf : m.failOnCall = false) (hoff : ∀ e, m.blockedKeys k = some e → e ≠ t) :
    ((m.IsBlocked t k).1.1 = true ↔ ∃ e, m.blockedKeys k = some e ∧ t < e) ∧
    ((m.IsBlocked t k).1.1 = true → 0 < (m.IsBlocked t k).1.2.1) ∧
    (∀ limit b, (m.Increment t later k limit b).2.requestCounts k = m.requestCounts k ↔
      ∃ e, m.blockedKeys k = some e ∧ t < e) := by
  rw [← and_assoc]
  refine ⟨?_, ?_⟩
  swap
  · intro limit b
    obtain ⟨_, s2, s3⟩ := Increment_spec m t later k limit b hf
    constructor
    · intro h
      by_contra hno
      push_neg at hno
      obtain ⟨_, r2, _⟩ := s3 hno
      rw [r2] at h
      have h2 := congrArg (fun o : Option Int => o.getD 0) h
      simp [mapSet] at h2
    · rintro ⟨e, he, ht⟩
      rw [(s2 e he ht).2.1]
  obtain ⟨p1, p2, p3⟩ := IsBlocked_spec m t k hf
  cases hb : m.blockedKeys k with
  | none =>
    rw [p1 hb]
    simp
  | some e =>
    have hne := hoff e hb
    by_cases hlt : e < t
    · rw [p2 e hb hlt]
      simp
      linarith
    · have hgt : t < e := lt_of_le_of_ne (by linarith) (Ne.symm hne)
      rw [p3 e hb (le_of_lt hgt)]
      simp [hgt]


end RateLimit
